import Mathlib

/-!
# UpdateLens — filter normalization and predicate engine, shallow embedding

This file embeds the filter-normalization / filter-resolution core of the
UpdateLens repository in Lean 4 and proves the specification claims about it.

Embedded source files:
* `src/services/FilterDefinitions.ts` — capability table (`isFilterSupported`);
* `src/services/FilterMetadata.ts`    — `normalizeProductLabel`, metadata shapes;
* `src/services/FilterNormalization.ts` — `normalizeSelection`, `normalizeFilters`
  (empty selection repopulates from the option set);
* the unnamed sibling of `FilterNormalization.ts` (`part_002`) — a second
  `normalizeSelection` / `normalizeFilters` pair (empty selection is preserved
  as "no restriction"), plus `selectEffectiveFilters`;
* `src/services/FilterService.ts`     — `filterReleaseItems` (raw product names);
* the unnamed sibling of `FilterService.ts` (`part_003`) — `filterReleaseItems`
  with normalized product names and a staged filtering pipeline.

Modelling conventions:
* TS strings are `String`, arrays are `List`, `Map` is an association list with
  first-let-win insertion, `Set` is first-occurrence deduplication;
* JS `Date` values are integer Unix timestamps in milliseconds, local time is
  taken to be UTC, and the current instant (`new Date()`) is a parameter `now`
  threaded through the engine (the code reads the clock several times inside a
  single pass; we model one fixed instant);
* `Number(...)` applied to the integer numerals that occur in the date strings
  is embedded by an integer-numeral parser (`jsNumber`); `NaN` is `none`;
* the DOM-based `extractCountriesFromHtml` (browser `DOMParser`) is an external
  collaborator and is a function parameter `geoExtract` of the engine.
-/

/-- JS falsy test for a `number | NaN` value (`none` = `NaN`). -/
def jsNumFalsy : Option Int → Bool
  | none => true
  | some v => v == 0

/-- Character class of the JS `\s` / `trim` whitespace, restricted to the
whitespace characters that can occur in the embedded data. -/
def isJsWs (c : Char) : Bool :=
  c == ' ' || c == '\t' || c == '\n' || c == '\r' ||
  c == '\x0b' || c == '\x0c' || c.val == 0xa0

/-- JS `String.prototype.trim` on a character list. -/
def jsTrimChars (l : List Char) : List Char :=
  ((l.dropWhile isJsWs).reverse.dropWhile isJsWs).reverse

/-- JS `String.prototype.trim`. -/
def jsTrim (s : String) : String :=
  String.mk (jsTrimChars s.toList)

/-- Digit run to a natural number value, `none` when empty or non-digit. -/
def digitsVal : List Char → Option Nat
  | [] => none
  | l =>
    if l.all (·.isDigit) then
      some (l.foldl (fun acc c => acc * 10 + (c.toNat - '0'.toNat)) 0)
    else
      none

/-- JS `Number(s)` for the string shapes that reach the date parsers:
an optionally signed integer numeral (`none` = `NaN`; the empty / all-blank
string converts to `0` as in JS). -/
def jsNumber (s : String) : Option Int :=
  match jsTrimChars s.toList with
  | [] => some 0
  | '-' :: rest => (digitsVal rest).map (fun n => -(n : Int))
  | '+' :: rest => (digitsVal rest).map (fun n => (n : Int))
  | l => (digitsVal l).map (fun n => (n : Int))

/-- JS `Number(x)` where `x` may be `undefined` (`Number(undefined) = NaN`). -/
def jsNumberOpt : Option String → Option Int
  | none => none
  | some s => jsNumber s

/-- JS `Set` insertion: append the element unless already present. -/
def insertUnique (acc : List String) (x : String) : List String :=
  if x ∈ acc then acc else acc ++ [x]

/-- Iteration order of a JS `Set` filled from `l` (first occurrences win). -/
def jsSetDedup (l : List String) : List String :=
  l.foldl insertUnique []

/-- Substring test on character lists (JS `String.prototype.includes`). -/
def charsContain (hay needle : List Char) : Bool :=
  match hay with
  | [] => needle.isEmpty
  | _ :: t => needle.isPrefixOf hay || charsContain t needle

/-- JS `haystack.includes(needle)`. -/
def strIncludes (hay needle : String) : Bool :=
  charsContain hay.toList needle.toList

/-- JS `split(sep)` scanner for a one-character separator (empty segments
preserved); fuel is always the input length. -/
def sepGo (sep : Char) : Nat → List Char → List (List Char)
  | 0, l => [l]
  | fuel + 1, l =>
    let word := l.takeWhile (fun c => !(c == sep))
    match l.dropWhile (fun c => !(c == sep)) with
    | c :: r => if c == sep then word :: sepGo sep fuel r else [word]
    | [] => [word]

/-- JS `split(sep)` on a character list for a one-character separator. -/
def splitOnChar (sep : Char) (l : List Char) : List (List Char) :=
  sepGo sep l.length l

/-- JS `s.split(sep)` for a one-character separator string. -/
def jsSplitOnChar (sep : Char) (s : String) : List String :=
  (splitOnChar sep s.toList).map String.mk

/-- JS `String.prototype.toLowerCase` (per-character ASCII lowering). -/
def jsToLower (s : String) : String :=
  String.mk (s.toList.map Char.toLower)

/-! ## JS `Date` arithmetic

Timestamps are milliseconds; days use the proleptic Gregorian calendar
(Howard Hinnant's `days_from_civil` / `civil_from_days` algorithms), which is
exactly the calendar underlying JS `Date` in UTC. -/

/-- Milliseconds per day. -/
def msPerDay : Int := 86400000

/-- Days since 1970-01-01 of the civil date `y-m-d` (month `1..12`). -/
def daysFromCivil (y m d : Int) : Int :=
  let y' := if m ≤ 2 then y - 1 else y
  let era := (if 0 ≤ y' then y' else y' - 399).fdiv 400
  let yoe := y' - era * 400
  let mp := (m + 9).emod 12
  let doy := (153 * mp + 2).fdiv 5 + d - 1
  let doe := yoe * 365 + yoe.fdiv 4 - yoe.fdiv 100 + doy
  era * 146097 + doe - 719468

/-- Civil date `(y, m, d)` (month `1..12`) of a day count since 1970-01-01. -/
def civilFromDays (z : Int) : Int × Int × Int :=
  let z' := z + 719468
  let era := (if 0 ≤ z' then z' else z' - 146096).fdiv 146097
  let doe := z' - era * 146097
  let yoe := (doe - doe.fdiv 1460 + doe.fdiv 36524 - doe.fdiv 146096).fdiv 365
  let y := yoe + era * 400
  let doy := doe - (365 * yoe + yoe.fdiv 4 - yoe.fdiv 100)
  let mp := (5 * doy + 2).fdiv 153
  let d := doy - (153 * mp + 2).fdiv 5 + 1
  let m := if mp < 10 then mp + 3 else mp - 9
  (if m ≤ 2 then y + 1 else y, m, d)

/-- Timestamp of JS `new Date(year, monthIndex, day)` (midnight UTC): two-digit
years map into 1900–1999, the month index is normalized into the year, and a
day outside the month's range rolls over arithmetically. -/
def jsDateMs (year monthIdx day : Int) : Int :=
  let yr := if 0 ≤ year ∧ year ≤ 99 then year + 1900 else year
  let ym := yr + monthIdx.fdiv 12
  let mn := monthIdx.emod 12
  (daysFromCivil ym (mn + 1) 1 + (day - 1)) * msPerDay

/-- JS `date.setMonth(date.getMonth() + months)` on a timestamp, as performed
by the engine's `addMonths` helper: keep the day-of-month and time-of-day,
shift the month (no two-digit-year quirk on `setMonth`). -/
def jsAddMonths (ts : Int) (months : Int) : Int :=
  let msOfDay := ts.emod msPerDay
  let (y, m, d) := civilFromDays (ts.fdiv msPerDay)
  let mi := m - 1 + months
  let ym := y + mi.fdiv 12
  let mn := mi.emod 12
  (daysFromCivil ym (mn + 1) 1 + (d - 1)) * msPerDay + msOfDay

/-! ## Date parsing (`FilterService.ts` / `part_003`, identical helpers) -/

/-- Embeds `toMonthDate`: split on `-`, convert the first two fields with
`Number`, reject falsy year/month and months outside `1..12`, then build
`new Date(year, month - 1, 1)`. -/
def toMonthDate (value : String) : Option Int :=
  let parts := jsSplitOnChar '-' value
  let year := jsNumberOpt (parts.get? 0)
  let month := jsNumberOpt (parts.get? 1)
  if jsNumFalsy year || jsNumFalsy month then none
  else
    match year, month with
    | some y, some m => if m < 1 ∨ 12 < m then none else some (jsDateMs y (m - 1) 1)
    | _, _ => none

/-- Test for the regex `^\d{4}-\d{2}-\d{2}$`. -/
def matchesIsoDate (s : String) : Bool :=
  match s.toList with
  | [a, b, c, d, h1, e, f, h2, g, h] =>
    a.isDigit && b.isDigit && c.isDigit && d.isDigit && h1 == '-' &&
    e.isDigit && f.isDigit && h2 == '-' && g.isDigit && h.isDigit
  | _ => false

/-- Embeds `parseDateAny`: empty/missing input is `null`; a `YYYY-MM-DD` shape
parses as `new Date(y, m-1, d)` with falsy component checks; anything else
falls through to `toMonthDate`. -/
def parseDateAny (value : Option String) : Option Int :=
  match value with
  | none => none
  | some v =>
    if v = "" then none
    else if matchesIsoDate v then
      let parts := jsSplitOnChar '-' v
      let year := jsNumberOpt (parts.get? 0)
      let month := jsNumberOpt (parts.get? 1)
      let day := jsNumberOpt (parts.get? 2)
      if jsNumFalsy year || jsNumFalsy month || jsNumFalsy day then none
      else
        match year, month, day with
        | some y, some m, some d => some (jsDateMs y (m - 1) d)
        | _, _, _ => none
    else toMonthDate v

/-- Embeds `withinLastDays`: a null date fails; otherwise the date must lie in
`[now - days, now]`. -/
def withinLastDays (now : Int) (date : Option Int) (days : Int) : Bool :=
  match date with
  | none => false
  | some d => decide (now - days * msPerDay ≤ d) && decide (d ≤ now)

/-! ## Data model

`ReleaseItem` carries the fields of the Zod schema that the embedded core
reads; connector-only fields (`productId`, `releasePlanId`, `sourceUrl`, …)
are never consulted by the normalization or predicate code and are omitted.
`ReleaseStatus` is a closed string enumeration in the schema; the engine only
ever compares it to selection strings, so it is embedded as `String`. -/

inductive ReleaseSource where
  | Microsoft
  | EOS
deriving DecidableEq, Repr

/-- Runtime string value of a `ReleaseSource` tag (the TS type is the string
union `'Microsoft' | 'EOS'`). -/
def sourceName : ReleaseSource → String
  | .Microsoft => "Microsoft"
  | .EOS => "EOS"

structure ReleaseItem where
  id : String
  source : ReleaseSource
  productName : String
  title : String
  summary : String
  description : String
  status : String
  category : Option String := none
  tags : Option (List String) := none
  wave : Option String := none
  availabilityTypes : Option (List String) := none
  enabledFor : Option String := none
  geography : Option String := none
  geographyCountries : Option (List String) := none
  language : Option String := none
  lastUpdatedDate : Option String := none
  availabilityDate : String
  releaseDate : String
  minBcVersion : Option Int := none
deriving DecidableEq, Repr

/-- Filter dimensions (`FilterKey` in `FilterDefinitions.ts`). -/
inductive FilterKey where
  | status
  | wave
  | categories
  | geography
  | enabledFor
  | availabilityType
  | releaseDateRange
  | periodNewDays
  | periodChangedDays
  | releaseInDays
  | bcMinVersion
  | productOrApp
  | months
  | tags
  | language
  | query
  | sortOrder
  | historyMonths
  | horizonMonths
deriving DecidableEq, Repr

inductive SourceKey where
  | microsoft
  | eos
deriving DecidableEq, Repr

/-- Embeds `toSourceKey`: `source === 'Microsoft' ? 'microsoft' : 'eos'`. -/
def toSourceKey : ReleaseSource → SourceKey
  | .Microsoft => .microsoft
  | .EOS => .eos

/-- Embeds the static `FILTER_CAPABILITIES` table. -/
def FILTER_CAPABILITIES : SourceKey → List FilterKey
  | .microsoft =>
    [.status, .wave, .categories, .geography, .enabledFor, .availabilityType,
     .releaseDateRange, .periodNewDays, .periodChangedDays, .releaseInDays,
     .productOrApp, .months, .tags, .language, .query, .sortOrder,
     .historyMonths, .horizonMonths]
  | .eos =>
    [.status, .categories, .geography, .releaseDateRange, .periodNewDays,
     .periodChangedDays, .releaseInDays, .bcMinVersion, .productOrApp,
     .months, .tags, .language, .query, .sortOrder, .historyMonths,
     .horizonMonths]

/-- Embeds `isFilterSupported`. -/
def isFilterSupported (source : ReleaseSource) (key : FilterKey) : Bool :=
  (FILTER_CAPABILITIES (toSourceKey source)).contains key

/-- Embeds `FilterState` (`src/models/Filters`), field list as materialized by
`createDefaultFilters` and the test fixtures. -/
@[ext]
structure FilterState where
  targetCustomerIds : List String
  targetGroupIds : List String
  targetCssOwners : List String
  products : List String
  sources : List String
  statuses : List String
  categories : List String
  tags : List String
  waves : List String
  months : List String
  availabilityTypes : List String
  enabledFor : List String
  geography : List String
  language : List String
  periodNewDays : Int
  periodChangedDays : Int
  releaseInDays : Int
  minBcVersionMin : Option Int
  releaseDateFrom : String
  releaseDateTo : String
  sortOrder : String
  query : String
  horizonMonths : Int
  historyMonths : Int
deriving DecidableEq, Repr

/-- Embeds `FilterOption` (`FilterMetadata.ts`); `sources` holds source-tag
strings as at runtime. -/
structure FilterOption where
  value : String
  label : Option String := none
  count : Int := 0
  sources : List String
deriving DecidableEq, Repr

/-- Embeds `FilterMetadata`. -/
structure FilterMetadata where
  sources : List FilterOption
  products : List FilterOption
  statuses : List FilterOption
  categories : List FilterOption
  tags : List FilterOption
  waves : List FilterOption
  months : List FilterOption
  availabilityTypes : List FilterOption
  enabledFor : List FilterOption
  geography : List FilterOption
  language : List FilterOption

/-- Embeds `NormalizationContext`. The two `Map`s are embedded as lookup
functions (`Map.get` and `Map.get(...) ?? []` respectively); keys and source
tags are the runtime strings. -/
structure NormalizationContext where
  sourceOptions : List String
  metadata : FilterMetadata
  productSourceMap : String → Option String
  productsBySource : String → List String

/-! ## Product-label normalizer (`FilterMetadata.ts`)

`normalizeProductLabel` is a five-stage string pipeline; each regex stage is
embedded as a character scanner with the same leftmost-match, greedy-negated-
class semantics as the JS regex. Scanners that consume more than one character
per step use an explicit fuel argument (always called with fuel = input
length, which each step strictly respects). -/

/-- Match attempt of `\[([^\]]+)\]\([^)]+\)` at the start of `l` (the leading
`[` already consumed): returns the link text and the remainder after `)`. -/
def mdTryLink (l : List Char) : Option (List Char × List Char) :=
  let text := l.takeWhile (fun c => !(c == ']'))
  if text.isEmpty then none
  else
    match l.dropWhile (fun c => !(c == ']')) with
    | ']' :: '(' :: r2 =>
      let url := r2.takeWhile (fun c => !(c == ')'))
      if url.isEmpty then none
      else
        match r2.dropWhile (fun c => !(c == ')')) with
        | ')' :: r4 => some (text, r4)
        | _ => none
    | _ => none

/-- Scanner for `label.replace(/\[([^\]]+)\]\([^)]+\)/g, '$1')`. -/
def smGo : Nat → List Char → List Char
  | 0, l => l
  | _ + 1, [] => []
  | fuel + 1, c :: rest =>
    if c == '[' then
      match mdTryLink rest with
      | some (text, r) => text ++ smGo fuel r
      | none => c :: smGo fuel rest
    else c :: smGo fuel rest

/-- Stage 1: remove markdown links, keeping the link text. -/
def stripMarkdownLinks (l : List Char) : List Char :=
  smGo l.length l

/-- Case-insensitive literal prefix match (`pat` given lowercase); returns the
remainder on success. -/
def dropCaseInsenPrefix : List Char → List Char → Option (List Char)
  | [], l => some l
  | _ :: _, [] => none
  | p :: ps, c :: cs => if c.toLower == p then dropCaseInsenPrefix ps cs else none

/-- Match attempt of `https?:\/\/[^\s]+` (flag `i`) at the start of `l`:
returns the remainder after the maximal run of non-whitespace characters.
(The regex `s?` backtracking alternative can never succeed because `s ≠ :`,
so consuming an `s` when present is exact.) -/
def urlTryMatch (l : List Char) : Option (List Char) :=
  (dropCaseInsenPrefix ['h', 't', 't', 'p'] l).bind fun r =>
    let r' := match r with
      | c :: r2 => if c.toLower == 's' then r2 else c :: r2
      | [] => r
    (dropCaseInsenPrefix [':', '/', '/'] r').bind fun r3 =>
      if (r3.takeWhile (fun c => !isJsWs c)).isEmpty then none
      else some (r3.dropWhile (fun c => !isJsWs c))

/-- Scanner for `label.replace(/https?:\/\/[^\s]+/gi, '')`. -/
def uGo : Nat → List Char → List Char
  | 0, l => l
  | _ + 1, [] => []
  | fuel + 1, c :: rest =>
    match urlTryMatch (c :: rest) with
    | some r => uGo fuel r
    | none => c :: uGo fuel rest

/-- Stage 2: remove standalone URLs. -/
def stripUrls (l : List Char) : List Char :=
  uGo l.length l

/-- Character class `[[\]()]`. -/
def isStrayBracket (c : Char) : Bool :=
  c == '[' || c == ']' || c == '(' || c == ')'

/-- Stage 3: `label.replace(/[[\]()]/g, '')`. -/
def stripBrackets (l : List Char) : List Char :=
  l.filter (fun c => !isStrayBracket c)

/-- Scanner for `replace(/\s+/g, ' ')`. -/
def cwGo : Nat → List Char → List Char
  | 0, l => l
  | _ + 1, [] => []
  | fuel + 1, c :: rest =>
    if isJsWs c then ' ' :: cwGo fuel (rest.dropWhile isJsWs)
    else c :: cwGo fuel rest

/-- Collapse every whitespace run to a single space. -/
def collapseWs (l : List Char) : List Char :=
  cwGo l.length l

/-- `word.length > 0 ? word.charAt(0).toUpperCase() + word.slice(1) : ''`. -/
def capWord : List Char → List Char
  | [] => []
  | c :: r => c.toUpper :: r

/-- JS `Array.prototype.join(' ')`. -/
def joinSpace : List (List Char) → List Char
  | [] => []
  | [w] => w
  | w :: w2 :: t => w ++ ' ' :: joinSpace (w2 :: t)

/-- Stage 5: `label.toLowerCase().split(' ').map(capitalize).join(' ')`. -/
def titleCase (l : List Char) : List Char :=
  joinSpace ((splitOnChar ' ' (l.map Char.toLower)).map capWord)

/-- Embeds `normalizeProductLabel` (`FilterMetadata.ts`): strip markdown links,
strip URLs, strip stray brackets, trim and collapse whitespace, title-case. -/
def normalizeProductLabel (raw : String) : String :=
  if raw = "" then ""
  else
    String.mk (titleCase (collapseWs (jsTrimChars (stripBrackets (stripUrls
      (stripMarkdownLinks raw.toList))))))

/-! ## Selection normalizer — `FilterNormalization.ts` and its unnamed sibling

`optionValuesForSources` / `normalizeSelectionForSources` are textually
identical in both files; the two files differ in `normalizeSelection`'s
treatment of an empty selection and of an empty option set. -/

/-- Embeds `optionValuesForSources` (identical in both normalization files). -/
def optionValuesForSources (options : List FilterOption) (sources : List String)
    (matchAllSources : Bool) : List String :=
  if options.isEmpty || sources.isEmpty then []
  else
    (options.filter (fun option =>
      if matchAllSources then sources.all (fun source => option.sources.contains source)
      else option.sources.any (fun source => sources.contains source))).map (·.value)

namespace FilterNormalization

/-- Embeds `normalizeSelection` of `src/services/FilterNormalization.ts`:
an empty selection (or an empty option set) yields the whole option set;
otherwise invalid values are dropped, falling back to the whole option set
when nothing valid remains. -/
def normalizeSelection (values options : List String) : List String :=
  if values.isEmpty || options.isEmpty then options
  else
    let valid := values.filter (fun value => options.contains value)
    if valid.isEmpty then options else valid

/-- Embeds `normalizeSelectionForSources` of `FilterNormalization.ts`. -/
def normalizeSelectionForSources (values : List String) (options : List FilterOption)
    (sources : List String) (matchAllSources : Bool) : List String :=
  normalizeSelection values (optionValuesForSources options sources matchAllSources)

/-- Embeds `normalizeFilters` of `src/services/FilterNormalization.ts`.
`{ ...defaults, ...raw }` with a fully-populated `raw : FilterState` is `raw`
itself. The `console.log` in the not-ready guard is effect-free and omitted. -/
def normalizeFilters (raw : Option FilterState) (defaults : FilterState)
    (context : NormalizationContext) : FilterState :=
  match raw with
  | none => defaults
  | some raw =>
    let merged := raw
    let matchAllSources := false
    if context.sourceOptions.isEmpty || context.metadata.products.isEmpty then merged
    else
      let sources := normalizeSelection merged.sources context.sourceOptions
      let productSelection :=
        normalizeSelectionForSources merged.products context.metadata.products
          sources matchAllSources
      let expansions := sources.foldr (fun source acc =>
        (if productSelection.any
            (fun product => context.productSourceMap product == some source) then []
         else context.productsBySource source) ++ acc) []
      let products := jsSetDedup (productSelection ++ expansions)
      { merged with
        products := products
        sources := sources
        statuses := normalizeSelectionForSources merged.statuses
          context.metadata.statuses sources matchAllSources
        categories := normalizeSelectionForSources merged.categories
          context.metadata.categories sources matchAllSources
        tags := normalizeSelectionForSources merged.tags
          context.metadata.tags sources matchAllSources
        waves := normalizeSelectionForSources merged.waves
          context.metadata.waves sources matchAllSources
        months := normalizeSelectionForSources merged.months
          context.metadata.months sources matchAllSources
        availabilityTypes := normalizeSelectionForSources merged.availabilityTypes
          context.metadata.availabilityTypes sources matchAllSources
        enabledFor := normalizeSelectionForSources merged.enabledFor
          context.metadata.enabledFor sources matchAllSources
        geography := normalizeSelectionForSources merged.geography
          context.metadata.geography sources matchAllSources
        language := normalizeSelectionForSources merged.language
          context.metadata.language sources matchAllSources }

end FilterNormalization

namespace FilterNormalizationAlt

/-- Embeds `normalizeSelection` of the unnamed sibling file (`part_002`):
an empty selection stays empty ("no filter"), an empty option set yields an
empty selection; otherwise as in `FilterNormalization.normalizeSelection`. -/
def normalizeSelection (values options : List String) : List String :=
  if values.isEmpty then []
  else if options.isEmpty then []
  else
    let valid := values.filter (fun value => options.contains value)
    if valid.isEmpty then options else valid

/-- Embeds `normalizeSelectionForSources` of `part_002`. -/
def normalizeSelectionForSources (values : List String) (options : List FilterOption)
    (sources : List String) (matchAllSources : Bool) : List String :=
  normalizeSelection values (optionValuesForSources options sources matchAllSources)

/-- Embeds `normalizeFilters` of `part_002` (same structure as
`FilterNormalization.normalizeFilters`, but with this file's
`normalizeSelection`). -/
def normalizeFilters (raw : Option FilterState) (defaults : FilterState)
    (context : NormalizationContext) : FilterState :=
  match raw with
  | none => defaults
  | some raw =>
    let merged := raw
    let matchAllSources := false
    if context.sourceOptions.isEmpty || context.metadata.products.isEmpty then merged
    else
      let sources := normalizeSelection merged.sources context.sourceOptions
      let productSelection :=
        normalizeSelectionForSources merged.products context.metadata.products
          sources matchAllSources
      let expansions := sources.foldr (fun source acc =>
        (if productSelection.any
            (fun product => context.productSourceMap product == some source) then []
         else context.productsBySource source) ++ acc) []
      let products := jsSetDedup (productSelection ++ expansions)
      { merged with
        products := products
        sources := sources
        statuses := normalizeSelectionForSources merged.statuses
          context.metadata.statuses sources matchAllSources
        categories := normalizeSelectionForSources merged.categories
          context.metadata.categories sources matchAllSources
        tags := normalizeSelectionForSources merged.tags
          context.metadata.tags sources matchAllSources
        waves := normalizeSelectionForSources merged.waves
          context.metadata.waves sources matchAllSources
        months := normalizeSelectionForSources merged.months
          context.metadata.months sources matchAllSources
        availabilityTypes := normalizeSelectionForSources merged.availabilityTypes
          context.metadata.availabilityTypes sources matchAllSources
        enabledFor := normalizeSelectionForSources merged.enabledFor
          context.metadata.enabledFor sources matchAllSources
        geography := normalizeSelectionForSources merged.geography
          context.metadata.geography sources matchAllSources
        language := normalizeSelectionForSources merged.language
          context.metadata.language sources matchAllSources }

/-- Embeds `FilterMode` (`'inherit' | 'custom'`). -/
inductive FilterMode where
  | inherit
  | custom
deriving DecidableEq, Repr

/-- Embeds `selectEffectiveFilters` (`part_002`): normalize the global filters
first; fall back to them when no customer is active (JS falsy check: `null` or
the empty string), when the active customer's mode resolves to `inherit`
(absent entries default to `inherit`), or when a `custom` customer has no
stored override; otherwise normalize and return the stored override. -/
def selectEffectiveFilters (activeCustomerId : Option String)
    (cssFilters : Option FilterState)
    (customerFilters : String → Option FilterState)
    (customerFilterMode : String → Option FilterMode)
    (defaultFilters : FilterState)
    (normContext : NormalizationContext) : FilterState :=
  let normalizedGlobal := normalizeFilters cssFilters defaultFilters normContext
  match activeCustomerId with
  | none => normalizedGlobal
  | some id =>
    if id = "" then normalizedGlobal
    else
      match (customerFilterMode id).getD .inherit with
      | .inherit => normalizedGlobal
      | .custom =>
        match customerFilters id with
        | none => normalizedGlobal
        | some customerOverride =>
          normalizeFilters (some customerOverride) defaultFilters normContext

end FilterNormalizationAlt

/-! ## Predicate engine — `FilterService.ts` and its unnamed sibling (`part_003`)

Each early-return block of the item predicate is embedded as one clause
function returning `true` when the block does not reject the item; the item
predicate is the conjunction of the clauses in source order. The two files
share the text of every clause except the products clause (raw vs normalized
product names) and differ in pipeline staging, which the embeddings mirror. -/

/-- JS truthiness of an optional string (`undefined` and `''` are falsy). -/
def jsStrTruthy : Option String → Bool
  | none => false
  | some s => !(s == "")

/-- Product→source map of `FilterService.ts`: first occurrence of each raw
`productName` wins. -/
def buildRawProductSourceMap (items : List ReleaseItem) : List (String × ReleaseSource) :=
  items.foldl (fun m item =>
    if (m.lookup item.productName).isSome then m
    else m ++ [(item.productName, item.source)]) []

/-- Product→source map of `part_003`: first occurrence of each normalized
`productName` wins. -/
def buildNormalizedProductSourceMap (items : List ReleaseItem) :
    List (String × ReleaseSource) :=
  items.foldl (fun m item =>
    if (m.lookup (normalizeProductLabel item.productName)).isSome then m
    else m ++ [(normalizeProductLabel item.productName, item.source)]) []

/-- Sources block: `if (filters.sources.length && !filters.sources.includes(item.source))`. -/
def passSourcesClause (filters : FilterState) (item : ReleaseItem) : Bool :=
  if !filters.sources.isEmpty then filters.sources.contains (sourceName item.source)
  else true

/-- Status block. -/
def passStatusClause (filters : FilterState) (item : ReleaseItem) : Bool :=
  if isFilterSupported item.source .status && !filters.statuses.isEmpty then
    filters.statuses.contains item.status
  else true

/-- Products block of `FilterService.ts`: raw product names on both sides. -/
def passProductsRawClause (productSourceMap : List (String × ReleaseSource))
    (filters : FilterState) (item : ReleaseItem) : Bool :=
  if isFilterSupported item.source .productOrApp && !filters.products.isEmpty then
    let hasProductForSource := filters.products.any
      (fun product => productSourceMap.lookup product == some item.source)
    if hasProductForSource then filters.products.contains item.productName else true
  else true

/-- Products block of `part_003`: the item's product name is normalized before
comparison (the map passed in is the normalized-key map). -/
def passProductsNormClause (productSourceMap : List (String × ReleaseSource))
    (filters : FilterState) (item : ReleaseItem) : Bool :=
  if isFilterSupported item.source .productOrApp && !filters.products.isEmpty then
    let normalizedItemProduct := normalizeProductLabel item.productName
    let hasProductForSource := filters.products.any
      (fun product => productSourceMap.lookup product == some item.source)
    if hasProductForSource then filters.products.contains normalizedItemProduct
    else true
  else true

/-- Categories block: `if (!item.category || !filters.categories.includes(item.category))`. -/
def passCategoriesClause (filters : FilterState) (item : ReleaseItem) : Bool :=
  if isFilterSupported item.source .categories && !filters.categories.isEmpty then
    jsStrTruthy item.category && filters.categories.contains (item.category.getD "")
  else true

/-- Wave block. -/
def passWaveClause (filters : FilterState) (item : ReleaseItem) : Bool :=
  if isFilterSupported item.source .wave && !filters.waves.isEmpty then
    jsStrTruthy item.wave && filters.waves.contains (item.wave.getD "")
  else true

/-- Availability-types block: non-empty intersection with `item.availabilityTypes ?? []`. -/
def passAvailabilityTypeClause (filters : FilterState) (item : ReleaseItem) : Bool :=
  if isFilterSupported item.source .availabilityType &&
      !filters.availabilityTypes.isEmpty then
    let types := item.availabilityTypes.getD []
    filters.availabilityTypes.any (fun t => types.contains t)
  else true

/-- Enabled-for block. -/
def passEnabledForClause (filters : FilterState) (item : ReleaseItem) : Bool :=
  if isFilterSupported item.source .enabledFor && !filters.enabledFor.isEmpty then
    jsStrTruthy item.enabledFor && filters.enabledFor.contains (item.enabledFor.getD "")
  else true

/-- Geography block: `geographyCountries` when present and non-empty, else the
countries extracted from the HTML geography content. -/
def passGeographyClause (geoExtract : String → List String)
    (filters : FilterState) (item : ReleaseItem) : Bool :=
  if isFilterSupported item.source .geography && !filters.geography.isEmpty then
    let geographyValues :=
      match item.geographyCountries with
      | some l => if !l.isEmpty then l else geoExtract (item.geography.getD "")
      | none => geoExtract (item.geography.getD "")
    filters.geography.any (fun geo => geographyValues.contains geo)
  else true

/-- Language block. -/
def passLanguageClause (filters : FilterState) (item : ReleaseItem) : Bool :=
  if isFilterSupported item.source .language && !filters.language.isEmpty then
    jsStrTruthy item.language && filters.language.contains (item.language.getD "")
  else true

/-- Minimum-version block: `if (item.minBcVersion != null && item.minBcVersion <
filters.minBcVersionMin) return false`. -/
def passBcMinVersionClause (filters : FilterState) (item : ReleaseItem) : Bool :=
  if isFilterSupported item.source .bcMinVersion && !(filters.minBcVersionMin == none) then
    match filters.minBcVersionMin, item.minBcVersion with
    | some floor, some v => !(v < floor)
    | _, _ => true
  else true

/-- Tags block: non-empty intersection with `item.tags ?? []`. -/
def passTagsClause (filters : FilterState) (item : ReleaseItem) : Bool :=
  if isFilterSupported item.source .tags && !filters.tags.isEmpty then
    let tags := item.tags.getD []
    filters.tags.any (fun tag => tags.contains tag)
  else true

/-- Months block: exact membership of `item.availabilityDate`. -/
def passMonthsClause (filters : FilterState) (item : ReleaseItem) : Bool :=
  if isFilterSupported item.source .months && !filters.months.isEmpty then
    filters.months.contains item.availabilityDate
  else true

/-- Horizon block: `if (itemDate && itemDate > horizon) return false`. -/
def passHorizonClause (horizon : Int) (item : ReleaseItem) : Bool :=
  match toMonthDate item.availabilityDate with
  | some d => !(horizon < d)
  | none => true

/-- History block: `if (itemDate && itemDate < historyLimit) return false`. -/
def passHistoryClause (historyLimit : Int) (item : ReleaseItem) : Bool :=
  match toMonthDate item.availabilityDate with
  | some d => !(d < historyLimit)
  | none => true

/-- New-within-days block. -/
def passPeriodNewClause (now : Int) (filters : FilterState) (item : ReleaseItem) : Bool :=
  if isFilterSupported item.source .periodNewDays && 0 < filters.periodNewDays then
    withinLastDays now (parseDateAny (some item.releaseDate)) filters.periodNewDays
  else true

/-- Changed-within-days block: last-updated date falling back to release date. -/
def passPeriodChangedClause (now : Int) (filters : FilterState) (item : ReleaseItem) : Bool :=
  if isFilterSupported item.source .periodChangedDays && 0 < filters.periodChangedDays then
    let updated :=
      match parseDateAny item.lastUpdatedDate with
      | some d => some d
      | none => parseDateAny (some item.releaseDate)
    withinLastDays now updated filters.periodChangedDays
  else true

/-- Releasing-within-days block: release date must lie in `[now, now + N days]`. -/
def passReleaseInClause (now : Int) (filters : FilterState) (item : ReleaseItem) : Bool :=
  if isFilterSupported item.source .releaseInDays && 0 < filters.releaseInDays then
    match parseDateAny (some item.releaseDate) with
    | none => false
    | some releaseDate =>
      !(releaseDate < now) && !(now + filters.releaseInDays * msPerDay < releaseDate)
  else true

/-- Release-date lower bound block. -/
def passDateFromClause (releaseDateFrom : Option Int) (item : ReleaseItem) : Bool :=
  match releaseDateFrom with
  | none => true
  | some fromTs =>
    if isFilterSupported item.source .releaseDateRange then
      match parseDateAny (some item.releaseDate) with
      | none => false
      | some releaseDate => !(releaseDate < fromTs)
    else true

/-- Release-date upper bound block. -/
def passDateToClause (releaseDateTo : Option Int) (item : ReleaseItem) : Bool :=
  match releaseDateTo with
  | none => true
  | some toTs =>
    if isFilterSupported item.source .releaseDateRange then
      match parseDateAny (some item.releaseDate) with
      | none => false
      | some releaseDate => !(toTs < releaseDate)
    else true

/-- Free-text query block: case-insensitive substring of
`title description productName` (the query is pre-trimmed and lowercased). -/
def passQueryClause (query : String) (item : ReleaseItem) : Bool :=
  if isFilterSupported item.source .query && !(query == "") then
    strIncludes (jsToLower (item.title ++ " " ++ item.description ++ " " ++ item.productName))
      query
  else true

namespace FilterService

/-- Item predicate of `FilterService.ts`, clauses in source order. -/
def itemPasses (geoExtract : String → List String) (now : Int)
    (productSourceMap : List (String × ReleaseSource))
    (filters : FilterState) (item : ReleaseItem) : Bool :=
  let horizon := jsAddMonths now filters.horizonMonths
  let historyLimit := jsAddMonths now (-filters.historyMonths)
  let query := jsToLower (jsTrim filters.query)
  let releaseDateFrom := parseDateAny (some filters.releaseDateFrom)
  let releaseDateTo := parseDateAny (some filters.releaseDateTo)
  passSourcesClause filters item &&
  passStatusClause filters item &&
  passProductsRawClause productSourceMap filters item &&
  passCategoriesClause filters item &&
  passWaveClause filters item &&
  passAvailabilityTypeClause filters item &&
  passEnabledForClause filters item &&
  passGeographyClause geoExtract filters item &&
  passLanguageClause filters item &&
  passBcMinVersionClause filters item &&
  passTagsClause filters item &&
  passMonthsClause filters item &&
  passHorizonClause horizon item &&
  passHistoryClause historyLimit item &&
  passPeriodNewClause now filters item &&
  passPeriodChangedClause now filters item &&
  passReleaseInClause now filters item &&
  passDateFromClause releaseDateFrom item &&
  passDateToClause releaseDateTo item &&
  passQueryClause query item

/-- Embeds `filterReleaseItems` of `FilterService.ts`. -/
def filterReleaseItems (geoExtract : String → List String) (now : Int)
    (items : List ReleaseItem) (filters : FilterState) : List ReleaseItem :=
  let productSourceMap := buildRawProductSourceMap items
  items.filter (itemPasses geoExtract now productSourceMap filters)

end FilterService

namespace FilterServiceV2

/-- Tail predicate of `part_003` (stage 6, "all other filters"). -/
def restPasses (geoExtract : String → List String) (now : Int)
    (filters : FilterState) (item : ReleaseItem) : Bool :=
  let query := jsToLower (jsTrim filters.query)
  let releaseDateFrom := parseDateAny (some filters.releaseDateFrom)
  let releaseDateTo := parseDateAny (some filters.releaseDateTo)
  passCategoriesClause filters item &&
  passWaveClause filters item &&
  passAvailabilityTypeClause filters item &&
  passEnabledForClause filters item &&
  passGeographyClause geoExtract filters item &&
  passLanguageClause filters item &&
  passBcMinVersionClause filters item &&
  passTagsClause filters item &&
  passMonthsClause filters item &&
  passPeriodNewClause now filters item &&
  passPeriodChangedClause now filters item &&
  passReleaseInClause now filters item &&
  passDateFromClause releaseDateFrom item &&
  passDateToClause releaseDateTo item &&
  passQueryClause query item

/-- Embeds `filterReleaseItems` of `part_003`: staged pipeline — sources,
statuses, products (normalized names), horizon, history, then the remaining
clauses. The debug counters and conditional `console.log` are effect-free and
omitted. -/
def filterReleaseItems (geoExtract : String → List String) (now : Int)
    (items : List ReleaseItem) (filters : FilterState) : List ReleaseItem :=
  let horizon := jsAddMonths now filters.horizonMonths
  let historyLimit := jsAddMonths now (-filters.historyMonths)
  let productSourceMap := buildNormalizedProductSourceMap items
  let remaining := items
  let r1 :=
    if !filters.sources.isEmpty then
      remaining.filter (fun item => filters.sources.contains (sourceName item.source))
    else remaining
  let r2 := r1.filter (fun item => passStatusClause filters item)
  let r3 := r2.filter (fun item => passProductsNormClause productSourceMap filters item)
  let r4 := r3.filter (fun item => passHorizonClause horizon item)
  let r5 := r4.filter (fun item => passHistoryClause historyLimit item)
  r5.filter (fun item => restPasses geoExtract now filters item)

end FilterServiceV2

/-! ## Auxiliary notions used by the statements -/

/-- Reset the `FilterState` field(s) read by one filter dimension to a fixed
neutral value. Two states agree outside dimension `d` iff their `maskDim d`
images are equal. -/
def maskDim : FilterKey → FilterState → FilterState
  | .status, f => { f with statuses := [] }
  | .wave, f => { f with waves := [] }
  | .categories, f => { f with categories := [] }
  | .geography, f => { f with geography := [] }
  | .enabledFor, f => { f with enabledFor := [] }
  | .availabilityType, f => { f with availabilityTypes := [] }
  | .releaseDateRange, f => { f with releaseDateFrom := "", releaseDateTo := "" }
  | .periodNewDays, f => { f with periodNewDays := 0 }
  | .periodChangedDays, f => { f with periodChangedDays := 0 }
  | .releaseInDays, f => { f with releaseInDays := 0 }
  | .bcMinVersion, f => { f with minBcVersionMin := none }
  | .productOrApp, f => { f with products := [] }
  | .months, f => { f with months := [] }
  | .tags, f => { f with tags := [] }
  | .language, f => { f with language := [] }
  | .query, f => { f with query := "" }
  | .sortOrder, f => { f with sortOrder := "" }
  | .historyMonths, f => { f with historyMonths := 0 }
  | .horizonMonths, f => { f with horizonMonths := 0 }

/-- A normalization context is products-coherent when every product listed
under a source in `productsBySource` also occurs in the product metadata with
that source attached. `buildNormalizationContext` produces such contexts:
both maps are filled from the same item collection that the metadata counts. -/
def CtxProductsCoherent (context : NormalizationContext) : Prop :=
  ∀ s p, p ∈ context.productsBySource s →
    ∃ option ∈ context.metadata.products, option.value = p ∧ s ∈ option.sources

/-- A normalization context is map-coherent when a product's `productSourceMap`
source also lists the product in `productsBySource` (true of contexts built by
`buildNormalizationContext`, which inserts into both maps from each item). -/
def CtxMapCoherent (context : NormalizationContext) : Prop :=
  ∀ p s, context.productSourceMap p = some s → p ∈ context.productsBySource s

/-- Strings that are equal up to ASCII letter case. -/
def CaseEq (x y : String) : Prop :=
  x.toList.map Char.toLower = y.toList.map Char.toLower

/-- Two character lists differ only in whitespace runs: non-whitespace
characters agree in order, and wherever one has a (non-empty) whitespace run
the other has one too. -/
inductive WsRel : List Char → List Char → Prop where
  | nil : WsRel [] []
  | cons {c : Char} {l1 l2 : List Char} (hc : isJsWs c = false)
      (h : WsRel l1 l2) : WsRel (c :: l1) (c :: l2)
  | ws {r1 r2 l1 l2 : List Char} (hr1 : r1 ≠ []) (hr2 : r2 ≠ [])
      (ha1 : ∀ c ∈ r1, isJsWs c = true) (ha2 : ∀ c ∈ r2, isJsWs c = true)
      (h : WsRel l1 l2) : WsRel (r1 ++ l1) (r2 ++ l2)

/-! ## Concrete fixtures used by counterexamples and witnesses -/

/-- A geography extractor that finds no countries (concrete stand-in for the
DOM-based collaborator in closed evaluations). -/
def geoNone : String → List String := fun _ => []

/-- A fixed evaluation instant: 2025-06-15T12:00:00Z. -/
def wNow : Int := 1749988800000

/-- Neutral filter state: nothing selected, wide temporal window. -/
def wBlankFilters : FilterState :=
  { targetCustomerIds := [], targetGroupIds := [], targetCssOwners := []
    products := [], sources := [], statuses := [], categories := []
    tags := [], waves := [], months := [], availabilityTypes := []
    enabledFor := [], geography := [], language := []
    periodNewDays := 0, periodChangedDays := 0, releaseInDays := 0
    minBcVersionMin := none, releaseDateFrom := "", releaseDateTo := ""
    sortOrder := "newest", query := "", horizonMonths := 120, historyMonths := 120 }

/-- Metadata whose only populated dimension is products `A`, `E` (Microsoft). -/
def wMetadata : FilterMetadata :=
  { sources := [], products := [⟨"A", none, 0, ["Microsoft"]⟩, ⟨"E", none, 0, ["Microsoft"]⟩]
    statuses := [], categories := [], tags := [], waves := [], months := []
    availabilityTypes := [], enabledFor := [], geography := [], language := [] }

/-- Incoherent context: `productsBySource` lists a product `X` that the
product metadata does not know, and `productSourceMap` sends `A` to a source
that does not list it. -/
def wBadCtx : NormalizationContext :=
  { sourceOptions := ["Microsoft"]
    metadata := wMetadata
    productSourceMap := fun p =>
      if p = "A" then some "EOS" else if p = "E" then some "Microsoft" else none
    productsBySource := fun s => if s = "Microsoft" then ["E", "X"] else [] }

/-- Incoherent context for the coverage claim: `A` maps to Microsoft but
Microsoft's product list holds only `B`. -/
def wBadCtx2 : NormalizationContext :=
  { sourceOptions := ["Microsoft"]
    metadata := { wMetadata with products := [⟨"A", none, 0, ["Microsoft"]⟩] }
    productSourceMap := fun p => if p = "A" then some "Microsoft" else none
    productsBySource := fun s => if s = "Microsoft" then ["B"] else [] }

/-- Coherent context with no products-by-source data (vacuously coherent). -/
def wGoodCtx : NormalizationContext :=
  { sourceOptions := ["Microsoft"]
    metadata := wMetadata
    productSourceMap := fun _ => none
    productsBySource := fun _ => [] }

/-- Raw selection used by the normalization counterexamples. -/
def wRawFilters : FilterState :=
  { wBlankFilters with products := ["A"], sources := ["Microsoft"] }

/-- Microsoft item whose raw product name is not in canonical form. -/
def wItemA : ReleaseItem :=
  { id := "1", source := .Microsoft, productName := "bc sales", title := "t1"
    summary := "s", description := "d", status := "Planned"
    availabilityDate := "", releaseDate := "" }

/-- Microsoft item with a second product. -/
def wItemB : ReleaseItem :=
  { id := "2", source := .Microsoft, productName := "other", title := "t2"
    summary := "s", description := "d", status := "Planned"
    availabilityDate := "", releaseDate := "" }

/-- EOS item carrying a below-floor minimum version. -/
def wItemEos : ReleaseItem :=
  { id := "3", source := .EOS, productName := "App", title := "t3"
    summary := "s", description := "d", status := "Planned"
    availabilityDate := "", releaseDate := "", minBcVersion := some 20 }

/-- Filter state selecting the canonical label of `wItemA`'s product. -/
def wProductFilters : FilterState :=
  { wBlankFilters with products := ["Bc Sales"] }

/-- Customer mode map fixture: customer `c` is `custom`, everyone else absent. -/
def wModeMap : String → Option FilterNormalizationAlt.FilterMode :=
  fun id => if id = "c" then some .custom else none

/-- Customer override map fixture: customer `c` owns `wRawFilters`. -/
def wOverrideMap : String → Option FilterState :=
  fun id => if id = "c" then some wRawFilters else none

/-! # Theorems -/

/-! ## Shared helper lemmas -/

theorem normalizeSelection_eq_cases (values options : List String) :
    FilterNormalization.normalizeSelection values options =
      if values.isEmpty || options.isEmpty then options
      else if (values.filter (fun value => options.contains value)).isEmpty then options
      else values.filter (fun value => options.contains value) := rfl

theorem filter_contains_self (options : List String) :
    options.filter (fun value => options.contains value) = options := by
  apply List.filter_eq_self.mpr
  intro a ha
  simpa using ha

theorem normalizeSelection_of_skip {values options : List String}
    (h : (values.isEmpty || options.isEmpty) = true) :
    FilterNormalization.normalizeSelection values options = options := by
  rw [normalizeSelection_eq_cases, if_pos h]

theorem normalizeSelection_of_fallback {values options : List String}
    (h1 : (values.isEmpty || options.isEmpty) = false)
    (h2 : (values.filter (fun value => options.contains value)).isEmpty = true) :
    FilterNormalization.normalizeSelection values options = options := by
  rw [normalizeSelection_eq_cases, if_neg (by simp [h1]), if_pos h2]

theorem normalizeSelection_of_valid {values options : List String}
    (h1 : (values.isEmpty || options.isEmpty) = false)
    (h2 : (values.filter (fun value => options.contains value)).isEmpty = false) :
    FilterNormalization.normalizeSelection values options =
      values.filter (fun value => options.contains value) := by
  rw [normalizeSelection_eq_cases, if_neg (by rw [h1]; exact Bool.false_ne_true),
    if_neg (by rw [h2]; exact Bool.false_ne_true)]

theorem normalizeSelection_self (options : List String) :
    FilterNormalization.normalizeSelection options options = options := by
  cases ho : options.isEmpty with
  | true => exact normalizeSelection_of_skip (by rw [ho, Bool.or_true])
  | false =>
    have h1 : (options.isEmpty || options.isEmpty) = false := by rw [ho]; rfl
    rw [normalizeSelection_of_valid h1 (by rw [filter_contains_self, ho]),
      filter_contains_self]

theorem mem_of_mem_normalizeSelection {x : String} {values options : List String}
    (h : x ∈ FilterNormalization.normalizeSelection values options) : x ∈ options := by
  rw [normalizeSelection_eq_cases] at h
  by_cases h1 : (values.isEmpty || options.isEmpty) = true
  · rw [if_pos h1] at h; exact h
  · rw [if_neg h1] at h
    by_cases h2 : (values.filter (fun value => options.contains value)).isEmpty = true
    · rw [if_pos h2] at h; exact h
    · rw [if_neg h2] at h
      have := (List.mem_filter.mp h).2
      simpa using this

theorem normalizeSelection_idem (values options : List String) :
    FilterNormalization.normalizeSelection
      (FilterNormalization.normalizeSelection values options) options =
    FilterNormalization.normalizeSelection values options := by
  cases ho : options.isEmpty with
  | true =>
    rw [normalizeSelection_of_skip (show (values.isEmpty || options.isEmpty) = true by
        rw [ho, Bool.or_true])]
    exact normalizeSelection_of_skip (by rw [ho, Bool.or_true])
  | false =>
    cases hv : values.isEmpty with
    | true =>
      have hinner : FilterNormalization.normalizeSelection values options = options :=
        normalizeSelection_of_skip (by rw [hv]; rfl)
      rw [hinner]
      exact normalizeSelection_self options
    | false =>
      cases hf : (values.filter (fun value => options.contains value)).isEmpty with
      | true =>
        have hinner : FilterNormalization.normalizeSelection values options = options :=
          normalizeSelection_of_fallback (by rw [hv, ho]; rfl) hf
        rw [hinner]
        exact normalizeSelection_self options
      | false =>
        have hself : (values.filter (fun value => options.contains value)).filter
            (fun value => options.contains value) =
            values.filter (fun value => options.contains value) :=
          List.filter_eq_self.mpr (fun a ha => (List.mem_filter.mp ha).2)
        have hinner := normalizeSelection_of_valid (by rw [hv, ho]; rfl) hf
        rw [hinner, normalizeSelection_of_valid (by rw [hf, ho]; rfl)
          (by rw [hself, hf]), hself]

theorem mem_insertUnique {x y : String} {acc : List String} :
    x ∈ insertUnique acc y ↔ x ∈ acc ∨ x = y := by
  unfold insertUnique
  split
  · next hy =>
    constructor
    · exact Or.inl
    · rintro (h | rfl)
      · exact h
      · exact hy
  · simp

theorem mem_foldl_insertUnique {x : String} (l : List String) (acc : List String) :
    x ∈ List.foldl insertUnique acc l ↔ x ∈ acc ∨ x ∈ l := by
  induction l generalizing acc with
  | nil => simp
  | cons y t ih =>
    rw [List.foldl_cons, ih, mem_insertUnique]
    simp [or_assoc]

theorem mem_jsSetDedup {x : String} {l : List String} :
    x ∈ jsSetDedup l ↔ x ∈ l := by
  unfold jsSetDedup
  rw [mem_foldl_insertUnique]
  simp

theorem nodup_insertUnique {y : String} {acc : List String} (h : acc.Nodup) :
    (insertUnique acc y).Nodup := by
  unfold insertUnique
  split
  · exact h
  · next hy => simpa [List.nodup_append] using ⟨h, hy⟩

theorem nodup_foldl_insertUnique (l : List String) {acc : List String} (h : acc.Nodup) :
    (List.foldl insertUnique acc l).Nodup := by
  induction l generalizing acc with
  | nil => exact h
  | cons y t ih => exact ih (nodup_insertUnique h)

theorem nodup_jsSetDedup (l : List String) : (jsSetDedup l).Nodup :=
  nodup_foldl_insertUnique l List.nodup_nil

theorem foldl_insertUnique_of_subset {l acc : List String} (h : ∀ x ∈ l, x ∈ acc) :
    List.foldl insertUnique acc l = acc := by
  induction l with
  | nil => rfl
  | cons y t ih =>
    rw [List.foldl_cons]
    have hy : insertUnique acc y = acc := by
      unfold insertUnique
      rw [if_pos (h y (List.mem_cons_self y t))]
    rw [hy]
    exact ih (fun x hx => h x (List.mem_cons_of_mem y hx))

theorem foldl_insertUnique_nodup_disjoint {l : List String} :
    ∀ {acc : List String}, acc.Nodup → l.Nodup → (∀ x ∈ l, x ∉ acc) →
    List.foldl insertUnique acc l = acc ++ l := by
  induction l with
  | nil => intro acc _ _ _; simp
  | cons y t ih =>
    intro acc hacc hl hdisj
    rw [List.foldl_cons]
    have hy : insertUnique acc y = acc ++ [y] := by
      unfold insertUnique
      rw [if_neg (hdisj y (List.mem_cons_self y t))]
    rw [hy, ih (by simpa [List.nodup_append] using ⟨hacc, hdisj y (List.mem_cons_self y t)⟩)
      (List.nodup_cons.mp hl).2
      (fun x hx => by
        simp only [List.mem_append, List.mem_singleton]
        rintro (hmem | rfl)
        · exact hdisj x (List.mem_cons_of_mem y hx) hmem
        · exact (List.nodup_cons.mp hl).1 hx)]
    simp

theorem jsSetDedup_eq_self_of_nodup {l : List String} (h : l.Nodup) :
    jsSetDedup l = l := by
  unfold jsSetDedup
  simpa using foldl_insertUnique_nodup_disjoint List.nodup_nil h (by simp)

theorem jsSetDedup_append (l e : List String) :
    jsSetDedup (l ++ e) = List.foldl insertUnique (jsSetDedup l) e := by
  unfold jsSetDedup
  exact List.foldl_append ..

theorem mem_foldr_append {x : String} (g : String → List String) (l : List String) :
    x ∈ l.foldr (fun s acc => g s ++ acc) [] ↔ ∃ s ∈ l, x ∈ g s := by
  induction l with
  | nil => simp
  | cons y t ih => simp [List.foldr_cons, ih]

theorem normalizeSelection_eq_nil {values options : List String}
    (h : FilterNormalization.normalizeSelection values options = []) : options = [] := by
  cases h1 : (values.isEmpty || options.isEmpty) with
  | true => rwa [normalizeSelection_of_skip h1] at h
  | false =>
    cases h2 : (values.filter (fun value => options.contains value)).isEmpty with
    | true => rwa [normalizeSelection_of_fallback h1 h2] at h
    | false =>
      rw [normalizeSelection_of_valid h1 h2] at h
      rw [h] at h2
      simp at h2

theorem products_expansion_idem (avail : List String) (psm : String → Option String)
    (pbs : String → List String) (sources : List String) (p1 E P p2 E2 : List String)
    (hpbs : ∀ s ∈ sources, ∀ p ∈ pbs s, p ∈ avail)
    (hp1sub : ∀ x ∈ p1, x ∈ avail)
    (hp1nil : p1 = [] → avail = [])
    (hE : E = sources.foldr (fun source acc =>
        (if p1.any (fun product => psm product == some source) then []
         else pbs source) ++ acc) [])
    (hP : P = jsSetDedup (p1 ++ E))
    (hp2 : p2 = FilterNormalization.normalizeSelection P avail)
    (hE2 : E2 = sources.foldr (fun source acc =>
        (if p2.any (fun product => psm product == some source) then []
         else pbs source) ++ acc) []) :
    jsSetDedup (p2 ++ E2) = P := by
  have hmemE : ∀ x, x ∈ E ↔ ∃ s ∈ sources,
      ¬(p1.any (fun product => psm product == some s) = true) ∧ x ∈ pbs s := by
    intro x
    rw [hE, mem_foldr_append]
    constructor
    · rintro ⟨s, hs, hx⟩
      refine ⟨s, hs, ?_⟩
      by_cases hc : p1.any (fun product => psm product == some s) = true
      · rw [if_pos hc] at hx; cases hx
      · rw [if_neg hc] at hx; exact ⟨hc, hx⟩
    · rintro ⟨s, hs, hc, hx⟩
      exact ⟨s, hs, by rw [if_neg hc]; exact hx⟩
  by_cases hPe : P = []
  · have hp1e : p1 = [] := by
      cases hp1c : p1 with
      | nil => rfl
      | cons a t =>
        exfalso
        have : a ∈ P := by
          rw [hP]
          exact mem_jsSetDedup.mpr (List.mem_append_left _ (by rw [hp1c]; simp))
        rw [hPe] at this
        cases this
    have hp2e : p2 = [] := by
      rw [hp2, hPe, normalizeSelection_of_skip (by rfl)]
      cases hav : avail with
      | nil => rfl
      | cons a t =>
        exfalso
        have := hp1nil hp1e
        rw [this] at hav
        cases hav
    have hE2E : E2 = E := by
      rw [hE2, hE, hp2e, hp1e]
    have hEe : E = [] := by
      cases hEc : E with
      | nil => rfl
      | cons a t =>
        exfalso
        have : a ∈ P := by
          rw [hP]
          exact mem_jsSetDedup.mpr (List.mem_append_right _ (by rw [hEc]; simp))
        rw [hPe] at this
        cases this
    rw [hp2e, hE2E, hEe, hPe]
    rfl
  · have hPsub : ∀ x ∈ P, x ∈ avail := by
      intro x hx
      rw [hP] at hx
      rcases List.mem_append.mp (mem_jsSetDedup.mp hx) with hx1 | hxE
      · exact hp1sub x hx1
      · obtain ⟨s, hs, _, hxp⟩ := (hmemE x).mp hxE
        exact hpbs s hs x hxp
    have havail : avail.isEmpty = false := by
      obtain ⟨x, hx⟩ := List.exists_mem_of_ne_nil P hPe
      have := hPsub x hx
      cases hav : avail with
      | nil => rw [hav] at this; cases this
      | cons a t => rfl
    have hPfilter : P.filter (fun value => avail.contains value) = P :=
      List.filter_eq_self.mpr (fun a ha => by simpa using hPsub a ha)
    have hPne : P.isEmpty = false := by
      cases hPc : P with
      | nil => exact absurd hPc hPe
      | cons a t => rfl
    have hp2P : p2 = P := by
      rw [hp2, normalizeSelection_of_valid (by rw [hPne, havail]; rfl)
        (by rw [hPfilter]; exact hPne), hPfilter]
    have hE2sub : ∀ x ∈ E2, x ∈ P := by
      intro x hx
      rw [hE2, mem_foldr_append] at hx
      obtain ⟨s, hs, hxs⟩ := hx
      have hx' : ¬(p2.any (fun product => psm product == some s) = true) ∧ x ∈ pbs s := by
        by_cases hc : p2.any (fun product => psm product == some s) = true
        · rw [if_pos hc] at hxs; cases hxs
        · rw [if_neg hc] at hxs; exact ⟨hc, hxs⟩
      obtain ⟨hc2, hxp⟩ := hx'
      have hc1 : ¬(p1.any (fun product => psm product == some s) = true) := by
        intro hc
        apply hc2
        rw [List.any_eq_true] at hc ⊢
        obtain ⟨q, hq, hqs⟩ := hc
        refine ⟨q, ?_, hqs⟩
        rw [hp2P, hP]
        exact mem_jsSetDedup.mpr (List.mem_append_left _ hq)
      rw [hP]
      exact mem_jsSetDedup.mpr (List.mem_append_right _ ((hmemE x).mpr ⟨s, hs, hc1, hxp⟩))
    rw [hp2P, hP, jsSetDedup_append, jsSetDedup_eq_self_of_nodup (nodup_jsSetDedup _)]
    rw [← hP]
    exact foldl_insertUnique_of_subset hE2sub

theorem normalizeFilters_not_ready (raw defaults : FilterState)
    (ctx : NormalizationContext)
    (h : (ctx.sourceOptions.isEmpty || ctx.metadata.products.isEmpty) = true) :
    FilterNormalization.normalizeFilters (some raw) defaults ctx = raw := by
  unfold FilterNormalization.normalizeFilters
  dsimp only
  rw [if_pos h]

theorem normalizeFilters_ready (raw defaults : FilterState) (ctx : NormalizationContext)
    (h : (ctx.sourceOptions.isEmpty || ctx.metadata.products.isEmpty) = false) :
    FilterNormalization.normalizeFilters (some raw) defaults ctx =
      { raw with
        products := jsSetDedup
          (FilterNormalization.normalizeSelectionForSources raw.products
              ctx.metadata.products
              (FilterNormalization.normalizeSelection raw.sources ctx.sourceOptions)
              false ++
            (FilterNormalization.normalizeSelection raw.sources
                ctx.sourceOptions).foldr
              (fun source acc =>
                (if (FilterNormalization.normalizeSelectionForSources raw.products
                        ctx.metadata.products
                        (FilterNormalization.normalizeSelection raw.sources
                          ctx.sourceOptions) false).any
                      (fun product => ctx.productSourceMap product == some source)
                  then [] else ctx.productsBySource source) ++ acc) [])
        sources := FilterNormalization.normalizeSelection raw.sources ctx.sourceOptions
        statuses := FilterNormalization.normalizeSelectionForSources raw.statuses
          ctx.metadata.statuses
          (FilterNormalization.normalizeSelection raw.sources ctx.sourceOptions) false
        categories := FilterNormalization.normalizeSelectionForSources raw.categories
          ctx.metadata.categories
          (FilterNormalization.normalizeSelection raw.sources ctx.sourceOptions) false
        tags := FilterNormalization.normalizeSelectionForSources raw.tags
          ctx.metadata.tags
          (FilterNormalization.normalizeSelection raw.sources ctx.sourceOptions) false
        waves := FilterNormalization.normalizeSelectionForSources raw.waves
          ctx.metadata.waves
          (FilterNormalization.normalizeSelection raw.sources ctx.sourceOptions) false
        months := FilterNormalization.normalizeSelectionForSources raw.months
          ctx.metadata.months
          (FilterNormalization.normalizeSelection raw.sources ctx.sourceOptions) false
        availabilityTypes := FilterNormalization.normalizeSelectionForSources
          raw.availabilityTypes ctx.metadata.availabilityTypes
          (FilterNormalization.normalizeSelection raw.sources ctx.sourceOptions) false
        enabledFor := FilterNormalization.normalizeSelectionForSources raw.enabledFor
          ctx.metadata.enabledFor
          (FilterNormalization.normalizeSelection raw.sources ctx.sourceOptions) false
        geography := FilterNormalization.normalizeSelectionForSources raw.geography
          ctx.metadata.geography
          (FilterNormalization.normalizeSelection raw.sources ctx.sourceOptions) false
        language := FilterNormalization.normalizeSelectionForSources raw.language
          ctx.metadata.language
          (FilterNormalization.normalizeSelection raw.sources ctx.sourceOptions) false } := by
  unfold FilterNormalization.normalizeFilters
  dsimp only
  rw [if_neg (by rw [h]; exact Bool.false_ne_true)]

theorem mem_optionValuesForSources {options : List FilterOption} {sources : List String}
    {s p : String} (hs : s ∈ sources)
    (hopt : ∃ option ∈ options, option.value = p ∧ s ∈ option.sources) :
    p ∈ optionValuesForSources options sources false := by
  obtain ⟨o, ho, hv, hos⟩ := hopt
  unfold optionValuesForSources
  rw [if_neg (by
    intro hc
    rcases Bool.or_eq_true_iff.mp hc with hc1 | hc1
    · rw [List.isEmpty_iff.mp hc1] at ho; cases ho
    · rw [List.isEmpty_iff.mp hc1] at hs; cases hs)]
  refine List.mem_map.mpr ⟨o, List.mem_filter.mpr ⟨ho, ?_⟩, hv⟩
  have hany : (o.sources.any (fun source => sources.contains source)) = true := by
    rw [List.any_eq_true]
    exact ⟨s, hos, by simpa using hs⟩
  exact hany

/-- C1 (amended): `normalizeFilters` (`FilterNormalization.ts`) is idempotent
for every raw state, defaults and products-coherent context — i.e. whenever
every entry of `productsBySource` also occurs in the product metadata under
that source, as contexts built by `buildNormalizationContext` from one item
collection do. (For a fully arbitrary context the coverage expansion can
inject products that the next pass drops; see the counterexample.) -/
theorem c1_normalizeFilters_idem (raw defaults : FilterState)
    (ctx : NormalizationContext) (hcoh : CtxProductsCoherent ctx) :
    FilterNormalization.normalizeFilters
      (some (FilterNormalization.normalizeFilters (some raw) defaults ctx))
      defaults ctx =
    FilterNormalization.normalizeFilters (some raw) defaults ctx := by
  cases hready : (ctx.sourceOptions.isEmpty || ctx.metadata.products.isEmpty) with
  | true =>
    rw [normalizeFilters_not_ready _ _ _ hready, normalizeFilters_not_ready _ _ _ hready]
  | false =>
    rw [normalizeFilters_ready raw defaults ctx hready,
      normalizeFilters_ready _ defaults ctx hready]
    ext : 1
    case targetCustomerIds => rfl
    case targetGroupIds => rfl
    case targetCssOwners => rfl
    case sources => exact normalizeSelection_idem _ _
    case statuses =>
      simp only [FilterNormalization.normalizeSelectionForSources]
      rw [normalizeSelection_idem raw.sources ctx.sourceOptions]
      exact normalizeSelection_idem _ _
    case categories =>
      simp only [FilterNormalization.normalizeSelectionForSources]
      rw [normalizeSelection_idem raw.sources ctx.sourceOptions]
      exact normalizeSelection_idem _ _
    case tags =>
      simp only [FilterNormalization.normalizeSelectionForSources]
      rw [normalizeSelection_idem raw.sources ctx.sourceOptions]
      exact normalizeSelection_idem _ _
    case waves =>
      simp only [FilterNormalization.normalizeSelectionForSources]
      rw [normalizeSelection_idem raw.sources ctx.sourceOptions]
      exact normalizeSelection_idem _ _
    case months =>
      simp only [FilterNormalization.normalizeSelectionForSources]
      rw [normalizeSelection_idem raw.sources ctx.sourceOptions]
      exact normalizeSelection_idem _ _
    case availabilityTypes =>
      simp only [FilterNormalization.normalizeSelectionForSources]
      rw [normalizeSelection_idem raw.sources ctx.sourceOptions]
      exact normalizeSelection_idem _ _
    case enabledFor =>
      simp only [FilterNormalization.normalizeSelectionForSources]
      rw [normalizeSelection_idem raw.sources ctx.sourceOptions]
      exact normalizeSelection_idem _ _
    case geography =>
      simp only [FilterNormalization.normalizeSelectionForSources]
      rw [normalizeSelection_idem raw.sources ctx.sourceOptions]
      exact normalizeSelection_idem _ _
    case language =>
      simp only [FilterNormalization.normalizeSelectionForSources]
      rw [normalizeSelection_idem raw.sources ctx.sourceOptions]
      exact normalizeSelection_idem _ _
    case products =>
      simp only [FilterNormalization.normalizeSelectionForSources]
      rw [normalizeSelection_idem raw.sources ctx.sourceOptions]
      refine products_expansion_idem _ ctx.productSourceMap ctx.productsBySource
        _ _ _ _ _ _ ?_ ?_ ?_ rfl rfl rfl rfl
      · intro s hs p hp
        exact mem_optionValuesForSources hs (hcoh s p hp)
      · intro x hx
        exact mem_of_mem_normalizeSelection hx
      · intro h
        exact normalizeSelection_eq_nil h
    case periodNewDays => rfl
    case periodChangedDays => rfl
    case releaseInDays => rfl
    case minBcVersionMin => rfl
    case releaseDateFrom => rfl
    case releaseDateTo => rfl
    case sortOrder => rfl
    case query => rfl
    case horizonMonths => rfl
    case historyMonths => rfl

/-- C1 (counterexample): with the incoherent context `wBadCtx` — whose
`productsBySource` lists a product `X` unknown to the product metadata —
normalizing the already-normalized selection `{products := [A], sources :=
[Microsoft]}` is not a fixed point: the first pass expands the products to
`[A, E, X]`, the second pass drops `X` and keeps `[A, E]`. -/
theorem c1_counterexample :
    FilterNormalization.normalizeFilters
      (some (FilterNormalization.normalizeFilters (some wRawFilters) wBlankFilters wBadCtx))
      wBlankFilters wBadCtx ≠
    FilterNormalization.normalizeFilters (some wRawFilters) wBlankFilters wBadCtx := by
  decide

/-- C1 (witness): the amended idempotence theorem applied at the coherent
context `wGoodCtx` and the concrete raw state `wRawFilters`. -/
theorem c1_witness :
    CtxProductsCoherent wGoodCtx ∧
    FilterNormalization.normalizeFilters
      (some (FilterNormalization.normalizeFilters (some wRawFilters) wBlankFilters wGoodCtx))
      wBlankFilters wGoodCtx =
    FilterNormalization.normalizeFilters (some wRawFilters) wBlankFilters wGoodCtx := by
  have hcoh : CtxProductsCoherent wGoodCtx := by
    intro s p hp
    simp [wGoodCtx] at hp
  exact ⟨hcoh, c1_normalizeFilters_idem wRawFilters wBlankFilters wGoodCtx hcoh⟩

/-- C4 (confirmed): in both normalization modules, a non-empty selection all
of whose values are absent from the (non-empty) available option set is
repaired to the entire available option set, never to an empty set. -/
theorem c4_stale_selection_falls_back_to_all (values options : List String)
    (hv : values ≠ []) (ho : options ≠ []) (hstale : ∀ v ∈ values, v ∉ options) :
    FilterNormalization.normalizeSelection values options = options ∧
    FilterNormalizationAlt.normalizeSelection values options = options := by
  have hv' : values.isEmpty = false := by
    cases hval : values with
    | nil => exact absurd hval hv
    | cons a t => rfl
  have ho' : options.isEmpty = false := by
    cases hopt : options with
    | nil => exact absurd hopt ho
    | cons a t => rfl
  have hfilter : values.filter (fun value => options.contains value) = [] := by
    rw [List.filter_eq_nil_iff]
    intro a ha
    simpa using hstale a ha
  constructor
  · exact normalizeSelection_of_fallback (by rw [hv', ho']; rfl) (by rw [hfilter]; rfl)
  · unfold FilterNormalizationAlt.normalizeSelection
    dsimp only
    rw [if_neg (by rw [hv']; exact Bool.false_ne_true),
      if_neg (by rw [ho']; exact Bool.false_ne_true),
      if_pos (by rw [hfilter]; rfl)]

/-- C4 (witness): the repair theorem applied to the stale selection
`["stale"]` against the option set `["a"]`. -/
theorem c4_witness :
    (["stale"] : List String) ≠ [] ∧ (["a"] : List String) ≠ [] ∧
    FilterNormalization.normalizeSelection ["stale"] ["a"] = ["a"] ∧
    FilterNormalizationAlt.normalizeSelection ["stale"] ["a"] = ["a"] := by
  have h := c4_stale_selection_falls_back_to_all ["stale"] ["a"] (by decide) (by decide)
    (by decide)
  exact ⟨by decide, by decide, h.1, h.2⟩

/-- C2 (confirmed): `selectEffectiveFilters` returns the normalized global
state when no customer is active, when the active customer's mode resolves to
`inherit` (also when absent from the mode map), and when a `custom` customer
has no stored override; with a stored override it returns that override
normalized by the same `normalizeFilters`, independently of the global set. -/
theorem c2_selectEffectiveFilters_resolution (cssFilters : Option FilterState)
    (customerFilters : String → Option FilterState)
    (customerFilterMode : String → Option FilterNormalizationAlt.FilterMode)
    (defaults : FilterState) (ctx : NormalizationContext) :
    (FilterNormalizationAlt.selectEffectiveFilters none cssFilters customerFilters
        customerFilterMode defaults ctx =
      FilterNormalizationAlt.normalizeFilters cssFilters defaults ctx) ∧
    (∀ id, id ≠ "" →
      (customerFilterMode id = some .inherit ∨ customerFilterMode id = none) →
      FilterNormalizationAlt.selectEffectiveFilters (some id) cssFilters customerFilters
        customerFilterMode defaults ctx =
      FilterNormalizationAlt.normalizeFilters cssFilters defaults ctx) ∧
    (∀ id, id ≠ "" → customerFilterMode id = some .custom → customerFilters id = none →
      FilterNormalizationAlt.selectEffectiveFilters (some id) cssFilters customerFilters
        customerFilterMode defaults ctx =
      FilterNormalizationAlt.normalizeFilters cssFilters defaults ctx) ∧
    (∀ id customerOverride, id ≠ "" → customerFilterMode id = some .custom →
      customerFilters id = some customerOverride →
      FilterNormalizationAlt.selectEffectiveFilters (some id) cssFilters customerFilters
        customerFilterMode defaults ctx =
      FilterNormalizationAlt.normalizeFilters (some customerOverride) defaults ctx) := by
  refine ⟨rfl, ?_, ?_, ?_⟩
  · intro id hid hmode
    unfold FilterNormalizationAlt.selectEffectiveFilters
    dsimp only
    rw [if_neg hid]
    rcases hmode with hmode | hmode <;> rw [hmode] <;> rfl
  · intro id hid hmode hov
    unfold FilterNormalizationAlt.selectEffectiveFilters
    dsimp only
    rw [if_neg hid, hmode]
    dsimp only [Option.getD]
    rw [hov]
  · intro id customerOverride hid hmode hov
    unfold FilterNormalizationAlt.selectEffectiveFilters
    dsimp only
    rw [if_neg hid, hmode]
    dsimp only [Option.getD]
    rw [hov]

/-- C2 (witness): the resolver theorem applied to a concrete mode map where
customer `c` is `custom` with stored override `wRawFilters`, customer `i` is
absent (inherits), evaluated with the global state `wBlankFilters`. -/
theorem c2_witness :
    (FilterNormalizationAlt.selectEffectiveFilters none (some wBlankFilters) wOverrideMap
        wModeMap wBlankFilters wGoodCtx =
      FilterNormalizationAlt.normalizeFilters (some wBlankFilters) wBlankFilters wGoodCtx) ∧
    (FilterNormalizationAlt.selectEffectiveFilters (some "i") (some wBlankFilters)
        wOverrideMap wModeMap wBlankFilters wGoodCtx =
      FilterNormalizationAlt.normalizeFilters (some wBlankFilters) wBlankFilters wGoodCtx) ∧
    (FilterNormalizationAlt.selectEffectiveFilters (some "c") (some wBlankFilters)
        (fun _ => none) wModeMap wBlankFilters wGoodCtx =
      FilterNormalizationAlt.normalizeFilters (some wBlankFilters) wBlankFilters wGoodCtx) ∧
    (FilterNormalizationAlt.selectEffectiveFilters (some "c") (some wBlankFilters)
        wOverrideMap wModeMap wBlankFilters wGoodCtx =
      FilterNormalizationAlt.normalizeFilters (some wRawFilters) wBlankFilters wGoodCtx) := by
  obtain ⟨h1, h2, h3, h4⟩ := c2_selectEffectiveFilters_resolution (some wBlankFilters)
    wOverrideMap wModeMap wBlankFilters wGoodCtx
  obtain ⟨_, _, h3', _⟩ := c2_selectEffectiveFilters_resolution (some wBlankFilters)
    (fun _ => none) wModeMap wBlankFilters wGoodCtx
  exact ⟨h1, h2 "i" (by decide) (Or.inr rfl), h3' "c" (by decide) rfl rfl,
    h4 "c" wRawFilters (by decide) rfl rfl⟩

/-- C5 (amended): after `normalizeFilters` on a non-null raw state with a
ready, map-coherent context (every `productSourceMap` image source lists the
product in `productsBySource`, as holds for `buildNormalizationContext`
outputs), every source of the resulting selection with a non-empty
`productsBySource` entry has at least one of its products in the resulting
product selection. (For an arbitrary context the claim fails; see the
counterexample.) -/
theorem c5_source_product_coverage (raw defaults : FilterState)
    (ctx : NormalizationContext)
    (h1 : ctx.sourceOptions ≠ []) (h2 : ctx.metadata.products ≠ [])
    (hmap : CtxMapCoherent ctx) :
    ∀ s ∈ (FilterNormalization.normalizeFilters (some raw) defaults ctx).sources,
      ctx.productsBySource s ≠ [] →
      ∃ p ∈ (FilterNormalization.normalizeFilters (some raw) defaults ctx).products,
        p ∈ ctx.productsBySource s := by
  have h1' : ctx.sourceOptions.isEmpty = false := by
    cases hc : ctx.sourceOptions with
    | nil => exact absurd hc h1
    | cons a t => rfl
  have h2' : ctx.metadata.products.isEmpty = false := by
    cases hc : ctx.metadata.products with
    | nil => exact absurd hc h2
    | cons a t => rfl
  rw [normalizeFilters_ready raw defaults ctx (by rw [h1', h2']; rfl)]
  intro s hs hpbs
  by_cases hc : (FilterNormalization.normalizeSelectionForSources raw.products
      ctx.metadata.products
      (FilterNormalization.normalizeSelection raw.sources ctx.sourceOptions) false).any
      (fun product => ctx.productSourceMap product == some s) = true
  · obtain ⟨q, hq, hqs⟩ := List.any_eq_true.mp hc
    refine ⟨q, ?_, hmap q s (by simpa using hqs)⟩
    exact mem_jsSetDedup.mpr (List.mem_append_left _ hq)
  · obtain ⟨x, hx⟩ := List.exists_mem_of_ne_nil _ hpbs
    refine ⟨x, ?_, hx⟩
    refine mem_jsSetDedup.mpr (List.mem_append_right _ ?_)
    rw [mem_foldr_append]
    exact ⟨s, hs, by rw [if_neg hc]; exact hx⟩

/-- C5 (counterexample): in the incoherent context `wBadCtx2`
(`productSourceMap` sends `A` to Microsoft, but Microsoft's `productsBySource`
list is `[B]`), normalizing `{products := [A], sources := [Microsoft]}` keeps
Microsoft active with the non-empty product list `[B]`, yet no product of the
result belongs to Microsoft's list. -/
theorem c5_counterexample :
    "Microsoft" ∈ (FilterNormalization.normalizeFilters (some wRawFilters) wBlankFilters
      wBadCtx2).sources ∧
    wBadCtx2.productsBySource "Microsoft" ≠ [] ∧
    ∀ p ∈ (FilterNormalization.normalizeFilters (some wRawFilters) wBlankFilters
      wBadCtx2).products, p ∉ wBadCtx2.productsBySource "Microsoft" := by
  decide

/-- C5 (witness): the coverage theorem applied at the map-coherent context
`wGoodCtx` (whose `productsBySource` lists are empty, so every source
satisfies the guarantee vacuously yet the hypotheses are concretely
discharged). -/
theorem c5_witness :
    (wGoodCtx.sourceOptions ≠ [] ∧ wGoodCtx.metadata.products ≠ []) ∧
    ∀ s ∈ (FilterNormalization.normalizeFilters (some wRawFilters) wBlankFilters
      wGoodCtx).sources,
      wGoodCtx.productsBySource s ≠ [] →
      ∃ p ∈ (FilterNormalization.normalizeFilters (some wRawFilters) wBlankFilters
        wGoodCtx).products, p ∈ wGoodCtx.productsBySource s := by
  refine ⟨⟨by decide, by decide⟩, ?_⟩
  exact c5_source_product_coverage wRawFilters wBlankFilters wGoodCtx (by decide)
    (by decide) (fun p s h => by simp [wGoodCtx] at h)

/-- C10 (confirmed): both predicate engines return a subsequence of the input
collection — each kept record occurs in the input, order and multiplicity are
never increased, and records are returned unmodified. -/
theorem c10_filter_returns_subsequence (geoExtract : String → List String) (now : Int)
    (items : List ReleaseItem) (filters : FilterState) :
    List.Sublist (FilterService.filterReleaseItems geoExtract now items filters) items ∧
    List.Sublist (FilterServiceV2.filterReleaseItems geoExtract now items filters)
      items := by
  constructor
  · exact List.filter_sublist _
  · unfold FilterServiceV2.filterReleaseItems
    dsimp only
    refine List.Sublist.trans (List.filter_sublist _) ?_
    refine List.Sublist.trans (List.filter_sublist _) ?_
    refine List.Sublist.trans (List.filter_sublist _) ?_
    refine List.Sublist.trans (List.filter_sublist _) ?_
    refine List.Sublist.trans (List.filter_sublist _) ?_
    split
    · exact List.filter_sublist _
    · exact List.Sublist.refl _

theorem itemPasses_maskDim (geoExtract : String → List String) (now : Int)
    (pmap : List (String × ReleaseSource)) (d : FilterKey) (f : FilterState)
    (item : ReleaseItem) (hsup : isFilterSupported item.source d = false) :
    FilterService.itemPasses geoExtract now pmap f item =
    FilterService.itemPasses geoExtract now pmap (maskDim d f) item := by
  cases item with
  | mk id src productName title summary description status category tags wave
      availabilityTypes enabledFor geography geographyCountries language
      lastUpdatedDate availabilityDate releaseDate minBcVersion =>
    cases src <;> cases d <;>
      first
        | (dsimp only at hsup; exact absurd hsup (by decide))
        | rfl

/-- C3 (confirmed): if a record's source does not support dimension `d`, then
two filter states that agree outside `d` (equal after masking `d`'s fields)
give the record the same membership in `filterReleaseItems`' result — an
unsupported dimension never changes whether a record is included. -/
theorem c3_capability_gating (geoExtract : String → List String) (now : Int)
    (items : List ReleaseItem) (r : ReleaseItem) (d : FilterKey)
    (f1 f2 : FilterState) (hsup : isFilterSupported r.source d = false)
    (hagree : maskDim d f1 = maskDim d f2) :
    (r ∈ FilterService.filterReleaseItems geoExtract now items f1 ↔
     r ∈ FilterService.filterReleaseItems geoExtract now items f2) := by
  unfold FilterService.filterReleaseItems
  dsimp only
  rw [List.mem_filter, List.mem_filter,
    itemPasses_maskDim geoExtract now (buildRawProductSourceMap items) d f1 r hsup,
    itemPasses_maskDim geoExtract now (buildRawProductSourceMap items) d f2 r hsup,
    hagree]

/-- C3 (witness): the gating theorem applied to an EOS record (which does not
support the `wave` dimension) and two states that differ exactly in the wave
selection. -/
theorem c3_witness :
    isFilterSupported wItemEos.source .wave = false ∧
    maskDim .wave wBlankFilters =
      maskDim .wave { wBlankFilters with waves := ["Wave 1"] } ∧
    (wItemEos ∈ FilterService.filterReleaseItems geoNone wNow [wItemEos] wBlankFilters ↔
     wItemEos ∈ FilterService.filterReleaseItems geoNone wNow [wItemEos]
       { wBlankFilters with waves := ["Wave 1"] }) :=
  ⟨by decide, by decide,
    c3_capability_gating geoNone wNow [wItemEos] wItemEos .wave wBlankFilters
      { wBlankFilters with waves := ["Wave 1"] } (by decide) (by decide)⟩

/-- C8 (confirmed): with a non-null floor and a record whose source supports
the `bcMinVersion` dimension, the minimum-version clause never rejects a
record with a null version, `filterReleaseItems` excludes a record whose
version is strictly below the floor, and the clause never rejects a record
whose version is at least the floor. -/
theorem c8_min_version_floor (geoExtract : String → List String) (now : Int)
    (items : List ReleaseItem) (f : FilterState) (item : ReleaseItem) (floor : Int)
    (hsup : isFilterSupported item.source .bcMinVersion = true)
    (hfloor : f.minBcVersionMin = some floor) :
    (item.minBcVersion = none → passBcMinVersionClause f item = true) ∧
    (∀ v, item.minBcVersion = some v → v < floor →
      item ∉ FilterService.filterReleaseItems geoExtract now items f) ∧
    (∀ v, item.minBcVersion = some v → floor ≤ v →
      passBcMinVersionClause f item = true) := by
  refine ⟨?_, ?_, ?_⟩
  · intro hnull
    simp [passBcMinVersionClause, hfloor, hnull, hsup]
  · intro v hv hlt hmem
    unfold FilterService.filterReleaseItems at hmem
    dsimp only at hmem
    have hpass := (List.mem_filter.mp hmem).2
    unfold FilterService.itemPasses at hpass
    dsimp only at hpass
    simp only [Bool.and_eq_true] at hpass
    have hbc := hpass.1.1.1.1.1.1.1.1.1.1.2
    rw [passBcMinVersionClause, hfloor, hv] at hbc
    simp only [hsup] at hbc
    simp at hbc
    omega
  · intro v hv hge
    simp [passBcMinVersionClause, hfloor, hv, hsup]
    omega

/-- C8 (witness): the floor theorem applied with floor 22 to EOS records with
version null (clause passes), 20 (record excluded) and 22 (clause passes). -/
theorem c8_witness :
    isFilterSupported wItemEos.source .bcMinVersion = true ∧
    passBcMinVersionClause { wBlankFilters with minBcVersionMin := some 22 }
      { wItemEos with minBcVersion := none } = true ∧
    wItemEos ∉ FilterService.filterReleaseItems geoNone wNow [wItemEos]
      { wBlankFilters with minBcVersionMin := some 22 } ∧
    passBcMinVersionClause { wBlankFilters with minBcVersionMin := some 22 }
      { wItemEos with minBcVersion := some 22 } = true :=
  ⟨by decide,
    (c8_min_version_floor geoNone wNow [wItemEos]
      { wBlankFilters with minBcVersionMin := some 22 }
      { wItemEos with minBcVersion := none } 22 (by decide) rfl).1 rfl,
    (c8_min_version_floor geoNone wNow [wItemEos]
      { wBlankFilters with minBcVersionMin := some 22 } wItemEos 22
      (by decide) rfl).2.1 20 rfl (by decide),
    (c8_min_version_floor geoNone wNow [wItemEos]
      { wBlankFilters with minBcVersionMin := some 22 }
      { wItemEos with minBcVersion := some 22 } 22 (by decide) rfl).2.2 22 rfl
      (by decide)⟩

/-- C6 (code evaluation): `FilterService.ts` compares raw product names, so
with the selection `["Bc Sales"]` (the canonical label of the item named
`bc sales`, as metadata stores it) it treats the selection as belonging to no
source and keeps both Microsoft items; the sibling engine (`part_003`), which
normalizes the item's name as the claim and the metadata comment require,
keeps only the matching item and excludes `other`. -/
theorem c6_raw_name_comparison_divergence :
    normalizeProductLabel wItemA.productName = "Bc Sales" ∧
    FilterService.filterReleaseItems geoNone wNow [wItemA, wItemB] wProductFilters =
      [wItemA, wItemB] ∧
    FilterServiceV2.filterReleaseItems geoNone wNow [wItemA, wItemB] wProductFilters =
      [wItemA] := by
  decide

/-- C9 (counterexample): the two engines disagree on the same input — with the
normalized selection value `Bc Sales` and raw item names `bc sales` / `other`,
`FilterService.ts` returns both items while `part_003` returns only the first. -/
theorem c9_counterexample :
    FilterServiceV2.filterReleaseItems geoNone wNow [wItemA, wItemB] wProductFilters ≠
    FilterService.filterReleaseItems geoNone wNow [wItemA, wItemB] wProductFilters := by
  decide

theorem build_psm_foldl_eq (items : List ReleaseItem)
    (h : ∀ item ∈ items, normalizeProductLabel item.productName = item.productName) :
    ∀ acc : List (String × ReleaseSource),
      List.foldl (fun m item =>
        if (m.lookup (normalizeProductLabel item.productName)).isSome then m
        else m ++ [(normalizeProductLabel item.productName, item.source)]) acc items =
      List.foldl (fun m item =>
        if (m.lookup item.productName).isSome then m
        else m ++ [(item.productName, item.source)]) acc items := by
  induction items with
  | nil => intro acc; rfl
  | cons it t ih =>
    intro acc
    have hit := h it (List.mem_cons_self it t)
    rw [List.foldl_cons, List.foldl_cons, hit]
    exact ih (fun x hx => h x (List.mem_cons_of_mem it hx)) _

theorem buildMaps_eq {items : List ReleaseItem}
    (h : ∀ item ∈ items, normalizeProductLabel item.productName = item.productName) :
    buildNormalizedProductSourceMap items = buildRawProductSourceMap items := by
  unfold buildNormalizedProductSourceMap buildRawProductSourceMap
  exact build_psm_foldl_eq items h []

/-- C9 (amended): the two predicate engines agree (same filtered list, same
order) at any fixed instant whenever every item's stored product name is
already canonical (`normalizeProductLabel` fixes it) — in particular whenever
the collection was produced by a normalizing loader. With non-canonical names
the raw-name engine and the normalized-name engine diverge on the products
dimension; see the counterexample. -/
theorem c9_engines_agree_on_canonical_names (geoExtract : String → List String)
    (now : Int) (items : List ReleaseItem) (filters : FilterState)
    (hcanon : ∀ item ∈ items, normalizeProductLabel item.productName = item.productName) :
    FilterServiceV2.filterReleaseItems geoExtract now items filters =
    FilterService.filterReleaseItems geoExtract now items filters := by
  unfold FilterServiceV2.filterReleaseItems FilterService.filterReleaseItems
  dsimp only
  rw [buildMaps_eq hcanon]
  by_cases hs : (!filters.sources.isEmpty) = true
  · rw [if_pos hs]
    simp only [List.filter_filter]
    apply List.filter_congr
    intro item hitem
    have hnp := hcanon item hitem
    unfold FilterService.itemPasses FilterServiceV2.restPasses passProductsNormClause
      passProductsRawClause passSourcesClause
    dsimp only
    rw [hnp, if_pos hs]
    rw [Bool.eq_iff_iff]
    simp only [Bool.and_eq_true]
    tauto
  · rw [if_neg hs]
    simp only [List.filter_filter]
    apply List.filter_congr
    intro item hitem
    have hnp := hcanon item hitem
    unfold FilterService.itemPasses FilterServiceV2.restPasses passProductsNormClause
      passProductsRawClause passSourcesClause
    dsimp only
    rw [hnp, if_neg hs]
    rw [Bool.eq_iff_iff]
    simp only [Bool.and_eq_true]
    tauto

/-- C9 (witness): the agreement theorem applied to a collection whose product
names are already canonical. -/
theorem c9_witness :
    (∀ item ∈ [{ wItemA with productName := "Bc Sales" },
        { wItemB with productName := "Other" }],
      normalizeProductLabel item.productName = item.productName) ∧
    FilterServiceV2.filterReleaseItems geoNone wNow
      [{ wItemA with productName := "Bc Sales" }, { wItemB with productName := "Other" }]
      wProductFilters =
    FilterService.filterReleaseItems geoNone wNow
      [{ wItemA with productName := "Bc Sales" }, { wItemB with productName := "Other" }]
      wProductFilters :=
  ⟨by decide,
    c9_engines_agree_on_canonical_names geoNone wNow
      [{ wItemA with productName := "Bc Sales" }, { wItemB with productName := "Other" }]
      wProductFilters (by decide)⟩

/-! ## Character-level lemmas for the label normalizer -/

theorem char_eq_of_toNat_eq {a b : Char} (h : a.toNat = b.toNat) : a = b :=
  Char.ext (UInt32.toNat.inj h)

theorem char_toNat_ofNat_of_letter {n : Nat} (h1 : 65 ≤ n) (h2 : n ≤ 122) :
    (Char.ofNat n).toNat = n := by
  interval_cases n <;> rfl

theorem toNat_toLower (c : Char) :
    (Char.toLower c).toNat =
      if 65 ≤ c.toNat ∧ c.toNat ≤ 90 then c.toNat + 32 else c.toNat := by
  unfold Char.toLower
  split
  · next h =>
    rw [if_pos (by omega)]
    exact char_toNat_ofNat_of_letter (by omega) (by omega)
  · next h => rw [if_neg (by omega)]

theorem toNat_toUpper (c : Char) :
    (Char.toUpper c).toNat =
      if 97 ≤ c.toNat ∧ c.toNat ≤ 122 then c.toNat - 32 else c.toNat := by
  unfold Char.toUpper
  split
  · next h =>
    rw [if_pos (by omega)]
    exact char_toNat_ofNat_of_letter (by omega) (by omega)
  · next h => rw [if_neg (by omega)]

theorem toLower_toLower (c : Char) : Char.toLower (Char.toLower c) = Char.toLower c := by
  apply char_eq_of_toNat_eq
  rw [toNat_toLower, toNat_toLower]
  split_ifs <;> omega

theorem toLower_toUpper_toLower (c : Char) :
    Char.toLower (Char.toUpper (Char.toLower c)) = Char.toLower c := by
  apply char_eq_of_toNat_eq
  rw [toNat_toLower, toNat_toUpper, toNat_toLower]
  split_ifs <;> omega

theorem toLower_toUpper_of_lowered {c : Char} (h : Char.toLower c = c) :
    Char.toLower (Char.toUpper c) = c := by
  conv_lhs => rw [← h]
  rw [toLower_toUpper_toLower, h]

theorem isJsWs_iff_toNat (c : Char) :
    isJsWs c = true ↔ (c.toNat = 32 ∨ c.toNat = 9 ∨ c.toNat = 10 ∨ c.toNat = 13 ∨
      c.toNat = 11 ∨ c.toNat = 12 ∨ c.toNat = 160) := by
  unfold isJsWs
  simp only [Bool.or_eq_true, beq_iff_eq]
  constructor
  · rintro ((((((h | h) | h) | h) | h) | h) | h)
    · exact Or.inl (by rw [h]; rfl)
    · exact Or.inr (Or.inl (by rw [h]; rfl))
    · exact Or.inr (Or.inr (Or.inl (by rw [h]; rfl)))
    · exact Or.inr (Or.inr (Or.inr (Or.inl (by rw [h]; rfl))))
    · exact Or.inr (Or.inr (Or.inr (Or.inr (Or.inl (by rw [h]; rfl)))))
    · exact Or.inr (Or.inr (Or.inr (Or.inr (Or.inr (Or.inl (by rw [h]; rfl))))))
    · exact Or.inr (Or.inr (Or.inr (Or.inr (Or.inr (Or.inr
        (by show c.val.toNat = 160; rw [show c.val = 160 from h]; rfl))))))
  · rintro (h | h | h | h | h | h | h)
    · exact Or.inl (Or.inl (Or.inl (Or.inl (Or.inl (Or.inl
        (char_eq_of_toNat_eq h))))))
    · exact Or.inl (Or.inl (Or.inl (Or.inl (Or.inl (Or.inr
        (char_eq_of_toNat_eq h))))))
    · exact Or.inl (Or.inl (Or.inl (Or.inl (Or.inr (char_eq_of_toNat_eq h)))))
    · exact Or.inl (Or.inl (Or.inl (Or.inr (char_eq_of_toNat_eq h))))
    · exact Or.inl (Or.inl (Or.inr (char_eq_of_toNat_eq h)))
    · exact Or.inl (Or.inr (char_eq_of_toNat_eq h))
    · exact Or.inr (UInt32.toNat.inj h)

theorem isStrayBracket_iff_toNat (c : Char) :
    isStrayBracket c = true ↔ (c.toNat = 91 ∨ c.toNat = 93 ∨ c.toNat = 40 ∨
      c.toNat = 41) := by
  unfold isStrayBracket
  simp only [Bool.or_eq_true, beq_iff_eq]
  constructor
  · rintro (((h | h) | h) | h)
    · exact Or.inl (by rw [h]; rfl)
    · exact Or.inr (Or.inl (by rw [h]; rfl))
    · exact Or.inr (Or.inr (Or.inl (by rw [h]; rfl)))
    · exact Or.inr (Or.inr (Or.inr (by rw [h]; rfl)))
  · rintro (h | h | h | h)
    · exact Or.inl (Or.inl (Or.inl (char_eq_of_toNat_eq h)))
    · exact Or.inl (Or.inl (Or.inr (char_eq_of_toNat_eq h)))
    · exact Or.inl (Or.inr (char_eq_of_toNat_eq h))
    · exact Or.inr (char_eq_of_toNat_eq h)

theorem isJsWs_toLower (c : Char) : isJsWs (Char.toLower c) = isJsWs c := by
  rw [Bool.eq_iff_iff, isJsWs_iff_toNat, isJsWs_iff_toNat, toNat_toLower]
  split_ifs <;> omega

theorem isJsWs_toUpper (c : Char) : isJsWs (Char.toUpper c) = isJsWs c := by
  rw [Bool.eq_iff_iff, isJsWs_iff_toNat, isJsWs_iff_toNat, toNat_toUpper]
  split_ifs <;> omega

theorem isStrayBracket_toLower (c : Char) :
    isStrayBracket (Char.toLower c) = isStrayBracket c := by
  rw [Bool.eq_iff_iff, isStrayBracket_iff_toNat, isStrayBracket_iff_toNat, toNat_toLower]
  split_ifs <;> omega

theorem isStrayBracket_toUpper (c : Char) :
    isStrayBracket (Char.toUpper c) = isStrayBracket c := by
  rw [Bool.eq_iff_iff, isStrayBracket_iff_toNat, isStrayBracket_iff_toNat, toNat_toUpper]
  split_ifs <;> omega

theorem toLower_eq_iff_of_nonletter {c d : Char}
    (hd : d.toNat < 65 ∨ (90 < d.toNat ∧ d.toNat < 97) ∨ 122 < d.toNat) :
    Char.toLower c = d ↔ c = d := by
  constructor
  · intro h
    have ht := congrArg Char.toNat h
    rw [toNat_toLower] at ht
    by_cases hc : 65 ≤ c.toNat ∧ c.toNat ≤ 90
    · rw [if_pos hc] at ht
      omega
    · rw [if_neg hc] at ht
      exact char_eq_of_toNat_eq ht
  · rintro rfl
    apply char_eq_of_toNat_eq
    rw [toNat_toLower, if_neg (by omega)]

/-! ## List-scanner lemmas for the label normalizer -/

theorem takeWhile_append_of_all {p : Char → Bool} {l1 l2 : List Char}
    (h : ∀ c ∈ l1, p c = true) :
    (l1 ++ l2).takeWhile p = l1 ++ l2.takeWhile p := by
  induction l1 with
  | nil => rfl
  | cons c t ih =>
    rw [List.cons_append, List.takeWhile_cons,
      if_pos (h c (List.mem_cons_self c t)), ih (fun x hx => h x (List.mem_cons_of_mem c hx))]
    rfl

theorem dropWhile_append_of_all {p : Char → Bool} {l1 l2 : List Char}
    (h : ∀ c ∈ l1, p c = true) :
    (l1 ++ l2).dropWhile p = l2.dropWhile p := by
  induction l1 with
  | nil => rfl
  | cons c t ih =>
    rw [List.cons_append, List.dropWhile_cons, if_pos (h c (List.mem_cons_self c t))]
    exact ih (fun x hx => h x (List.mem_cons_of_mem c hx))

theorem dropWhile_head_false {p : Char → Bool} {l : List Char} {c : Char}
    {t : List Char} (h : l.dropWhile p = c :: t) : p c = false := by
  induction l with
  | nil => cases h
  | cons d r ih =>
    rw [List.dropWhile_cons] at h
    by_cases hd : p d = true
    · rw [if_pos hd] at h
      exact ih h
    · rw [if_neg hd] at h
      cases h
      exact Bool.not_eq_true _ |>.mp hd

theorem dropWhile_eq_self_of_head {p : Char → Bool} {l : List Char}
    (h : ∀ c t, l = c :: t → p c = false) : l.dropWhile p = l := by
  cases l with
  | nil => rfl
  | cons c t => rw [List.dropWhile_cons, if_neg (by rw [h c t rfl]; exact Bool.false_ne_true)]

theorem sepGo_mono (sep : Char) :
    ∀ n, ∀ l : List Char, l.length ≤ n → ∀ f1 f2, l.length ≤ f1 → l.length ≤ f2 →
      sepGo sep f1 l = sepGo sep f2 l := by
  intro n
  induction n with
  | zero =>
    intro l hl f1 f2 h1 h2
    have : l = [] := List.length_eq_zero.mp (Nat.le_zero.mp hl)
    subst this
    cases f1 <;> cases f2 <;> rfl
  | succ n ih =>
    intro l hl f1 f2 h1 h2
    cases l with
    | nil => cases f1 <;> cases f2 <;> rfl
    | cons c t =>
      cases f1 with
      | zero => cases h1
      | succ f1 =>
        cases f2 with
        | zero => cases h2
        | succ f2 =>
          show sepGo sep (f1 + 1) (c :: t) = sepGo sep (f2 + 1) (c :: t)
          unfold sepGo
          cases hdrop : (c :: t).dropWhile (fun x => !(x == sep)) with
          | nil => rfl
          | cons d r =>
            simp only []
            by_cases hd : (d == sep) = true
            · rw [if_pos hd, if_pos hd]
              have hr : r.length ≤ n := by
                have hsuf : d :: r <:+ c :: t := hdrop ▸ List.dropWhile_suffix _
                have := hsuf.length_le
                simp only [List.length_cons] at this hl ⊢
                omega
              have hrf1 : r.length ≤ f1 := by
                have hsuf : d :: r <:+ c :: t := hdrop ▸ List.dropWhile_suffix _
                have := hsuf.length_le
                simp only [List.length_cons] at this h1
                omega
              have hrf2 : r.length ≤ f2 := by
                have hsuf : d :: r <:+ c :: t := hdrop ▸ List.dropWhile_suffix _
                have := hsuf.length_le
                simp only [List.length_cons] at this h2
                omega
              rw [ih r hr f1 f2 hrf1 hrf2]
            · rw [if_neg hd, if_neg hd]

theorem splitOnChar_of_dropWhile_nil {sep : Char} {l : List Char}
    (h : l.dropWhile (fun c => !(c == sep)) = []) :
    splitOnChar sep l = [l.takeWhile (fun c => !(c == sep))] := by
  cases l with
  | nil => rfl
  | cons c t =>
    show sepGo sep (t.length + 1) (c :: t) = _
    unfold sepGo
    rw [h]

theorem splitOnChar_of_dropWhile_cons {sep : Char} {l r : List Char}
    (h : l.dropWhile (fun c => !(c == sep)) = sep :: r) :
    splitOnChar sep l = l.takeWhile (fun c => !(c == sep)) :: splitOnChar sep r := by
  have hr : r.length ≤ l.length := by
    have hsuf : sep :: r <:+ l := h ▸ List.dropWhile_suffix _
    have := hsuf.length_le
    simp only [List.length_cons] at this
    omega
  cases l with
  | nil => cases h
  | cons c t =>
    show sepGo sep (t.length + 1) (c :: t) = _
    unfold sepGo
    rw [h]
    dsimp only
    rw [if_pos (beq_self_eq_true sep)]
    have hlen : r.length ≤ t.length := by
      simp only [List.length_cons] at hr
      by_cases hrt : r.length = t.length + 1
      · exfalso
        have hsuf : sep :: r <:+ c :: t := h ▸ List.dropWhile_suffix _
        have := hsuf.length_le
        simp only [List.length_cons] at this
        omega
      · omega
    rw [sepGo_mono sep r.length r (Nat.le_refl _) t.length r.length hlen (Nat.le_refl _)]
    rfl

theorem splitOnChar_ne_nil (sep : Char) (l : List Char) : splitOnChar sep l ≠ [] := by
  cases hdrop : l.dropWhile (fun c => !(c == sep)) with
  | nil => rw [splitOnChar_of_dropWhile_nil hdrop]; exact List.cons_ne_nil _ _
  | cons d r =>
    have hd : d = sep := by
      have := dropWhile_head_false hdrop
      simpa using this
    rw [hd] at hdrop
    rw [splitOnChar_of_dropWhile_cons hdrop]
    exact List.cons_ne_nil _ _

theorem splitOnChar_words_sep_free {sep : Char} :
    ∀ {n : Nat} {l : List Char}, l.length ≤ n →
      ∀ w ∈ splitOnChar sep l, ∀ c ∈ w, (c == sep) = false := by
  intro n
  induction n with
  | zero =>
    intro l hl w hw c hc
    have : l = [] := List.length_eq_zero.mp (Nat.le_zero.mp hl)
    subst this
    have : w = [] := by
      have : splitOnChar sep ([] : List Char) = [[]] := rfl
      rw [this] at hw
      simpa using hw
    subst this
    cases hc
  | succ n ih =>
    intro l hl w hw c hc
    cases hdrop : l.dropWhile (fun x => !(x == sep)) with
    | nil =>
      rw [splitOnChar_of_dropWhile_nil hdrop] at hw
      have hwt : w = l.takeWhile (fun x => !(x == sep)) := by simpa using hw
      subst hwt
      have := List.mem_takeWhile_imp hc
      simpa using this
    | cons d r =>
      have hd : d = sep := by
        have := dropWhile_head_false hdrop
        simpa using this
      rw [hd] at hdrop
      rw [splitOnChar_of_dropWhile_cons hdrop] at hw
      rcases List.mem_cons.mp hw with hw1 | hw2
      · subst hw1
        have := List.mem_takeWhile_imp hc
        simpa using this
      · have hr : r.length ≤ n := by
          have hsuf : sep :: r <:+ l := hdrop ▸ List.dropWhile_suffix _
          have := hsuf.length_le
          simp only [List.length_cons] at this
          omega
        exact ih hr w hw2 c hc

theorem splitOnChar_words_mem {sep : Char} :
    ∀ {n : Nat} {l : List Char}, l.length ≤ n →
      ∀ w ∈ splitOnChar sep l, ∀ c ∈ w, c ∈ l := by
  intro n
  induction n with
  | zero =>
    intro l hl w hw c hc
    have : l = [] := List.length_eq_zero.mp (Nat.le_zero.mp hl)
    subst this
    have : w = ([] : List Char) := by
      have h0 : splitOnChar sep ([] : List Char) = [[]] := rfl
      rw [h0] at hw
      simpa using hw
    subst this
    cases hc
  | succ n ih =>
    intro l hl w hw c hc
    cases hdrop : l.dropWhile (fun x => !(x == sep)) with
    | nil =>
      rw [splitOnChar_of_dropWhile_nil hdrop] at hw
      have hwt : w = l.takeWhile (fun x => !(x == sep)) := by simpa using hw
      subst hwt
      exact (List.takeWhile_sublist _).subset hc
    | cons d r =>
      have hd : d = sep := by
        have := dropWhile_head_false hdrop
        simpa using this
      rw [hd] at hdrop
      rw [splitOnChar_of_dropWhile_cons hdrop] at hw
      rcases List.mem_cons.mp hw with hw1 | hw2
      · subst hw1
        exact (List.takeWhile_sublist _).subset hc
      · have hsuf : sep :: r <:+ l := hdrop ▸ List.dropWhile_suffix _
        have hr : r.length ≤ n := by
          have := hsuf.length_le
          simp only [List.length_cons] at this
          omega
        exact hsuf.subset (List.mem_cons_of_mem sep (ih hr w hw2 c hc))

theorem joinSpace_splitOnChar_space :
    ∀ {n : Nat} {l : List Char}, l.length ≤ n →
      joinSpace (splitOnChar ' ' l) = l := by
  intro n
  induction n with
  | zero =>
    intro l hl
    have : l = [] := List.length_eq_zero.mp (Nat.le_zero.mp hl)
    subst this
    rfl
  | succ n ih =>
    intro l hl
    cases hdrop : l.dropWhile (fun x => !(x == ' ')) with
    | nil =>
      rw [splitOnChar_of_dropWhile_nil hdrop]
      show joinSpace [l.takeWhile (fun x => !(x == ' '))] = l
      have := List.takeWhile_append_dropWhile (p := fun x => !(x == ' ')) (l := l)
      rw [hdrop, List.append_nil] at this
      exact this
    | cons d r =>
      have hd : d = ' ' := by
        have := dropWhile_head_false hdrop
        simpa using this
      rw [hd] at hdrop
      rw [splitOnChar_of_dropWhile_cons hdrop]
      have hr : r.length ≤ n := by
        have hsuf : ' ' :: r <:+ l := hdrop ▸ List.dropWhile_suffix _
        have := hsuf.length_le
        simp only [List.length_cons] at this
        omega
      have hjoin : joinSpace (l.takeWhile (fun x => !(x == ' ')) :: splitOnChar ' ' r) =
          l.takeWhile (fun x => !(x == ' ')) ++ ' ' :: joinSpace (splitOnChar ' ' r) := by
        cases hsp : splitOnChar ' ' r with
        | nil => exact absurd hsp (splitOnChar_ne_nil ' ' r)
        | cons w ws => rfl
      rw [hjoin, ih hr]
      have := List.takeWhile_append_dropWhile (p := fun x => !(x == ' ')) (l := l)
      rw [hdrop] at this
      exact this

theorem splitOnChar_joinSpace_space :
    ∀ words : List (List Char), words ≠ [] →
      (∀ w ∈ words, ∀ c ∈ w, (c == ' ') = false) →
      splitOnChar ' ' (joinSpace words) = words := by
  intro words
  induction words with
  | nil => intro h; exact absurd rfl h
  | cons w ws ih =>
    intro _ hfree
    have hwfree : ∀ c ∈ w, (c == ' ') = false :=
      hfree w (List.mem_cons_self w ws)
    cases ws with
    | nil =>
      show splitOnChar ' ' w = [w]
      have hdrop : w.dropWhile (fun x => !(x == ' ')) = [] :=
        List.dropWhile_eq_nil_iff.mpr (fun c hc => by rw [hwfree c hc]; rfl)
      rw [splitOnChar_of_dropWhile_nil hdrop]
      rw [List.takeWhile_eq_self_iff.mpr (fun c hc => by rw [hwfree c hc]; rfl)]
    | cons w2 t =>
      show splitOnChar ' ' (w ++ ' ' :: joinSpace (w2 :: t)) = w :: w2 :: t
      have hall : ∀ c ∈ w, (fun x => !(x == ' ')) c = true := by
        intro c hc
        simp only [hwfree c hc]
        rfl
      have hdrop : (w ++ ' ' :: joinSpace (w2 :: t)).dropWhile (fun x => !(x == ' ')) =
          ' ' :: joinSpace (w2 :: t) := by
        rw [dropWhile_append_of_all hall, List.dropWhile_cons]
        rw [if_neg (by simp)]
      rw [splitOnChar_of_dropWhile_cons hdrop]
      rw [takeWhile_append_of_all hall, List.takeWhile_cons]
      rw [if_neg (by simp), List.append_nil]
      rw [ih (List.cons_ne_nil w2 t) (fun x hx => hfree x (List.mem_cons_of_mem w hx))]

theorem mdTryLink_eq_none_of_no_rbracket {l : List Char} (h : ']' ∉ l) :
    mdTryLink l = none := by
  unfold mdTryLink
  have hdrop : l.dropWhile (fun c => !(c == ']')) = [] :=
    List.dropWhile_eq_nil_iff.mpr (fun c hc => by
      have hne : c ≠ ']' := fun hx => h (hx ▸ hc)
      simp [hne])
  rw [hdrop]
  dsimp only
  split
  · rfl
  · rfl

theorem smGo_id_of_no_rbracket : ∀ (fuel : Nat) (l : List Char), ']' ∉ l →
    smGo fuel l = l := by
  intro fuel
  induction fuel with
  | zero => intro l _; rfl
  | succ fuel ih =>
    intro l hl
    cases l with
    | nil => rfl
    | cons c t =>
      show smGo (fuel + 1) (c :: t) = c :: t
      unfold smGo
      have ht : ']' ∉ t := fun hx => hl (List.mem_cons_of_mem c hx)
      by_cases hc : (c == '[') = true
      · rw [if_pos hc, mdTryLink_eq_none_of_no_rbracket ht]
        rw [ih t ht]
      · rw [if_neg hc, ih t ht]

theorem stripMarkdownLinks_id_of_no_rbracket {l : List Char} (h : ']' ∉ l) :
    stripMarkdownLinks l = l :=
  smGo_id_of_no_rbracket l.length l h

theorem mem_cwGo : ∀ (fuel : Nat) (l : List Char) (c : Char), c ∈ cwGo fuel l →
    c = ' ' ∨ c ∈ l := by
  intro fuel
  induction fuel with
  | zero => intro l c hc; exact Or.inr hc
  | succ fuel ih =>
    intro l c hc
    cases l with
    | nil => cases hc
    | cons d t =>
      unfold cwGo at hc
      by_cases hd : isJsWs d = true
      · rw [if_pos hd] at hc
        rcases List.mem_cons.mp hc with h1 | h2
        · exact Or.inl h1
        · rcases ih _ c h2 with h3 | h4
          · exact Or.inl h3
          · exact Or.inr (List.mem_cons_of_mem d ((List.dropWhile_sublist _).subset h4))
      · rw [if_neg hd] at hc
        rcases List.mem_cons.mp hc with h1 | h2
        · exact Or.inr (h1 ▸ List.mem_cons_self d t)
        · rcases ih _ c h2 with h3 | h4
          · exact Or.inl h3
          · exact Or.inr (List.mem_cons_of_mem d h4)

theorem collapseWs_copy_nonws {w : List Char} (hw : ∀ c ∈ w, isJsWs c = false) :
    ∀ l : List Char, collapseWs (w ++ l) = w ++ collapseWs l := by
  induction w with
  | nil => intro l; rfl
  | cons c t ih =>
    intro l
    show cwGo ((t ++ l).length + 1) (c :: (t ++ l)) = c :: (t ++ collapseWs l)
    unfold cwGo
    rw [if_neg (by rw [hw c (List.mem_cons_self c t)]; exact Bool.false_ne_true)]
    have := ih (fun x hx => hw x (List.mem_cons_of_mem c hx)) l
    show c :: cwGo (t ++ l).length (t ++ l) = c :: (t ++ collapseWs l)
    rw [show cwGo (t ++ l).length (t ++ l) = collapseWs (t ++ l) from rfl, this]

theorem collapseWs_space_cons {l : List Char}
    (h : ∀ c t, l = c :: t → isJsWs c = false) :
    collapseWs (' ' :: l) = ' ' :: collapseWs l := by
  show cwGo (l.length + 1) (' ' :: l) = ' ' :: collapseWs l
  unfold cwGo
  rw [if_pos (by rfl)]
  rw [dropWhile_eq_self_of_head h]
  rfl

theorem prefix_head_eq {l1 l2 : List Char} (h : l1 <+: l2) {c : Char} {t : List Char}
    (hc : l1 = c :: t) : l2.head? = some c := by
  obtain ⟨r, rfl⟩ := h
  subst hc
  rfl

theorem jsTrimChars_head_nonws {u : List Char} {c : Char} {t : List Char}
    (h : jsTrimChars u = c :: t) : isJsWs c = false := by
  unfold jsTrimChars at h
  set X := (u.dropWhile isJsWs).reverse with hX
  have hpre : ((X.dropWhile isJsWs).reverse : List Char) <+: X.reverse :=
    List.reverse_prefix.mpr (List.dropWhile_suffix _)
  have hhead : X.reverse.head? = some c := prefix_head_eq hpre h
  have hXrev : X.reverse = u.dropWhile isJsWs := by rw [hX, List.reverse_reverse]
  rw [hXrev] at hhead
  cases hd : u.dropWhile isJsWs with
  | nil => rw [hd] at hhead; cases hhead
  | cons d r =>
    rw [hd] at hhead
    have : d = c := by
      simpa using hhead
    subst this
    exact dropWhile_head_false hd

theorem jsTrimChars_last_nonws {u : List Char} {c : Char} {t : List Char}
    (h : (jsTrimChars u).reverse = c :: t) : isJsWs c = false := by
  unfold jsTrimChars at h
  rw [List.reverse_reverse] at h
  exact dropWhile_head_false h

theorem mem_joinSpace {c : Char} :
    ∀ {ws : List (List Char)}, c ∈ joinSpace ws → c = ' ' ∨ ∃ w ∈ ws, c ∈ w := by
  intro ws
  induction ws with
  | nil => intro h; cases h
  | cons w t ih =>
    intro h
    cases t with
    | nil =>
      exact Or.inr ⟨w, List.mem_cons_self w [], h⟩
    | cons w2 t2 =>
      have h' : c ∈ w ++ ' ' :: joinSpace (w2 :: t2) := h
      rcases List.mem_append.mp h' with h1 | h2
      · exact Or.inr ⟨w, List.mem_cons_self w _, h1⟩
      · rcases List.mem_cons.mp h2 with h3 | h4
        · exact Or.inl h3
        · rcases ih h4 with h5 | ⟨w', hw', hc'⟩
          · exact Or.inl h5
          · exact Or.inr ⟨w', List.mem_cons_of_mem w hw', hc'⟩

theorem joinSpace_ne_nil {ws : List (List Char)} (h1 : ws ≠ [])
    (h2 : ∀ w ∈ ws, w ≠ []) : joinSpace ws ≠ [] := by
  cases ws with
  | nil => exact absurd rfl h1
  | cons w t =>
    cases t with
    | nil => exact h2 w (List.mem_cons_self w [])
    | cons w2 t2 =>
      show w ++ ' ' :: joinSpace (w2 :: t2) ≠ []
      simp

theorem map_toLower_joinSpace :
    ∀ ws : List (List Char),
      (joinSpace ws).map Char.toLower = joinSpace (ws.map (List.map Char.toLower)) := by
  intro ws
  induction ws with
  | nil => rfl
  | cons w t ih =>
    cases t with
    | nil => rfl
    | cons w2 t2 =>
      show (w ++ ' ' :: joinSpace (w2 :: t2)).map Char.toLower = _
      rw [List.map_append, List.map_cons, ih]
      rfl

theorem cwGo_mono :
    ∀ n, ∀ l : List Char, l.length ≤ n → ∀ f1 f2, l.length ≤ f1 → l.length ≤ f2 →
      cwGo f1 l = cwGo f2 l := by
  intro n
  induction n with
  | zero =>
    intro l hl f1 f2 h1 h2
    have : l = [] := List.length_eq_zero.mp (Nat.le_zero.mp hl)
    subst this
    cases f1 <;> cases f2 <;> rfl
  | succ n ih =>
    intro l hl f1 f2 h1 h2
    cases l with
    | nil => cases f1 <;> cases f2 <;> rfl
    | cons c t =>
      cases f1 with
      | zero => cases h1
      | succ f1 =>
        cases f2 with
        | zero => cases h2
        | succ f2 =>
          show cwGo (f1 + 1) (c :: t) = cwGo (f2 + 1) (c :: t)
          unfold cwGo
          simp only [List.length_cons] at hl h1 h2
          by_cases hc : isJsWs c = true
          · rw [if_pos hc, if_pos hc]
            have hlen := (List.dropWhile_sublist (l := t) (p := isJsWs)).length_le
            rw [ih (t.dropWhile isJsWs) (by omega) f1 f2 (by omega) (by omega)]
          · rw [if_neg hc, if_neg hc]
            rw [ih t (by omega) f1 f2 (by omega) (by omega)]

theorem collapseWs_ws_cons {d : Char} {rt : List Char} (hd : isJsWs d = true) :
    collapseWs (d :: rt) = ' ' :: collapseWs (rt.dropWhile isJsWs) := by
  show cwGo (rt.length + 1) (d :: rt) = _
  unfold cwGo
  rw [if_pos hd]
  have hlen := (List.dropWhile_sublist (l := rt) (p := isJsWs)).length_le
  rw [cwGo_mono (rt.dropWhile isJsWs).length _ (Nat.le_refl _) rt.length
    (rt.dropWhile isJsWs).length hlen (Nat.le_refl _)]
  rfl

theorem collapseWs_form :
    ∀ (n : Nat) (l : List Char), l.length ≤ n →
      (∀ c t, l = c :: t → isJsWs c = false) →
      (∀ c t, l.reverse = c :: t → isJsWs c = false) →
      l = [] ∨ ∃ ws : List (List Char), collapseWs l = joinSpace ws ∧ ws ≠ [] ∧
        (∀ w ∈ ws, w ≠ []) ∧ (∀ w ∈ ws, ∀ c ∈ w, isJsWs c = false) := by
  intro n
  induction n with
  | zero =>
    intro l hl _ _
    exact Or.inl (List.length_eq_zero.mp (Nat.le_zero.mp hl))
  | succ n ih =>
    intro l hl hhead hlast
    cases hle : l with
    | nil => exact Or.inl rfl
    | cons c0 t0 =>
      right
      rw [← hle]
      have hword : l.takeWhile (fun c => !isJsWs c) ≠ [] := by
        rw [hle, List.takeWhile_cons, if_pos (by rw [hhead c0 t0 hle]; rfl)]
        exact List.cons_ne_nil _ _
      have hwordnws : ∀ c ∈ l.takeWhile (fun c => !isJsWs c), isJsWs c = false := by
        intro c hc
        have := List.mem_takeWhile_imp hc
        simpa using this
      have hsplit := List.takeWhile_append_dropWhile (p := fun c => !isJsWs c) (l := l)
      cases hrest : l.dropWhile (fun c => !isJsWs c) with
      | nil =>
        refine ⟨[l.takeWhile (fun c => !isJsWs c)], ?_, List.cons_ne_nil _ _, ?_, ?_⟩
        · show collapseWs l = l.takeWhile (fun c => !isJsWs c)
          conv_lhs => rw [← hsplit, hrest]
          rw [collapseWs_copy_nonws hwordnws,
            show collapseWs ([] : List Char) = [] from rfl, List.append_nil]
        · intro w hw
          rw [List.mem_singleton.mp hw]
          exact hword
        · intro w hw
          rw [List.mem_singleton.mp hw]
          exact hwordnws
      | cons d rt =>
        have hd : isJsWs d = true := by
          have := dropWhile_head_false hrest
          simpa using this
        cases hv : rt.dropWhile isJsWs with
        | nil =>
          exfalso
          have hallws : ∀ c ∈ d :: rt, isJsWs c = true := by
            intro c hc
            rcases List.mem_cons.mp hc with rfl | hc2
            · exact hd
            · exact List.dropWhile_eq_nil_iff.mp hv c hc2
          have hsuf : d :: rt <:+ l := hrest ▸ List.dropWhile_suffix _
          obtain ⟨cr, sr, hrev⟩ : ∃ cr sr, (d :: rt).reverse = cr :: sr := by
            cases hrr : (d :: rt).reverse with
            | nil =>
              exfalso
              have := congrArg List.length hrr
              simp at this
            | cons x y => exact ⟨x, y, rfl⟩
          have hcrws : isJsWs cr = true := by
            apply hallws
            rw [← List.mem_reverse, hrev]
            exact List.mem_cons_self cr sr
          have hpre : (d :: rt).reverse <+: l.reverse :=
            List.reverse_prefix.mpr hsuf
          have hlhead : l.reverse.head? = some cr := prefix_head_eq hpre hrev
          cases hlr : l.reverse with
          | nil => rw [hlr] at hlhead; cases hlhead
          | cons cx tx =>
            rw [hlr] at hlhead
            have : cx = cr := by simpa using hlhead
            subst this
            rw [hlast cx tx hlr] at hcrws
            cases hcrws
        | cons e vt =>
          have hvsuf : (e :: vt) <:+ l := by
            have h1 : (e :: vt) <:+ rt := hv ▸ List.dropWhile_suffix _
            have h2 : rt <:+ d :: rt := List.suffix_cons d rt
            have h3 : (d :: rt) <:+ l := hrest ▸ List.dropWhile_suffix _
            exact h1.trans (h2.trans h3)
          have hvhead : ∀ c t, (e :: vt) = c :: t → isJsWs c = false := by
            intro c t hct
            cases hct
            have := dropWhile_head_false hv
            exact this
          have hvlast : ∀ c t, (e :: vt).reverse = c :: t → isJsWs c = false := by
            intro c t hct
            have hpre : (e :: vt).reverse <+: l.reverse := List.reverse_prefix.mpr hvsuf
            have hlhead : l.reverse.head? = some c := prefix_head_eq hpre hct
            cases hlr : l.reverse with
            | nil => rw [hlr] at hlhead; cases hlhead
            | cons cx tx =>
              rw [hlr] at hlhead
              have : cx = c := by simpa using hlhead
              subst this
              exact hlast cx tx hlr
          have hvlen : (e :: vt).length ≤ n := by
            have h1 : (e :: vt).length ≤ rt.length := by
              have := (hv ▸ List.dropWhile_sublist (l := rt) (p := isJsWs)).length_le
              exact this
            have h2 : (d :: rt).length ≤ l.length := by
              have := (hrest ▸
                List.dropWhile_sublist (l := l) (p := fun c => !isJsWs c)).length_le
              exact this
            simp only [List.length_cons] at h1 h2 hl ⊢
            omega
          rcases ih (e :: vt) hvlen hvhead hvlast with hnil | ⟨wsv, hwsv, hwsvne, hwsvwne, hwsvnws⟩
          · cases hnil
          · obtain ⟨wv, tv, rfl⟩ : ∃ wv tv, wsv = wv :: tv := by
              cases wsv with
              | nil => exact absurd rfl hwsvne
              | cons x y => exact ⟨x, y, rfl⟩
            refine ⟨l.takeWhile (fun c => !isJsWs c) :: wv :: tv, ?_, List.cons_ne_nil _ _, ?_, ?_⟩
            · show collapseWs l = l.takeWhile (fun c => !isJsWs c) ++ ' ' :: joinSpace (wv :: tv)
              conv_lhs => rw [← hsplit, hrest]
              rw [collapseWs_copy_nonws hwordnws, collapseWs_ws_cons hd, hv, hwsv]
            · intro w hw
              rcases List.mem_cons.mp hw with rfl | hw2
              · exact hword
              · exact hwsvwne w hw2
            · intro w hw
              rcases List.mem_cons.mp hw with rfl | hw2
              · exact hwordnws
              · exact hwsvnws w hw2

theorem joinSpace_head_nonws {ws : List (List Char)} (h1 : ws ≠ [])
    (h2 : ∀ w ∈ ws, w ≠ []) (h3 : ∀ w ∈ ws, ∀ c ∈ w, isJsWs c = false) :
    ∀ c s, joinSpace ws = c :: s → isJsWs c = false := by
  intro c s hcs
  cases ws with
  | nil => exact absurd rfl h1
  | cons w t =>
    obtain ⟨x, xs, rfl⟩ : ∃ x xs, w = x :: xs := by
      cases hw : w with
      | nil => exact absurd hw (h2 w (List.mem_cons_self w t))
      | cons x xs => exact ⟨x, xs, rfl⟩
    have hx : c = x := by
      cases t with
      | nil =>
        have : (x :: xs : List Char) = c :: s := hcs
        cases this
        rfl
      | cons w2 t2 =>
        have : (x :: (xs ++ ' ' :: joinSpace (w2 :: t2)) : List Char) = c :: s := hcs
        cases this
        rfl
    subst hx
    exact h3 _ (List.mem_cons_self _ t) c (List.mem_cons_self c xs)

theorem joinSpace_rev_head :
    ∀ (ws : List (List Char)), ws ≠ [] → (∀ w ∈ ws, w ≠ []) →
      (∀ w ∈ ws, ∀ c ∈ w, isJsWs c = false) →
      ∀ c s, (joinSpace ws).reverse = c :: s → isJsWs c = false := by
  intro ws
  induction ws with
  | nil => intro h; exact absurd rfl h
  | cons w t ih =>
    intro _ h2 h3 c s hcs
    cases t with
    | nil =>
      have hc : c ∈ w := by
        rw [← List.mem_reverse]
        show c ∈ (joinSpace [w]).reverse
        rw [hcs]
        exact List.mem_cons_self c s
      exact h3 w (List.mem_cons_self w []) c hc
    | cons w2 t2 =>
      have hj : joinSpace (w :: w2 :: t2) = w ++ ' ' :: joinSpace (w2 :: t2) := rfl
      rw [hj, List.reverse_append, List.reverse_cons] at hcs
      have hjne : joinSpace (w2 :: t2) ≠ [] :=
        joinSpace_ne_nil (List.cons_ne_nil w2 t2)
          (fun x hx => h2 x (List.mem_cons_of_mem w hx))
      obtain ⟨c0, s0, hrev⟩ : ∃ c0 s0, (joinSpace (w2 :: t2)).reverse = c0 :: s0 := by
        cases hrr : (joinSpace (w2 :: t2)).reverse with
        | nil =>
          exfalso
          have := congrArg List.reverse hrr
          rw [List.reverse_reverse] at this
          exact hjne this
        | cons x y => exact ⟨x, y, rfl⟩
      rw [hrev] at hcs
      have : c0 = c := by
        have := hcs
        rw [List.append_assoc, List.cons_append] at this
        cases this
        rfl
      subst this
      exact ih (List.cons_ne_nil w2 t2) (fun x hx => h2 x (List.mem_cons_of_mem w hx))
        (fun x hx => h3 x (List.mem_cons_of_mem w hx)) c0 s0 hrev

theorem collapseWs_joinSpace_id :
    ∀ (ws : List (List Char)), (∀ w ∈ ws, w ≠ []) →
      (∀ w ∈ ws, ∀ c ∈ w, isJsWs c = false) →
      collapseWs (joinSpace ws) = joinSpace ws := by
  intro ws
  induction ws with
  | nil => intro _ _; rfl
  | cons w t ih =>
    intro h2 h3
    cases t with
    | nil =>
      show collapseWs w = w
      conv_lhs => rw [← List.append_nil w]
      rw [collapseWs_copy_nonws (h3 w (List.mem_cons_self w [])),
        show collapseWs ([] : List Char) = [] from rfl, List.append_nil]
    | cons w2 t2 =>
      show collapseWs (w ++ ' ' :: joinSpace (w2 :: t2)) = _
      rw [collapseWs_copy_nonws (h3 w (List.mem_cons_self w _)),
        collapseWs_space_cons (joinSpace_head_nonws (List.cons_ne_nil w2 t2)
          (fun x hx => h2 x (List.mem_cons_of_mem w hx))
          (fun x hx => h3 x (List.mem_cons_of_mem w hx))),
        ih (fun x hx => h2 x (List.mem_cons_of_mem w hx))
          (fun x hx => h3 x (List.mem_cons_of_mem w hx))]
      rfl

theorem jsTrimChars_joinSpace_id :
    ∀ (ws : List (List Char)), (∀ w ∈ ws, w ≠ []) →
      (∀ w ∈ ws, ∀ c ∈ w, isJsWs c = false) →
      jsTrimChars (joinSpace ws) = joinSpace ws := by
  intro ws h2 h3
  cases hws : ws with
  | nil => rfl
  | cons w t =>
    rw [← hws]
    unfold jsTrimChars
    have hdrop1 : (joinSpace ws).dropWhile isJsWs = joinSpace ws :=
      dropWhile_eq_self_of_head (fun c s hcs =>
        joinSpace_head_nonws (by rw [hws]; exact List.cons_ne_nil w t) h2 h3 c s hcs)
    rw [hdrop1]
    have hdrop2 : (joinSpace ws).reverse.dropWhile isJsWs = (joinSpace ws).reverse :=
      dropWhile_eq_self_of_head (fun c s hcs =>
        joinSpace_rev_head ws (by rw [hws]; exact List.cons_ne_nil w t) h2 h3 c s hcs)
    rw [hdrop2, List.reverse_reverse]

theorem mem_jsTrimChars {c : Char} {l : List Char} (h : c ∈ jsTrimChars l) : c ∈ l := by
  unfold jsTrimChars at h
  rw [List.mem_reverse] at h
  have h2 := (List.dropWhile_sublist (l := (l.dropWhile isJsWs).reverse)
    (p := isJsWs)).subset h
  rw [List.mem_reverse] at h2
  exact (List.dropWhile_sublist (l := l) (p := isJsWs)).subset h2

theorem mem_joinSpace_of_mem {c : Char} {w : List Char} :
    ∀ {ws : List (List Char)}, w ∈ ws → c ∈ w → c ∈ joinSpace ws := by
  intro ws
  induction ws with
  | nil => intro h; cases h
  | cons w1 t ih =>
    intro hw hc
    cases t with
    | nil =>
      have : w = w1 := by simpa using hw
      subst this
      exact hc
    | cons w2 t2 =>
      show c ∈ w1 ++ ' ' :: joinSpace (w2 :: t2)
      rcases List.mem_cons.mp hw with rfl | hw2
      · exact List.mem_append_left _ hc
      · exact List.mem_append_right _ (List.mem_cons_of_mem ' ' (ih hw2 hc))

theorem beq_space_false_of_nonws {c : Char} (h : isJsWs c = false) :
    (c == ' ') = false := by
  cases hb : (c == ' ') with
  | false => rfl
  | true =>
    have : c = ' ' := beq_iff_eq.mp hb
    subst this
    cases h

theorem capWord_ne_nil {w : List Char} (h : w ≠ []) : capWord w ≠ [] := by
  cases w with
  | nil => exact absurd rfl h
  | cons c t => exact List.cons_ne_nil _ _

theorem capWord_nonws {w : List Char} (h : ∀ c ∈ w, isJsWs c = false) :
    ∀ c ∈ capWord w, isJsWs c = false := by
  cases w with
  | nil => intro c hc; cases hc
  | cons d t =>
    intro c hc
    rcases List.mem_cons.mp hc with rfl | hc2
    · rw [isJsWs_toUpper]
      exact h d (List.mem_cons_self d t)
    · exact h c (List.mem_cons_of_mem d hc2)

theorem map_toLower_capWord {w : List Char} (h : ∀ c ∈ w, Char.toLower c = c) :
    (capWord w).map Char.toLower = w := by
  cases w with
  | nil => rfl
  | cons d t =>
    show Char.toLower (Char.toUpper d) :: t.map Char.toLower = d :: t
    rw [toLower_toUpper_of_lowered (h d (List.mem_cons_self d t))]
    congr 1
    have : ∀ c ∈ t, Char.toLower c = id c :=
      fun c hc => h c (List.mem_cons_of_mem d hc)
    rw [List.map_congr_left this, List.map_id]

theorem titleCase_joinSpace_repr (ws : List (List Char)) (hne : ws ≠ [])
    (hw : ∀ w ∈ ws, w ≠ []) (hnws : ∀ w ∈ ws, ∀ c ∈ w, isJsWs c = false) :
    titleCase (joinSpace ws) =
      joinSpace ((ws.map (List.map Char.toLower)).map capWord) := by
  unfold titleCase
  rw [map_toLower_joinSpace]
  rw [splitOnChar_joinSpace_space (ws.map (List.map Char.toLower))
    (by
      intro hc
      rw [List.map_eq_nil] at hc
      exact hne hc)
    (by
      intro w1 hw1 c hc
      obtain ⟨w0, hw0, rfl⟩ := List.mem_map.mp hw1
      obtain ⟨c0, hc0, rfl⟩ := List.mem_map.mp hc
      apply beq_space_false_of_nonws
      rw [isJsWs_toLower]
      exact hnws w0 hw0 c0 hc0)]

theorem titleCase_fix_on_capped (ws1 : List (List Char)) (hne : ws1 ≠ [])
    (hw : ∀ w ∈ ws1, w ≠ []) (hnws : ∀ w ∈ ws1, ∀ c ∈ w, isJsWs c = false)
    (hlow : ∀ w ∈ ws1, ∀ c ∈ w, Char.toLower c = c) :
    titleCase (joinSpace (ws1.map capWord)) = joinSpace (ws1.map capWord) := by
  unfold titleCase
  rw [map_toLower_joinSpace]
  have hmm : (ws1.map capWord).map (List.map Char.toLower) = ws1 := by
    rw [List.map_map]
    have : ∀ w ∈ ws1, (List.map Char.toLower ∘ capWord) w = id w := by
      intro w hwmem
      show (capWord w).map Char.toLower = w
      exact map_toLower_capWord (hlow w hwmem)
    rw [List.map_congr_left this, List.map_id]
  rw [hmm]
  rw [splitOnChar_joinSpace_space ws1 hne
    (fun w hwm c hc => beq_space_false_of_nonws (hnws w hwm c hc))]

/-- The normalized label, written out stage by stage, for a non-empty input. -/
theorem normalizeProductLabel_stages {x : String} (hx : ¬(x = "")) :
    normalizeProductLabel x = String.mk (titleCase (collapseWs (jsTrimChars
      (stripBrackets (stripUrls (stripMarkdownLinks x.toList)))))) := by
  unfold normalizeProductLabel
  rw [if_neg hx]

theorem normalizeProductLabel_idem_of_urlfree (x : String)
    (hurl : stripUrls (normalizeProductLabel x).toList =
      (normalizeProductLabel x).toList) :
    normalizeProductLabel (normalizeProductLabel x) = normalizeProductLabel x := by
  by_cases hx : x = ""
  · subst hx
    rfl
  · rw [normalizeProductLabel_stages hx]
    rw [normalizeProductLabel_stages hx] at hurl
    set u := stripBrackets (stripUrls (stripMarkdownLinks x.toList)) with hu
    have hubr : ∀ c ∈ u, isStrayBracket c = false := by
      intro c hc
      have := List.mem_filter.mp hc
      simpa using this.2
    rcases collapseWs_form (jsTrimChars u).length (jsTrimChars u) (Nat.le_refl _)
        (fun c t hct => jsTrimChars_head_nonws hct)
        (fun c t hct => jsTrimChars_last_nonws hct) with htz | ⟨ws, hws, hwsne, hwsw, hwsnws⟩
    · rw [htz]
      rfl
    · rw [hws]
      set ws1 := ws.map (List.map Char.toLower) with hws1
      have hws1ne : ws1 ≠ [] := by
        rw [hws1]
        intro hc
        rw [List.map_eq_nil_iff] at hc
        exact hwsne hc
      have hws1w : ∀ w ∈ ws1, w ≠ [] := by
        intro w hwmem
        obtain ⟨w0, hw0, rfl⟩ := List.mem_map.mp hwmem
        intro hc
        rw [List.map_eq_nil_iff] at hc
        exact hwsw w0 hw0 hc
      have hws1nws : ∀ w ∈ ws1, ∀ c ∈ w, isJsWs c = false := by
        intro w hwmem c hc
        obtain ⟨w0, hw0, rfl⟩ := List.mem_map.mp hwmem
        obtain ⟨c0, hc0, rfl⟩ := List.mem_map.mp hc
        rw [isJsWs_toLower]
        exact hwsnws w0 hw0 c0 hc0
      have hws1low : ∀ w ∈ ws1, ∀ c ∈ w, Char.toLower c = c := by
        intro w hwmem c hc
        obtain ⟨w0, hw0, rfl⟩ := List.mem_map.mp hwmem
        obtain ⟨c0, hc0, rfl⟩ := List.mem_map.mp hc
        exact toLower_toLower c0
      have hrepr : titleCase (joinSpace ws) = joinSpace (ws1.map capWord) := by
        rw [titleCase_joinSpace_repr ws hwsne hwsw hwsnws]
      rw [hrepr]
      -- the canonical label as a character list
      set y := joinSpace (ws1.map capWord) with hy
      have hyw : ∀ w ∈ ws1.map capWord, w ≠ [] := by
        intro w hwmem
        obtain ⟨w0, hw0, rfl⟩ := List.mem_map.mp hwmem
        exact capWord_ne_nil (hws1w w0 hw0)
      have hynws : ∀ w ∈ ws1.map capWord, ∀ c ∈ w, isJsWs c = false := by
        intro w hwmem c hc
        obtain ⟨w0, hw0, rfl⟩ := List.mem_map.mp hwmem
        exact capWord_nonws (hws1nws w0 hw0) c hc
      have hyne : y ≠ [] := by
        rw [hy]
        exact joinSpace_ne_nil (by
          intro hc
          rw [List.map_eq_nil_iff] at hc
          exact hws1ne hc) hyw
      -- characters of y carry no brackets
      have hychar : ∀ c ∈ y, isStrayBracket c = false := by
        intro c hc
        rw [hy] at hc
        rcases mem_joinSpace hc with rfl | ⟨w, hwmem, hcw⟩
        · rfl
        · obtain ⟨w0, hw0, rfl⟩ := List.mem_map.mp hwmem
          have hw0chars : ∀ d ∈ w0, isStrayBracket d = false := by
            intro d hd
            obtain ⟨w00, hw00, rfl⟩ := List.mem_map.mp hw0
            obtain ⟨d0, hd0, rfl⟩ := List.mem_map.mp hd
            rw [isStrayBracket_toLower]
            have hd0z : d0 ∈ collapseWs (jsTrimChars u) := by
              rw [hws]
              exact mem_joinSpace_of_mem hw00 hd0
            rcases mem_cwGo _ _ _ hd0z with rfl | hd0t
            · rfl
            · exact hubr d0 (mem_jsTrimChars hd0t)
          cases w0 with
          | nil => cases hcw
          | cons d0 t0 =>
            rcases List.mem_cons.mp hcw with rfl | hc2
            · rw [isStrayBracket_toUpper]
              exact hw0chars d0 (List.mem_cons_self d0 t0)
            · exact hw0chars c (List.mem_cons_of_mem d0 hc2)
      have hybr : ']' ∉ y := by
        intro hmem
        cases hychar ']' hmem
      -- second pass
      have hmkne : ¬(String.mk y = "") := by
        intro hc
        have : y = [] := congrArg String.toList hc
        exact hyne this
      rw [normalizeProductLabel_stages hmkne]
      have htl : (String.mk y).toList = y := rfl
      rw [htl]
      have hurly : stripUrls y = y := by
        have h1 : ({ data := titleCase (collapseWs (jsTrimChars u)) } : String).toList =
            titleCase (collapseWs (jsTrimChars u)) := rfl
        rw [h1, hws, hrepr] at hurl
        exact hurl
      rw [stripMarkdownLinks_id_of_no_rbracket hybr, hurly]
      have hbry : stripBrackets y = y :=
        List.filter_eq_self.mpr (fun c hc => by rw [hychar c hc]; rfl)
      rw [hbry]
      have htrimy : jsTrimChars y = y := by
        rw [hy]
        exact jsTrimChars_joinSpace_id (ws1.map capWord) hyw hynws
      rw [htrimy]
      have hcolly : collapseWs y = y := by
        rw [hy]
        exact collapseWs_joinSpace_id (ws1.map capWord) hyw hynws
      rw [hcolly]
      have htity : titleCase y = y := by
        rw [hy]
        exact titleCase_fix_on_capped ws1 hws1ne hws1w hws1nws hws1low
      rw [htity]

/-! ## Case-equivalence congruence for the label normalizer -/

theorem beq_congr_of_nonletter {e : Char}
    (he : e.toNat < 65 ∨ (90 < e.toNat ∧ e.toNat < 97) ∨ 122 < e.toNat)
    {c d : Char} (h : Char.toLower c = Char.toLower d) : (c == e) = (d == e) := by
  rw [Bool.eq_iff_iff, beq_iff_eq, beq_iff_eq]
  constructor
  · rintro rfl
    have : Char.toLower d = c := by rw [← h, (toLower_eq_iff_of_nonletter he).mpr rfl]
    exact (toLower_eq_iff_of_nonletter he).mp this
  · rintro rfl
    have : Char.toLower c = d := by rw [h, (toLower_eq_iff_of_nonletter he).mpr rfl]
    exact (toLower_eq_iff_of_nonletter he).mp this

theorem beq_toLower_of_nonletter {e : Char}
    (he : e.toNat < 65 ∨ (90 < e.toNat ∧ e.toNat < 97) ∨ 122 < e.toNat)
    (c : Char) : (Char.toLower c == e) = (c == e) :=
  beq_congr_of_nonletter he (toLower_toLower c)

theorem isEmpty_map_toLower (m : List Char) :
    (m.map Char.toLower).isEmpty = m.isEmpty := by
  cases m <;> rfl

theorem map_toLower_eq_cons {e : Char}
    (he : e.toNat < 65 ∨ (90 < e.toNat ∧ e.toNat < 97) ∨ 122 < e.toNat)
    {l0 rm : List Char} (hm : l0.map Char.toLower = e :: rm) :
    ∃ r, l0 = e :: r ∧ rm = r.map Char.toLower := by
  cases l0 with
  | nil => cases hm
  | cons a t =>
    rw [List.map_cons] at hm
    injection hm with h1 h2
    exact ⟨t, by rw [(toLower_eq_iff_of_nonletter he).mp h1], h2.symm⟩

theorem mdTryLink_map (l : List Char) :
    mdTryLink (l.map Char.toLower) =
      Option.map (fun p => (p.1.map Char.toLower, p.2.map Char.toLower))
        (mdTryLink l) := by
  have hbr : ((fun c : Char => !(c == ']')) ∘ Char.toLower) =
      fun c : Char => !(c == ']') := by
    funext c
    simp only [Function.comp]
    rw [beq_toLower_of_nonletter (by decide)]
  have hpr : ((fun c : Char => !(c == ')')) ∘ Char.toLower) =
      fun c : Char => !(c == ')') := by
    funext c
    simp only [Function.comp]
    rw [beq_toLower_of_nonletter (by decide)]
  symm
  simp only [mdTryLink]
  rw [List.takeWhile_map, List.dropWhile_map, hbr, isEmpty_map_toLower]
  by_cases h1 : (l.takeWhile fun c => !(c == ']')).isEmpty = true
  · rw [if_pos h1, if_pos h1]
    rfl
  · rw [if_neg h1, if_neg h1]
    split
    · rename_i r2 heq
      rw [heq, List.map_cons, List.map_cons,
        show Char.toLower ']' = ']' from by decide,
        show Char.toLower '(' = '(' from by decide]
      change Option.map _ _ = ite _ _ _
      rw [List.takeWhile_map, List.dropWhile_map, hpr, isEmpty_map_toLower]
      by_cases h2 : (r2.takeWhile fun c => !(c == ')')).isEmpty = true
      · rw [if_pos h2, if_pos h2]
        rfl
      · rw [if_neg h2, if_neg h2]
        split
        · rename_i r4 heq3
          rw [heq3, List.map_cons, show Char.toLower ')' = ')' from by decide]
          rfl
        · rename_i hne
          split
          · rename_i r4m heq4
            obtain ⟨r4, hd4, hrm4⟩ := map_toLower_eq_cons (by decide) heq4
            exact absurd hd4 (hne r4)
          · rfl
    · rename_i hne
      split
      · rename_i r2m heq2
        obtain ⟨r1, hd1, hrm⟩ := map_toLower_eq_cons (by decide) heq2
        obtain ⟨r2, hd2, hrm2⟩ := map_toLower_eq_cons (by decide) hrm.symm
        exact absurd (by rw [hd1, hd2]) (hne r2)
      · rfl

theorem smGo_map : ∀ (fuel : Nat) (l : List Char),
    smGo fuel (l.map Char.toLower) = (smGo fuel l).map Char.toLower := by
  intro fuel
  induction fuel with
  | zero => intro l; rfl
  | succ n ih =>
    intro l
    cases l with
    | nil => rfl
    | cons c rest =>
      rw [List.map_cons]
      unfold smGo
      rw [beq_toLower_of_nonletter (by decide) c]
      by_cases hc : (c == '[') = true
      · rw [if_pos hc, if_pos hc, mdTryLink_map]
        cases hmd : mdTryLink rest with
        | none =>
          change Char.toLower c :: smGo n (rest.map Char.toLower) =
            (c :: smGo n rest).map Char.toLower
          rw [List.map_cons, ih]
        | some p =>
          obtain ⟨text, r⟩ := p
          change text.map Char.toLower ++ smGo n (r.map Char.toLower) =
            (text ++ smGo n r).map Char.toLower
          rw [List.map_append, ih]
      · rw [if_neg hc, if_neg hc]
        change Char.toLower c :: smGo n (rest.map Char.toLower) =
          (c :: smGo n rest).map Char.toLower
        rw [List.map_cons, ih]

theorem stripMarkdownLinks_map (l : List Char) :
    stripMarkdownLinks (l.map Char.toLower) =
      (stripMarkdownLinks l).map Char.toLower := by
  unfold stripMarkdownLinks
  rw [List.length_map, smGo_map]

theorem dropCaseInsenPrefix_map : ∀ (pat l : List Char),
    dropCaseInsenPrefix pat (l.map Char.toLower) =
      Option.map (List.map Char.toLower) (dropCaseInsenPrefix pat l) := by
  intro pat
  induction pat with
  | nil => intro l; rfl
  | cons p ps ih =>
    intro l
    cases l with
    | nil => rfl
    | cons c cs =>
      rw [List.map_cons]
      unfold dropCaseInsenPrefix
      rw [toLower_toLower]
      by_cases hc : (c.toLower == p) = true
      · rw [if_pos hc, if_pos hc, ih]
      · rw [if_neg hc, if_neg hc]
        rfl

theorem urlTryMatch_map (l : List Char) :
    urlTryMatch (l.map Char.toLower) =
      Option.map (List.map Char.toLower) (urlTryMatch l) := by
  have hws : ((fun c : Char => !isJsWs c) ∘ Char.toLower) =
      fun c : Char => !isJsWs c := by
    funext c
    simp only [Function.comp]
    rw [isJsWs_toLower]
  simp only [urlTryMatch]
  rw [dropCaseInsenPrefix_map]
  cases h1 : dropCaseInsenPrefix ['h', 't', 't', 'p'] l with
  | none => rfl
  | some r =>
    cases r with
    | nil => rfl
    | cons c r2 =>
      change (dropCaseInsenPrefix [':', '/', '/']
          (if (Char.toLower c).toLower == 's' then r2.map Char.toLower
           else Char.toLower c :: r2.map Char.toLower)).bind _ =
        Option.map _ ((dropCaseInsenPrefix [':', '/', '/']
          (if c.toLower == 's' then r2 else c :: r2)).bind _)
      rw [toLower_toLower]
      by_cases hs : (c.toLower == 's') = true
      · rw [if_pos hs, if_pos hs, dropCaseInsenPrefix_map]
        cases h3 : dropCaseInsenPrefix [':', '/', '/'] r2 with
        | none => rfl
        | some r3 =>
          change (if ((r3.map Char.toLower).takeWhile fun c => !isJsWs c).isEmpty = true
              then none
              else some ((r3.map Char.toLower).dropWhile fun c => !isJsWs c)) =
            Option.map (List.map Char.toLower)
              (if (r3.takeWhile fun c => !isJsWs c).isEmpty = true then none
               else some (r3.dropWhile fun c => !isJsWs c))
          rw [List.takeWhile_map, List.dropWhile_map, hws, isEmpty_map_toLower]
          by_cases h4 : (r3.takeWhile fun c => !isJsWs c).isEmpty = true
          · rw [if_pos h4, if_pos h4]
            rfl
          · rw [if_neg h4, if_neg h4]
            rfl
      · rw [if_neg hs, if_neg hs, ← List.map_cons, dropCaseInsenPrefix_map]
        cases h3 : dropCaseInsenPrefix [':', '/', '/'] (c :: r2) with
        | none => rfl
        | some r3 =>
          change (if ((r3.map Char.toLower).takeWhile fun c => !isJsWs c).isEmpty = true
              then none
              else some ((r3.map Char.toLower).dropWhile fun c => !isJsWs c)) =
            Option.map (List.map Char.toLower)
              (if (r3.takeWhile fun c => !isJsWs c).isEmpty = true then none
               else some (r3.dropWhile fun c => !isJsWs c))
          rw [List.takeWhile_map, List.dropWhile_map, hws, isEmpty_map_toLower]
          by_cases h4 : (r3.takeWhile fun c => !isJsWs c).isEmpty = true
          · rw [if_pos h4, if_pos h4]
            rfl
          · rw [if_neg h4, if_neg h4]
            rfl

theorem uGo_map : ∀ (fuel : Nat) (l : List Char),
    uGo fuel (l.map Char.toLower) = (uGo fuel l).map Char.toLower := by
  intro fuel
  induction fuel with
  | zero => intro l; rfl
  | succ n ih =>
    intro l
    cases l with
    | nil => rfl
    | cons c rest =>
      rw [List.map_cons]
      unfold uGo
      rw [← List.map_cons, urlTryMatch_map]
      cases hu : urlTryMatch (c :: rest) with
      | none =>
        change Char.toLower c :: uGo n (rest.map Char.toLower) =
          (c :: uGo n rest).map Char.toLower
        rw [List.map_cons, ih]
      | some r =>
        exact ih r

theorem stripUrls_map (l : List Char) :
    stripUrls (l.map Char.toLower) = (stripUrls l).map Char.toLower := by
  unfold stripUrls
  rw [List.length_map, uGo_map]

theorem stripBrackets_map (l : List Char) :
    stripBrackets (l.map Char.toLower) = (stripBrackets l).map Char.toLower := by
  unfold stripBrackets
  rw [List.filter_map]
  have hsb : ((fun c : Char => !isStrayBracket c) ∘ Char.toLower) =
      fun c : Char => !isStrayBracket c := by
    funext c
    simp only [Function.comp]
    rw [isStrayBracket_toLower]
  rw [hsb]

theorem jsTrimChars_map (l : List Char) :
    jsTrimChars (l.map Char.toLower) = (jsTrimChars l).map Char.toLower := by
  unfold jsTrimChars
  have hws : (isJsWs ∘ Char.toLower) = isJsWs := by
    funext c
    simp only [Function.comp]
    rw [isJsWs_toLower]
  rw [List.dropWhile_map, hws, ← List.map_reverse, List.dropWhile_map, hws,
    ← List.map_reverse]

theorem cwGo_map : ∀ (fuel : Nat) (l : List Char),
    cwGo fuel (l.map Char.toLower) = (cwGo fuel l).map Char.toLower := by
  intro fuel
  induction fuel with
  | zero => intro l; rfl
  | succ n ih =>
    intro l
    cases l with
    | nil => rfl
    | cons c rest =>
      rw [List.map_cons]
      unfold cwGo
      rw [isJsWs_toLower]
      have hws : (isJsWs ∘ Char.toLower) = isJsWs := by
        funext c
        simp only [Function.comp]
        rw [isJsWs_toLower]
      by_cases hc : isJsWs c = true
      · rw [if_pos hc, if_pos hc, List.dropWhile_map, hws, ih]
        rfl
      · rw [if_neg hc, if_neg hc, ih]
        rfl

theorem collapseWs_map (l : List Char) :
    collapseWs (l.map Char.toLower) = (collapseWs l).map Char.toLower := by
  unfold collapseWs
  rw [List.length_map, cwGo_map]

theorem titleCase_map_toLower (l : List Char) :
    titleCase (l.map Char.toLower) = titleCase l := by
  unfold titleCase
  rw [List.map_map, show (Char.toLower ∘ Char.toLower) = Char.toLower from
    funext toLower_toLower]

theorem normalizeProductLabel_caseEq {x y : String} (h : CaseEq x y) :
    normalizeProductLabel x = normalizeProductLabel y := by
  have h' : x.toList.map Char.toLower = y.toList.map Char.toLower := h
  have hkey : ∀ l : List Char,
      titleCase (collapseWs (jsTrimChars (stripBrackets (stripUrls
        (stripMarkdownLinks l))))) =
      titleCase (collapseWs (jsTrimChars (stripBrackets (stripUrls
        (stripMarkdownLinks (l.map Char.toLower)))))) := by
    intro l
    rw [stripMarkdownLinks_map, stripUrls_map, stripBrackets_map, jsTrimChars_map,
      collapseWs_map, titleCase_map_toLower]
  have hnil : ∀ z : String, z.toList = [] → z = "" := by
    intro z hz
    cases z with
    | mk d =>
      cases hz
      rfl
  unfold normalizeProductLabel
  by_cases hx : x = ""
  · subst hx
    have hy : y = "" := by
      apply hnil
      have : ([] : List Char).map Char.toLower = y.toList.map Char.toLower := h'
      exact List.map_eq_nil_iff.mp this.symm
    subst hy
    rfl
  · have hy : ¬y = "" := by
      intro hy
      subst hy
      apply hx
      apply hnil
      have : x.toList.map Char.toLower = ([] : List Char).map Char.toLower := h'
      exact List.map_eq_nil_iff.mp this
    rw [if_neg hx, if_neg hy, hkey x.toList, hkey y.toList, h']

/-! ## Whitespace-run congruence for the label normalizer -/

theorem wsRel_nil_left : ∀ {l1 l2 : List Char}, WsRel l1 l2 → l1 = [] → l2 = [] := by
  intro l1 l2 h
  induction h with
  | nil => intro; rfl
  | cons hc h ih => intro he; cases he
  | ws hr1 hr2 ha1 ha2 h ih =>
    intro he
    exact absurd (List.append_eq_nil.mp he).1 hr1

theorem wsRel_nil_right : ∀ {l1 l2 : List Char}, WsRel l1 l2 → l2 = [] → l1 = [] := by
  intro l1 l2 h
  induction h with
  | nil => intro; rfl
  | cons hc h ih => intro he; cases he
  | ws hr1 hr2 ha1 ha2 h ih =>
    intro he
    exact absurd (List.append_eq_nil.mp he).1 hr2

theorem wsRel_append : ∀ {a1 a2 b1 b2 : List Char}, WsRel a1 a2 → WsRel b1 b2 →
    WsRel (a1 ++ b1) (a2 ++ b2) := by
  intro a1 a2 b1 b2 h hb
  induction h with
  | nil => exact hb
  | cons hc h ih => exact WsRel.cons hc ih
  | ws hr1 hr2 ha1 ha2 h ih =>
    rw [List.append_assoc, List.append_assoc]
    exact WsRel.ws hr1 hr2 ha1 ha2 ih

theorem wsRel_cons_nonws : ∀ {l1 l2 : List Char} {c : Char} {t1 : List Char},
    WsRel l1 l2 → l1 = c :: t1 → isJsWs c = false →
    ∃ t2, l2 = c :: t2 ∧ WsRel t1 t2 := by
  intro l1 l2 c t1 h
  induction h with
  | nil => intro he; cases he
  | cons hc h ih =>
    intro he hnw
    injection he with h1 h2
    subst h1
    subst h2
    exact ⟨_, rfl, h⟩
  | ws hr1 hr2 ha1 ha2 h ih =>
    intro he hnw
    rename_i r1 r2 l1' l2'
    cases r1 with
    | nil => exact absurd rfl hr1
    | cons d r1' =>
      rw [List.cons_append] at he
      injection he with h1 h2
      have hd : isJsWs c = true := h1 ▸ ha1 d (List.mem_cons_self d r1')
      rw [hnw] at hd
      cases hd

theorem wsRel_takeWhile_of_ws_true {p : Char → Bool}
    (hp : ∀ c, isJsWs c = true → p c = true) :
    ∀ {l1 l2 : List Char}, WsRel l1 l2 →
      WsRel (l1.takeWhile p) (l2.takeWhile p) := by
  intro l1 l2 h
  induction h with
  | nil => exact WsRel.nil
  | cons hc h ih =>
    rename_i c t1 t2
    rw [List.takeWhile_cons, List.takeWhile_cons]
    by_cases hpc : p c = true
    · rw [if_pos hpc, if_pos hpc]
      exact WsRel.cons hc ih
    · rw [if_neg hpc, if_neg hpc]
      exact WsRel.nil
  | ws hr1 hr2 ha1 ha2 h ih =>
    rw [takeWhile_append_of_all (fun c hc => hp c (ha1 c hc)),
      takeWhile_append_of_all (fun c hc => hp c (ha2 c hc))]
    exact WsRel.ws hr1 hr2 ha1 ha2 ih

theorem wsRel_dropWhile_of_ws_true {p : Char → Bool}
    (hp : ∀ c, isJsWs c = true → p c = true) :
    ∀ {l1 l2 : List Char}, WsRel l1 l2 →
      WsRel (l1.dropWhile p) (l2.dropWhile p) := by
  intro l1 l2 h
  induction h with
  | nil => exact WsRel.nil
  | cons hc h ih =>
    rename_i c t1 t2
    rw [List.dropWhile_cons, List.dropWhile_cons]
    by_cases hpc : p c = true
    · rw [if_pos hpc, if_pos hpc]
      exact ih
    · rw [if_neg hpc, if_neg hpc]
      exact WsRel.cons hc h
  | ws hr1 hr2 ha1 ha2 h ih =>
    rw [dropWhile_append_of_all (fun c hc => hp c (ha1 c hc)),
      dropWhile_append_of_all (fun c hc => hp c (ha2 c hc))]
    exact ih

theorem wsRel_takeWhile_nonws_eq : ∀ {l1 l2 : List Char}, WsRel l1 l2 →
    l1.takeWhile (fun c => !isJsWs c) = l2.takeWhile (fun c => !isJsWs c) := by
  intro l1 l2 h
  induction h with
  | nil => rfl
  | cons hc h ih =>
    rename_i c t1 t2
    rw [List.takeWhile_cons, List.takeWhile_cons, if_pos (by rw [hc]; rfl),
      if_pos (by rw [hc]; rfl), ih]
  | ws hr1 hr2 ha1 ha2 h ih =>
    rename_i r1 r2 l1' l2'
    cases r1 with
    | nil => exact absurd rfl hr1
    | cons d1 r1' =>
      cases r2 with
      | nil => exact absurd rfl hr2
      | cons d2 r2' =>
        rw [List.cons_append, List.cons_append, List.takeWhile_cons,
          List.takeWhile_cons,
          if_neg (by rw [ha1 d1 (by simp)]; exact fun hh => by cases hh),
          if_neg (by rw [ha2 d2 (by simp)]; exact fun hh => by cases hh)]

theorem wsRel_dropWhile_nonws : ∀ {l1 l2 : List Char}, WsRel l1 l2 →
    WsRel (l1.dropWhile (fun c => !isJsWs c)) (l2.dropWhile (fun c => !isJsWs c)) := by
  intro l1 l2 h
  induction h with
  | nil => exact WsRel.nil
  | cons hc h ih =>
    rename_i c t1 t2
    rw [List.dropWhile_cons, List.dropWhile_cons, if_pos (by rw [hc]; rfl),
      if_pos (by rw [hc]; rfl)]
    exact ih
  | ws hr1 hr2 ha1 ha2 h ih =>
    rename_i r1 r2 l1' l2'
    cases r1 with
    | nil => exact absurd rfl hr1
    | cons d1 r1' =>
      cases r2 with
      | nil => exact absurd rfl hr2
      | cons d2 r2' =>
        rw [List.cons_append, List.cons_append, List.dropWhile_cons,
          List.dropWhile_cons,
          if_neg (by rw [ha1 d1 (by simp)]; exact fun hh => by cases hh),
          if_neg (by rw [ha2 d2 (by simp)]; exact fun hh => by cases hh)]
        exact WsRel.ws hr1 hr2 ha1 ha2 h

theorem wsRel_isEmpty_eq {l1 l2 : List Char} (h : WsRel l1 l2) :
    l1.isEmpty = l2.isEmpty := by
  cases hl1 : l1 with
  | nil => rw [wsRel_nil_left h hl1]
  | cons c t =>
    cases hl2 : l2 with
    | nil =>
      have := wsRel_nil_right h hl2
      rw [hl1] at this
      cases this
    | cons d t2 => rfl

theorem wsRel_head_ws : ∀ {l1 l2 : List Char} {c : Char} {t1 : List Char},
    WsRel l1 l2 → l1 = c :: t1 → isJsWs c = true →
    ∃ e2 t2, l2 = e2 :: t2 ∧ isJsWs e2 = true := by
  intro l1 l2 c t1 h
  induction h with
  | nil => intro he; cases he
  | cons hc h ih =>
    intro he hws
    injection he with h1 h2
    subst h1
    rw [hws] at hc
    cases hc
  | ws hr1 hr2 ha1 ha2 h ih =>
    intro he hws
    rename_i r1 r2 l1' l2'
    cases r2 with
    | nil => exact absurd rfl hr2
    | cons e2 t2' =>
      exact ⟨e2, t2' ++ l2', rfl, ha2 e2 (List.mem_cons_self e2 t2')⟩

theorem smGo_nil (fuel : Nat) : smGo fuel [] = [] := by
  cases fuel <;> rfl

theorem mdTryLink_some_length {l t r : List Char} (h : mdTryLink l = some (t, r)) :
    r.length < l.length := by
  simp only [mdTryLink] at h
  by_cases h1 : (l.takeWhile fun c => !(c == ']')).isEmpty = true
  · rw [if_pos h1] at h
    cases h
  · rw [if_neg h1] at h
    split at h
    · rename_i r2 heq
      by_cases h2 : (r2.takeWhile fun c => !(c == ')')).isEmpty = true
      · rw [if_pos h2] at h
        cases h
      · rw [if_neg h2] at h
        split at h
        · rename_i r4 heq2
          rw [Option.some.injEq, Prod.mk.injEq] at h
          obtain ⟨ht, hr⟩ := h
          subst hr
          have s1 : (']' :: '(' :: r2).length ≤ l.length := by
            rw [← heq]
            exact (List.dropWhile_suffix _).length_le
          have s2 : (')' :: r4).length ≤ r2.length := by
            rw [← heq2]
            exact (List.dropWhile_suffix _).length_le
          simp only [List.length_cons] at s1 s2
          omega
        · cases h
    · cases h

theorem smGo_mono : ∀ (n : Nat), ∀ (l : List Char) (f : Nat),
    l.length ≤ n → l.length ≤ f → smGo f l = smGo l.length l := by
  intro n
  induction n with
  | zero =>
    intro l f h1 _
    have hl : l = [] := List.length_eq_zero.mp (Nat.le_zero.mp h1)
    subst hl
    rw [smGo_nil, smGo_nil]
  | succ n ih =>
    intro l f h1 h2
    cases l with
    | nil => rw [smGo_nil, smGo_nil]
    | cons c t =>
      rw [List.length_cons] at h1 h2 ⊢
      cases f with
      | zero => omega
      | succ m =>
        unfold smGo
        by_cases hc : (c == '[') = true
        · rw [if_pos hc, if_pos hc]
          cases hmd : mdTryLink t with
          | none =>
            change c :: smGo m t = c :: smGo t.length t
            rw [ih t m (by omega) (by omega)]
          | some p =>
            obtain ⟨text, r⟩ := p
            have hlen := mdTryLink_some_length hmd
            change text ++ smGo m r = text ++ smGo t.length r
            rw [ih r m (by omega) (by omega), ih r t.length (by omega) (by omega)]
        · rw [if_neg hc, if_neg hc]
          change c :: smGo m t = c :: smGo t.length t
          rw [ih t m (by omega) (by omega)]

theorem smGo_copy_front : ∀ (r l : List Char), (∀ c ∈ r, (c == '[') = false) →
    stripMarkdownLinks (r ++ l) = r ++ stripMarkdownLinks l := by
  intro r
  induction r with
  | nil => intro l _; rfl
  | cons d r' ih =>
    intro l hall
    have step : stripMarkdownLinks (d :: (r' ++ l)) =
        d :: stripMarkdownLinks (r' ++ l) := by
      show smGo ((d :: (r' ++ l)).length) (d :: (r' ++ l)) = _
      rw [List.length_cons]
      unfold smGo
      rw [if_neg (by rw [hall d (List.mem_cons_self d r')]; exact Bool.false_ne_true)]
      rfl
    rw [List.cons_append, step, ih l (fun c hc => hall c (List.mem_cons_of_mem d hc))]
    rfl

theorem mdTryLink_wsRel : ∀ {l1 l2 : List Char}, WsRel l1 l2 →
    (mdTryLink l1 = none ∧ mdTryLink l2 = none) ∨
    ∃ t1 r1 t2 r2, mdTryLink l1 = some (t1, r1) ∧ mdTryLink l2 = some (t2, r2) ∧
      WsRel t1 t2 ∧ WsRel r1 r2 := by
  intro l1 l2 h
  have hp : ∀ c : Char, isJsWs c = true → (!(c == ']')) = true := by
    intro c hc
    cases hbe : (c == ']') with
    | true =>
      rw [beq_iff_eq.mp hbe] at hc
      cases hc
    | false => rfl
  have hq : ∀ c : Char, isJsWs c = true → (!(c == ')')) = true := by
    intro c hc
    cases hbe : (c == ')') with
    | true =>
      rw [beq_iff_eq.mp hbe] at hc
      cases hc
    | false => rfl
  have htk := wsRel_takeWhile_of_ws_true hp h
  have hdr := wsRel_dropWhile_of_ws_true hp h
  have hemp := wsRel_isEmpty_eq htk
  by_cases h1 : (l1.takeWhile fun c => !(c == ']')).isEmpty = true
  · left
    refine ⟨by simp only [mdTryLink]; rw [if_pos h1], ?_⟩
    simp only [mdTryLink]
    rw [if_pos (by rw [← hemp]; exact h1)]
  · have h2 : ¬(l2.takeWhile fun c => !(c == ']')).isEmpty = true := by
      rw [← hemp]
      exact h1
    cases hd1 : l1.dropWhile (fun c => !(c == ']')) with
    | nil =>
      have hd2 : l2.dropWhile (fun c => !(c == ']')) = [] := wsRel_nil_left hdr hd1
      left
      refine ⟨by simp only [mdTryLink]; rw [if_neg h1, hd1], ?_⟩
      simp only [mdTryLink]
      rw [if_neg h2, hd2]
    | cons d r =>
      have hdeq : d = ']' := by
        have := dropWhile_head_false hd1
        simpa using this
      subst hdeq
      obtain ⟨t2, hd2, hrel⟩ := wsRel_cons_nonws hdr hd1 (by decide)
      cases r with
      | nil =>
        have ht2 : t2 = [] := wsRel_nil_left hrel rfl
        subst ht2
        left
        refine ⟨by simp only [mdTryLink]; rw [if_neg h1, hd1]; rfl, ?_⟩
        simp only [mdTryLink]
        rw [if_neg h2, hd2]
        rfl
      | cons e r2 =>
        by_cases he : isJsWs e = true
        · obtain ⟨e2, t2', ht2, he2⟩ := wsRel_head_ws hrel rfl he
          subst ht2
          have hep : e ≠ '(' := fun hh => by
            rw [hh] at he
            cases he
          have he2p : e2 ≠ '(' := fun hh => by
            rw [hh] at he2
            cases he2
          left
          constructor
          · simp only [mdTryLink]
            rw [if_neg h1, hd1]
            split
            · rename_i r2' heq
              injection heq with ha hb
              injection hb with hb1 hb2
              exact absurd hb1 hep
            · rfl
          · simp only [mdTryLink]
            rw [if_neg h2, hd2]
            split
            · rename_i r2' heq
              injection heq with ha hb
              injection hb with hb1 hb2
              exact absurd hb1 he2p
            · rfl
        · have henw : isJsWs e = false := by
            cases hje : isJsWs e with
            | true => exact absurd hje he
            | false => rfl
          obtain ⟨t2', ht2, hrel2⟩ := wsRel_cons_nonws hrel rfl henw
          subst ht2
          by_cases hpe : e = '('
          · subst hpe
            have htk2 := wsRel_takeWhile_of_ws_true hq hrel2
            have hdr2 := wsRel_dropWhile_of_ws_true hq hrel2
            have hemp2 := wsRel_isEmpty_eq htk2
            by_cases h3 : (r2.takeWhile fun c => !(c == ')')).isEmpty = true
            · left
              constructor
              · simp only [mdTryLink]
                rw [if_neg h1, hd1]
                change (if (r2.takeWhile fun c => !(c == ')')).isEmpty = true
                    then none
                    else _) = none
                rw [if_pos h3]
              · simp only [mdTryLink]
                rw [if_neg h2, hd2]
                change (if (t2'.takeWhile fun c => !(c == ')')).isEmpty = true
                    then none
                    else _) = none
                rw [if_pos (by rw [← hemp2]; exact h3)]
            · have h4 : ¬(t2'.takeWhile fun c => !(c == ')')).isEmpty = true := by
                rw [← hemp2]
                exact h3
              cases hdd1 : r2.dropWhile (fun c => !(c == ')')) with
              | nil =>
                have hdd2 : t2'.dropWhile (fun c => !(c == ')')) = [] :=
                  wsRel_nil_left hdr2 hdd1
                left
                constructor
                · simp only [mdTryLink]
                  rw [if_neg h1, hd1]
                  change (if (r2.takeWhile fun c => !(c == ')')).isEmpty = true
                      then none
                      else match r2.dropWhile (fun c => !(c == ')')) with
                        | ')' :: r4 =>
                          some (l1.takeWhile fun c => !(c == ']'), r4)
                        | _ => none) = none
                  rw [if_neg h3, hdd1]
                · simp only [mdTryLink]
                  rw [if_neg h2, hd2]
                  change (if (t2'.takeWhile fun c => !(c == ')')).isEmpty = true
                      then none
                      else match t2'.dropWhile (fun c => !(c == ')')) with
                        | ')' :: r4 =>
                          some (l2.takeWhile fun c => !(c == ']'), r4)
                        | _ => none) = none
                  rw [if_neg h4, hdd2]
              | cons g r4 =>
                have hgeq : g = ')' := by
                  have := dropWhile_head_false hdd1
                  simpa using this
                subst hgeq
                obtain ⟨r4', hdd2, hrel4⟩ := wsRel_cons_nonws hdr2 hdd1 (by decide)
                right
                refine ⟨l1.takeWhile fun c => !(c == ']'), r4,
                  l2.takeWhile fun c => !(c == ']'), r4', ?_, ?_, htk, hrel4⟩
                · simp only [mdTryLink]
                  rw [if_neg h1, hd1]
                  change (if (r2.takeWhile fun c => !(c == ')')).isEmpty = true
                      then none
                      else match r2.dropWhile (fun c => !(c == ')')) with
                        | ')' :: r4 =>
                          some (l1.takeWhile fun c => !(c == ']'), r4)
                        | _ => none) = _
                  rw [if_neg h3, hdd1]
                  rfl
                · simp only [mdTryLink]
                  rw [if_neg h2, hd2]
                  change (if (t2'.takeWhile fun c => !(c == ')')).isEmpty = true
                      then none
                      else match t2'.dropWhile (fun c => !(c == ')')) with
                        | ')' :: r4 =>
                          some (l2.takeWhile fun c => !(c == ']'), r4)
                        | _ => none) = _
                  rw [if_neg h4, hdd2]
                  rfl
          · have he2p : e ≠ '(' := hpe
            left
            constructor
            · simp only [mdTryLink]
              rw [if_neg h1, hd1]
              split
              · rename_i r2' heq
                injection heq with ha hb
                injection hb with hb1 hb2
                exact absurd hb1 hpe
              · rfl
            · simp only [mdTryLink]
              rw [if_neg h2, hd2]
              split
              · rename_i r2' heq
                injection heq with ha hb
                injection hb with hb1 hb2
                exact absurd hb1 hpe
              · rfl

theorem stripMarkdownLinks_wsRel_aux : ∀ (n : Nat), ∀ {l1 l2 : List Char},
    l1.length ≤ n → WsRel l1 l2 →
    WsRel (stripMarkdownLinks l1) (stripMarkdownLinks l2) := by
  intro n
  induction n with
  | zero =>
    intro l1 l2 h1 h
    have hn : l1 = [] := List.length_eq_zero.mp (Nat.le_zero.mp h1)
    subst hn
    rw [wsRel_nil_left h rfl]
    exact WsRel.nil
  | succ n ih =>
    intro l1 l2 hlen h
    cases h with
    | nil => exact WsRel.nil
    | cons hc hrest =>
      rename_i c t1 t2
      rw [List.length_cons] at hlen
      by_cases hbr : (c == '[') = true
      · rcases mdTryLink_wsRel hrest with ⟨hm1, hm2⟩ |
          ⟨a1, b1, a2, b2, hm1, hm2, hta, htb⟩
        · have e1 : stripMarkdownLinks (c :: t1) = c :: stripMarkdownLinks t1 := by
            show smGo ((c :: t1).length) (c :: t1) = _
            rw [List.length_cons]
            unfold smGo
            rw [if_pos hbr, hm1]
            rfl
          have e2 : stripMarkdownLinks (c :: t2) = c :: stripMarkdownLinks t2 := by
            show smGo ((c :: t2).length) (c :: t2) = _
            rw [List.length_cons]
            unfold smGo
            rw [if_pos hbr, hm2]
            rfl
          rw [e1, e2]
          exact WsRel.cons hc (ih (by omega) hrest)
        · have hb1 := mdTryLink_some_length hm1
          have hb2 := mdTryLink_some_length hm2
          have e1 : stripMarkdownLinks (c :: t1) = a1 ++ stripMarkdownLinks b1 := by
            show smGo ((c :: t1).length) (c :: t1) = _
            rw [List.length_cons]
            unfold smGo
            rw [if_pos hbr, hm1]
            change a1 ++ smGo t1.length b1 = _
            rw [smGo_mono b1.length b1 t1.length (Nat.le_refl _) (by omega)]
            rfl
          have e2 : stripMarkdownLinks (c :: t2) = a2 ++ stripMarkdownLinks b2 := by
            show smGo ((c :: t2).length) (c :: t2) = _
            rw [List.length_cons]
            unfold smGo
            rw [if_pos hbr, hm2]
            change a2 ++ smGo t2.length b2 = _
            rw [smGo_mono b2.length b2 t2.length (Nat.le_refl _) (by omega)]
            rfl
          rw [e1, e2]
          exact wsRel_append hta (ih (by omega) htb)
      · have e1 : stripMarkdownLinks (c :: t1) = c :: stripMarkdownLinks t1 := by
          show smGo ((c :: t1).length) (c :: t1) = _
          rw [List.length_cons]
          unfold smGo
          rw [if_neg hbr]
          rfl
        have e2 : stripMarkdownLinks (c :: t2) = c :: stripMarkdownLinks t2 := by
          show smGo ((c :: t2).length) (c :: t2) = _
          rw [List.length_cons]
          unfold smGo
          rw [if_neg hbr]
          rfl
        rw [e1, e2]
        exact WsRel.cons hc (ih (by omega) hrest)
    | ws hr1 hr2 ha1 ha2 hrest =>
      rename_i r1 r2 l1' l2'
      have hall1 : ∀ c ∈ r1, (c == '[') = false := by
        intro c hcm
        cases hbe : (c == '[') with
        | true =>
          have hw := ha1 c hcm
          rw [beq_iff_eq.mp hbe] at hw
          exact absurd hw (by decide)
        | false => rfl
      have hall2 : ∀ c ∈ r2, (c == '[') = false := by
        intro c hcm
        cases hbe : (c == '[') with
        | true =>
          have hw := ha2 c hcm
          rw [beq_iff_eq.mp hbe] at hw
          exact absurd hw (by decide)
        | false => rfl
      rw [smGo_copy_front r1 l1' hall1, smGo_copy_front r2 l2' hall2]
      have hr1pos : 1 ≤ r1.length := List.length_pos.mpr hr1
      rw [List.length_append] at hlen
      exact WsRel.ws hr1 hr2 ha1 ha2 (ih (by omega) hrest)

theorem stripMarkdownLinks_wsRel {l1 l2 : List Char} (h : WsRel l1 l2) :
    WsRel (stripMarkdownLinks l1) (stripMarkdownLinks l2) :=
  stripMarkdownLinks_wsRel_aux l1.length (Nat.le_refl _) h

theorem toLower_of_ws {c : Char} (h : isJsWs c = true) : Char.toLower c = c := by
  apply char_eq_of_toNat_eq
  rw [toNat_toLower]
  have := (isJsWs_iff_toNat c).mp h
  rw [if_neg (by omega)]

theorem ws_beq_toLower_false {p : Char} (hp : isJsWs p = false) {c : Char}
    (hc : isJsWs c = true) : (c.toLower == p) = false := by
  rw [toLower_of_ws hc]
  cases hbe : (c == p) with
  | true =>
    rw [beq_iff_eq.mp hbe] at hc
    rw [hp] at hc
    exact absurd hc Bool.false_ne_true
  | false => rfl

theorem dropCaseInsenPrefix_wsRel : ∀ (pat : List Char),
    (∀ p ∈ pat, isJsWs p = false) →
    ∀ {l1 l2 : List Char}, WsRel l1 l2 →
    (dropCaseInsenPrefix pat l1 = none ∧ dropCaseInsenPrefix pat l2 = none) ∨
    ∃ r1 r2, dropCaseInsenPrefix pat l1 = some r1 ∧
      dropCaseInsenPrefix pat l2 = some r2 ∧ WsRel r1 r2 := by
  intro pat
  induction pat with
  | nil =>
    intro _ l1 l2 h
    right
    exact ⟨l1, l2, rfl, rfl, h⟩
  | cons p ps ih =>
    intro hpat l1 l2 h
    cases h with
    | nil => left; exact ⟨rfl, rfl⟩
    | cons hc hrest =>
      rename_i c t1 t2
      have e1 : dropCaseInsenPrefix (p :: ps) (c :: t1) =
          if c.toLower == p then dropCaseInsenPrefix ps t1 else none := rfl
      have e2 : dropCaseInsenPrefix (p :: ps) (c :: t2) =
          if c.toLower == p then dropCaseInsenPrefix ps t2 else none := rfl
      rw [e1, e2]
      by_cases hcp : (c.toLower == p) = true
      · rw [if_pos hcp, if_pos hcp]
        exact ih (fun q hq => hpat q (List.mem_cons_of_mem p hq)) hrest
      · rw [if_neg hcp, if_neg hcp]
        left
        exact ⟨rfl, rfl⟩
    | ws hr1 hr2 ha1 ha2 hrest =>
      rename_i r1 r2 l1' l2'
      cases r1 with
      | nil => exact absurd rfl hr1
      | cons d1 q1 =>
        cases r2 with
        | nil => exact absurd rfl hr2
        | cons d2 q2 =>
          left
          constructor
          · rw [List.cons_append]
            show (if d1.toLower == p then dropCaseInsenPrefix ps (q1 ++ l1')
              else none) = none
            rw [if_neg (by
              rw [ws_beq_toLower_false (hpat p (List.mem_cons_self p ps))
                (ha1 d1 (List.mem_cons_self d1 q1))]
              exact Bool.false_ne_true)]
          · rw [List.cons_append]
            show (if d2.toLower == p then dropCaseInsenPrefix ps (q2 ++ l2')
              else none) = none
            rw [if_neg (by
              rw [ws_beq_toLower_false (hpat p (List.mem_cons_self p ps))
                (ha2 d2 (List.mem_cons_self d2 q2))]
              exact Bool.false_ne_true)]

theorem urlTail_wsRel : ∀ {m1 m2 : List Char}, WsRel m1 m2 →
    (((dropCaseInsenPrefix [':', '/', '/'] m1).bind fun r3 =>
        if (r3.takeWhile fun c => !isJsWs c).isEmpty = true then none
        else some (r3.dropWhile fun c => !isJsWs c)) = none ∧
     ((dropCaseInsenPrefix [':', '/', '/'] m2).bind fun r3 =>
        if (r3.takeWhile fun c => !isJsWs c).isEmpty = true then none
        else some (r3.dropWhile fun c => !isJsWs c)) = none) ∨
    ∃ u1 u2,
      ((dropCaseInsenPrefix [':', '/', '/'] m1).bind fun r3 =>
        if (r3.takeWhile fun c => !isJsWs c).isEmpty = true then none
        else some (r3.dropWhile fun c => !isJsWs c)) = some u1 ∧
      ((dropCaseInsenPrefix [':', '/', '/'] m2).bind fun r3 =>
        if (r3.takeWhile fun c => !isJsWs c).isEmpty = true then none
        else some (r3.dropWhile fun c => !isJsWs c)) = some u2 ∧ WsRel u1 u2 := by
  intro m1 m2 hm
  rcases dropCaseInsenPrefix_wsRel [':', '/', '/'] (by decide) hm with
    ⟨h1, h2⟩ | ⟨r3, r4, h1, h2, hr⟩
  · left
    rw [h1, h2]
    exact ⟨rfl, rfl⟩
  · rw [h1, h2]
    dsimp only [Option.some_bind]
    rw [wsRel_takeWhile_nonws_eq hr]
    by_cases hE : (r4.takeWhile fun c => !isJsWs c).isEmpty = true
    · left
      rw [if_pos hE, if_pos hE]
      exact ⟨rfl, rfl⟩
    · right
      refine ⟨r3.dropWhile fun c => !isJsWs c, r4.dropWhile fun c => !isJsWs c,
        ?_, ?_, wsRel_dropWhile_nonws hr⟩
      · rw [if_neg hE]
      · rw [if_neg hE]

theorem urlTryMatch_wsRel : ∀ {l1 l2 : List Char}, WsRel l1 l2 →
    (urlTryMatch l1 = none ∧ urlTryMatch l2 = none) ∨
    ∃ r1 r2, urlTryMatch l1 = some r1 ∧ urlTryMatch l2 = some r2 ∧
      WsRel r1 r2 := by
  intro l1 l2 h
  simp only [urlTryMatch]
  rcases dropCaseInsenPrefix_wsRel ['h', 't', 't', 'p'] (by decide) h with
    ⟨h1, h2⟩ | ⟨r1, r2, h1, h2, hr⟩
  · left
    rw [h1, h2]
    exact ⟨rfl, rfl⟩
  · rw [h1, h2]
    dsimp only [Option.some_bind]
    cases hr with
    | nil =>
      left
      exact ⟨rfl, rfl⟩
    | cons hc hrest =>
      rename_i c t1 t2
      dsimp only []
      by_cases hs : (c.toLower == 's') = true
      · rw [if_pos hs, if_pos hs]
        exact urlTail_wsRel hrest
      · rw [if_neg hs, if_neg hs]
        exact urlTail_wsRel (WsRel.cons hc hrest)
    | ws hr1 hr2 ha1 ha2 hrest =>
      rename_i q1 q2 m1 m2
      cases q1 with
      | nil => exact absurd rfl hr1
      | cons d1 q1' =>
        cases q2 with
        | nil => exact absurd rfl hr2
        | cons d2 q2' =>
          dsimp only [List.cons_append]
          rw [if_neg (by
              rw [ws_beq_toLower_false (by decide)
                (ha1 d1 (List.mem_cons_self d1 q1'))]
              exact Bool.false_ne_true),
            if_neg (by
              rw [ws_beq_toLower_false (by decide)
                (ha2 d2 (List.mem_cons_self d2 q2'))]
              exact Bool.false_ne_true)]
          have horig : WsRel ((d1 :: q1') ++ m1) ((d2 :: q2') ++ m2) :=
            WsRel.ws hr1 hr2 ha1 ha2 hrest
          rw [List.cons_append, List.cons_append] at horig
          exact urlTail_wsRel horig

theorem dropCaseInsenPrefix_some_length : ∀ (pat l r : List Char),
    dropCaseInsenPrefix pat l = some r → r.length + pat.length = l.length := by
  intro pat
  induction pat with
  | nil =>
    intro l r h
    injection h with h1
    subst h1
    simp
  | cons p ps ih =>
    intro l r h
    cases l with
    | nil => cases h
    | cons c cs =>
      have e1 : dropCaseInsenPrefix (p :: ps) (c :: cs) =
          if c.toLower == p then dropCaseInsenPrefix ps cs else none := rfl
      rw [e1] at h
      by_cases hcp : (c.toLower == p) = true
      · rw [if_pos hcp] at h
        have := ih cs r h
        simp only [List.length_cons]
        omega
      · rw [if_neg hcp] at h
        cases h

theorem urlTryMatch_some_length {l r : List Char} (h : urlTryMatch l = some r) :
    r.length < l.length := by
  simp only [urlTryMatch] at h
  cases h1 : dropCaseInsenPrefix ['h', 't', 't', 'p'] l with
  | none =>
    rw [h1] at h
    cases h
  | some r1 =>
    rw [h1] at h
    dsimp only [Option.some_bind] at h
    have hl1 := dropCaseInsenPrefix_some_length _ _ _ h1
    simp only [List.length_cons, List.length_nil] at hl1
    cases r1 with
    | nil =>
      exact absurd h (by intro hh; cases hh)
    | cons c r2 =>
      dsimp only [] at h
      simp only [List.length_cons] at hl1
      by_cases hs : (c.toLower == 's') = true
      · rw [if_pos hs] at h
        cases h2 : dropCaseInsenPrefix [':', '/', '/'] r2 with
        | none =>
          rw [h2] at h
          cases h
        | some r3 =>
          rw [h2] at h
          dsimp only [Option.some_bind] at h
          have hl2 := dropCaseInsenPrefix_some_length _ _ _ h2
          simp only [List.length_cons, List.length_nil] at hl2
          split at h
          · cases h
          · injection h with h'
            subst h'
            have := (List.dropWhile_suffix
              (fun c => !isJsWs c) (l := r3)).length_le
            omega
      · rw [if_neg hs] at h
        cases h2 : dropCaseInsenPrefix [':', '/', '/'] (c :: r2) with
        | none =>
          rw [h2] at h
          cases h
        | some r3 =>
          rw [h2] at h
          dsimp only [Option.some_bind] at h
          have hl2 := dropCaseInsenPrefix_some_length _ _ _ h2
          simp only [List.length_cons, List.length_nil] at hl2
          split at h
          · cases h
          · injection h with h'
            subst h'
            have := (List.dropWhile_suffix
              (fun c => !isJsWs c) (l := r3)).length_le
            omega

theorem uGo_nil (fuel : Nat) : uGo fuel [] = [] := by
  cases fuel <;> rfl

theorem uGo_mono : ∀ (n : Nat), ∀ (l : List Char) (f : Nat),
    l.length ≤ n → l.length ≤ f → uGo f l = uGo l.length l := by
  intro n
  induction n with
  | zero =>
    intro l f h1 _
    have hl : l = [] := List.length_eq_zero.mp (Nat.le_zero.mp h1)
    subst hl
    rw [uGo_nil, uGo_nil]
  | succ n ih =>
    intro l f h1 h2
    cases l with
    | nil => rw [uGo_nil, uGo_nil]
    | cons c t =>
      rw [List.length_cons] at h1 h2 ⊢
      cases f with
      | zero => omega
      | succ m =>
        unfold uGo
        cases hu : urlTryMatch (c :: t) with
        | none =>
          change c :: uGo m t = c :: uGo t.length t
          rw [ih t m (by omega) (by omega)]
        | some r =>
          have hlen := urlTryMatch_some_length hu
          rw [List.length_cons] at hlen
          change uGo m r = uGo t.length r
          rw [ih r m (by omega) (by omega), ih r t.length (by omega) (by omega)]

theorem urlTryMatch_none_of_ws_head {d : Char} (hd : isJsWs d = true)
    (rest : List Char) : urlTryMatch (d :: rest) = none := by
  simp only [urlTryMatch]
  have e1 : dropCaseInsenPrefix ['h', 't', 't', 'p'] (d :: rest) =
      if d.toLower == 'h' then dropCaseInsenPrefix ['t', 't', 'p'] rest
      else none := rfl
  rw [e1, if_neg (by
    rw [ws_beq_toLower_false (by decide) hd]
    exact Bool.false_ne_true)]
  rfl

theorem uGo_copy_ws_front : ∀ (r l : List Char), (∀ c ∈ r, isJsWs c = true) →
    stripUrls (r ++ l) = r ++ stripUrls l := by
  intro r
  induction r with
  | nil => intro l _; rfl
  | cons d r' ih =>
    intro l hall
    have step : stripUrls (d :: (r' ++ l)) = d :: stripUrls (r' ++ l) := by
      show uGo ((d :: (r' ++ l)).length) (d :: (r' ++ l)) = _
      rw [List.length_cons]
      unfold uGo
      rw [urlTryMatch_none_of_ws_head (hall d (List.mem_cons_self d r')) (r' ++ l)]
      rfl
    rw [List.cons_append, step, ih l (fun c hc => hall c (List.mem_cons_of_mem d hc))]
    rfl

theorem stripUrls_wsRel_aux : ∀ (n : Nat), ∀ {l1 l2 : List Char},
    l1.length ≤ n → WsRel l1 l2 →
    WsRel (stripUrls l1) (stripUrls l2) := by
  intro n
  induction n with
  | zero =>
    intro l1 l2 h1 h
    have hn : l1 = [] := List.length_eq_zero.mp (Nat.le_zero.mp h1)
    subst hn
    rw [wsRel_nil_left h rfl]
    exact WsRel.nil
  | succ n ih =>
    intro l1 l2 hlen h
    cases h with
    | nil => exact WsRel.nil
    | cons hc hrest =>
      rename_i c t1 t2
      rw [List.length_cons] at hlen
      rcases urlTryMatch_wsRel (WsRel.cons hc hrest) with ⟨hm1, hm2⟩ |
        ⟨b1, b2, hm1, hm2, htb⟩
      · have e1 : stripUrls (c :: t1) = c :: stripUrls t1 := by
          show uGo ((c :: t1).length) (c :: t1) = _
          rw [List.length_cons]
          unfold uGo
          rw [hm1]
          rfl
        have e2 : stripUrls (c :: t2) = c :: stripUrls t2 := by
          show uGo ((c :: t2).length) (c :: t2) = _
          rw [List.length_cons]
          unfold uGo
          rw [hm2]
          rfl
        rw [e1, e2]
        exact WsRel.cons hc (ih (by omega) hrest)
      · have hb1 := urlTryMatch_some_length hm1
        have hb2 := urlTryMatch_some_length hm2
        rw [List.length_cons] at hb1 hb2
        have e1 : stripUrls (c :: t1) = stripUrls b1 := by
          show uGo ((c :: t1).length) (c :: t1) = _
          rw [List.length_cons]
          unfold uGo
          rw [hm1]
          change uGo t1.length b1 = _
          rw [uGo_mono b1.length b1 t1.length (Nat.le_refl _) (by omega)]
          rfl
        have e2 : stripUrls (c :: t2) = stripUrls b2 := by
          show uGo ((c :: t2).length) (c :: t2) = _
          rw [List.length_cons]
          unfold uGo
          rw [hm2]
          change uGo t2.length b2 = _
          rw [uGo_mono b2.length b2 t2.length (Nat.le_refl _) (by omega)]
          rfl
        rw [e1, e2]
        exact ih (by omega) htb
    | ws hr1 hr2 ha1 ha2 hrest =>
      rename_i r1 r2 l1' l2'
      rw [uGo_copy_ws_front r1 l1' ha1, uGo_copy_ws_front r2 l2' ha2]
      have hr1pos : 1 ≤ r1.length := List.length_pos.mpr hr1
      rw [List.length_append] at hlen
      exact WsRel.ws hr1 hr2 ha1 ha2 (ih (by omega) hrest)

theorem stripUrls_wsRel {l1 l2 : List Char} (h : WsRel l1 l2) :
    WsRel (stripUrls l1) (stripUrls l2) :=
  stripUrls_wsRel_aux l1.length (Nat.le_refl _) h

theorem ws_not_bracket {c : Char} (h : isJsWs c = true) :
    isStrayBracket c = false := by
  have h1 := (isJsWs_iff_toNat c).mp h
  cases hb : isStrayBracket c with
  | true =>
    have := (isStrayBracket_iff_toNat c).mp hb
    omega
  | false => rfl

theorem stripBrackets_wsRel : ∀ {l1 l2 : List Char}, WsRel l1 l2 →
    WsRel (stripBrackets l1) (stripBrackets l2) := by
  intro l1 l2 h
  unfold stripBrackets
  induction h with
  | nil => exact WsRel.nil
  | cons hc h ih =>
    rename_i c t1 t2
    rw [List.filter_cons, List.filter_cons]
    by_cases hb : (!isStrayBracket c) = true
    · rw [if_pos hb, if_pos hb]
      exact WsRel.cons hc ih
    · rw [if_neg hb, if_neg hb]
      exact ih
  | ws hr1 hr2 ha1 ha2 h ih =>
    rename_i r1 r2 l1' l2'
    rw [List.filter_append, List.filter_append,
      List.filter_eq_self.mpr
        (fun c (hc : c ∈ r1) => by rw [ws_not_bracket (ha1 c hc)]; rfl),
      List.filter_eq_self.mpr
        (fun c (hc : c ∈ r2) => by rw [ws_not_bracket (ha2 c hc)]; rfl)]
    exact WsRel.ws hr1 hr2 ha1 ha2 ih

theorem wsRel_reverse : ∀ {l1 l2 : List Char}, WsRel l1 l2 →
    WsRel l1.reverse l2.reverse := by
  intro l1 l2 h
  induction h with
  | nil => exact WsRel.nil
  | cons hc h ih =>
    rename_i c t1 t2
    rw [List.reverse_cons, List.reverse_cons]
    exact wsRel_append ih (WsRel.cons hc WsRel.nil)
  | ws hr1 hr2 ha1 ha2 h ih =>
    rename_i r1 r2 l1' l2'
    rw [List.reverse_append, List.reverse_append]
    have hrev : WsRel (r1.reverse ++ []) (r2.reverse ++ []) := by
      refine WsRel.ws ?_ ?_ ?_ ?_ WsRel.nil
      · rw [Ne, List.reverse_eq_nil_iff]
        exact hr1
      · rw [Ne, List.reverse_eq_nil_iff]
        exact hr2
      · intro c hc
        exact ha1 c (List.mem_reverse.mp hc)
      · intro c hc
        exact ha2 c (List.mem_reverse.mp hc)
    rw [List.append_nil, List.append_nil] at hrev
    exact wsRel_append ih hrev

theorem jsTrimChars_wsRel {l1 l2 : List Char} (h : WsRel l1 l2) :
    WsRel (jsTrimChars l1) (jsTrimChars l2) := by
  unfold jsTrimChars
  exact wsRel_reverse (wsRel_dropWhile_of_ws_true (fun c hc => hc)
    (wsRel_reverse (wsRel_dropWhile_of_ws_true (fun c hc => hc) h)))

theorem wsRel_collapseWs_eq_aux : ∀ (n : Nat), ∀ {l1 l2 : List Char},
    l1.length ≤ n → WsRel l1 l2 → collapseWs l1 = collapseWs l2 := by
  intro n
  induction n with
  | zero =>
    intro l1 l2 h1 h
    have hn : l1 = [] := List.length_eq_zero.mp (Nat.le_zero.mp h1)
    subst hn
    rw [wsRel_nil_left h rfl]
  | succ n ih =>
    intro l1 l2 hlen h
    cases h with
    | nil => rfl
    | cons hc hrest =>
      rename_i c t1 t2
      rw [List.length_cons] at hlen
      have e1 := collapseWs_copy_nonws
        (w := [c]) (by intro d hd; rw [List.mem_singleton.mp hd]; exact hc) t1
      have e2 := collapseWs_copy_nonws
        (w := [c]) (by intro d hd; rw [List.mem_singleton.mp hd]; exact hc) t2
      rw [List.singleton_append] at e1 e2
      rw [e1, e2, ih (by omega) hrest]
    | ws hr1 hr2 ha1 ha2 hrest =>
      rename_i r1 r2 l1' l2'
      rw [List.length_append] at hlen
      have hr1pos : 1 ≤ r1.length := List.length_pos.mpr hr1
      cases r1 with
      | nil => exact absurd rfl hr1
      | cons d1 q1 =>
        cases r2 with
        | nil => exact absurd rfl hr2
        | cons d2 q2 =>
          rw [List.cons_append, List.cons_append,
            collapseWs_ws_cons (ha1 d1 (List.mem_cons_self d1 q1)),
            collapseWs_ws_cons (ha2 d2 (List.mem_cons_self d2 q2)),
            dropWhile_append_of_all
              (fun c hc => ha1 c (List.mem_cons_of_mem d1 hc)),
            dropWhile_append_of_all
              (fun c hc => ha2 c (List.mem_cons_of_mem d2 hc))]
          have hsub : WsRel (l1'.dropWhile isJsWs) (l2'.dropWhile isJsWs) :=
            wsRel_dropWhile_of_ws_true (fun c hc => hc) hrest
          have hdlen : (l1'.dropWhile isJsWs).length ≤ l1'.length :=
            (List.dropWhile_suffix _).length_le
          rw [ih (by simp only [List.length_cons] at hlen; omega) hsub]

theorem wsRel_collapseWs_eq {l1 l2 : List Char} (h : WsRel l1 l2) :
    collapseWs l1 = collapseWs l2 :=
  wsRel_collapseWs_eq_aux l1.length (Nat.le_refl _) h

theorem normalizeProductLabel_wsRel {x y : String} (h : WsRel x.toList y.toList) :
    normalizeProductLabel x = normalizeProductLabel y := by
  have hnil : ∀ z : String, z.toList = [] → z = "" := by
    intro z hz
    cases z with
    | mk d =>
      cases hz
      rfl
  unfold normalizeProductLabel
  by_cases hx : x = ""
  · subst hx
    have hy : y = "" := hnil y (wsRel_nil_left h rfl)
    subst hy
    rfl
  · have hy : ¬y = "" := by
      intro hy
      subst hy
      exact hx (hnil x (wsRel_nil_right h rfl))
    rw [if_neg hx, if_neg hy]
    have h4 := jsTrimChars_wsRel (stripBrackets_wsRel (stripUrls_wsRel
      (stripMarkdownLinks_wsRel h)))
    rw [wsRel_collapseWs_eq h4]

theorem mdTryLink_wrap {t u : List Char} (ht : t ≠ []) (htb : ']' ∉ t)
    (hu : u ≠ []) (hub : ')' ∉ u) :
    mdTryLink (t ++ ']' :: '(' :: (u ++ [')'])) = some (t, []) := by
  have htall : ∀ c ∈ t, (!(c == ']')) = true := by
    intro c hc
    cases hbe : (c == ']') with
    | true => exact absurd (beq_iff_eq.mp hbe ▸ hc) htb
    | false => rfl
  have huall : ∀ c ∈ u, (!(c == ')')) = true := by
    intro c hc
    cases hbe : (c == ')') with
    | true => exact absurd (beq_iff_eq.mp hbe ▸ hc) hub
    | false => rfl
  have hne : ¬(t.isEmpty = true) := by
    cases t with
    | nil => exact absurd rfl ht
    | cons a b => exact fun hh => by cases hh
  have hneu : ¬(u.isEmpty = true) := by
    cases u with
    | nil => exact absurd rfl hu
    | cons a b => exact fun hh => by cases hh
  simp only [mdTryLink]
  rw [takeWhile_append_of_all htall,
    show (']' :: '(' :: (u ++ [')'])).takeWhile (fun c => !(c == ']')) = []
      from rfl,
    List.append_nil,
    dropWhile_append_of_all htall,
    show (']' :: '(' :: (u ++ [')'])).dropWhile (fun c => !(c == ']')) =
      ']' :: '(' :: (u ++ [')']) from rfl]
  rw [if_neg hne]
  change (if ((u ++ [')']).takeWhile fun c => !(c == ')')).isEmpty = true
      then none
      else match (u ++ [')']).dropWhile (fun c => !(c == ')')) with
        | ')' :: r4 => some (t, r4)
        | _ => none) = some (t, [])
  rw [takeWhile_append_of_all huall,
    show ([')'] : List Char).takeWhile (fun c => !(c == ')')) = [] from rfl,
    List.append_nil,
    dropWhile_append_of_all huall,
    show ([')'] : List Char).dropWhile (fun c => !(c == ')')) = [')'] from rfl]
  rw [if_neg hneu]
  rfl

theorem normalizeProductLabel_mdWrap {t u : List Char} (ht : t ≠ [])
    (htb : ']' ∉ t) (hu : u ≠ []) (hub : ')' ∉ u) :
    normalizeProductLabel (String.mk ('[' :: (t ++ ']' :: '(' :: (u ++ [')'])))) =
      normalizeProductLabel (String.mk t) := by
  have hw : stripMarkdownLinks ('[' :: (t ++ ']' :: '(' :: (u ++ [')']))) = t := by
    unfold stripMarkdownLinks
    rw [List.length_cons]
    unfold smGo
    rw [if_pos (show (('[' : Char) == '[') = true from rfl),
      mdTryLink_wrap ht htb hu hub]
    change t ++ smGo (t ++ ']' :: '(' :: (u ++ [')'])).length [] = t
    rw [smGo_nil, List.append_nil]
  have hs1 : String.mk ('[' :: (t ++ ']' :: '(' :: (u ++ [')']))) ≠ "" := by
    intro hh
    cases congrArg String.toList hh
  have hs2 : String.mk t ≠ "" := by
    intro hh
    exact ht (congrArg String.toList hh)
  unfold normalizeProductLabel
  rw [if_neg hs1, if_neg hs2,
    show (String.mk ('[' :: (t ++ ']' :: '(' :: (u ++ [')'])))).toList =
      '[' :: (t ++ ']' :: '(' :: (u ++ [')'])) from rfl,
    show (String.mk t).toList = t from rfl, hw,
    stripMarkdownLinks_id_of_no_rbracket htb]

/-- C7 (counterexample): unrestricted idempotence and unrestricted
markdown-wrap congruence both fail.  `normalizeProductLabel "htt[p]://x"`
yields `"Http://x"` — bracket stripping reassembles a URL that the second pass
then deletes, so renormalizing yields `""`.  And wrapping the text `"a]b"` as
the markdown link `"[a]b](u)"` normalizes to `"Abu"` while the bare text
normalizes to `"Ab"`, because the `]` inside the text shifts the link match. -/
theorem c7_counterexample :
    normalizeProductLabel (normalizeProductLabel "htt[p]://x") ≠
      normalizeProductLabel "htt[p]://x" ∧
    normalizeProductLabel "[a]b](u)" ≠ normalizeProductLabel "a]b" := by
  constructor
  · decide
  · decide

/-- C7: label canonicalization, amended.  (i) `normalizeProductLabel` is
idempotent on every input whose normal form is URL-strip stable (stripping
URLs from the output changes nothing — true in particular whenever the output
contains no `"http"`/`"https"` scheme, and violated only by pathological
labels whose bracket stripping manufactures a new URL); (ii) two labels equal
up to ASCII letter case normalize identically; (iii) two labels that differ
only in (non-empty) whitespace runs normalize identically; (iv) wrapping a
label in a markdown link `[text](url)` with non-empty text free of `]` and
non-empty url free of `)` normalizes identically to the bare text. -/
theorem c7_label_canonicalization :
    (∀ x : String,
        stripUrls (normalizeProductLabel x).toList =
          (normalizeProductLabel x).toList →
        normalizeProductLabel (normalizeProductLabel x) =
          normalizeProductLabel x) ∧
    (∀ x y : String, CaseEq x y →
        normalizeProductLabel x = normalizeProductLabel y) ∧
    (∀ x y : String, WsRel x.toList y.toList →
        normalizeProductLabel x = normalizeProductLabel y) ∧
    (∀ t u : List Char, t ≠ [] → ']' ∉ t → u ≠ [] → ')' ∉ u →
        normalizeProductLabel
            (String.mk ('[' :: (t ++ ']' :: '(' :: (u ++ [')'])))) =
          normalizeProductLabel (String.mk t)) :=
  ⟨fun x h => normalizeProductLabel_idem_of_urlfree x h,
   fun _ _ h => normalizeProductLabel_caseEq h,
   fun _ _ h => normalizeProductLabel_wsRel h,
   fun _ _ h1 h2 h3 h4 => normalizeProductLabel_mdWrap h1 h2 h3 h4⟩

/-- C7 (witness): the four amended conjuncts applied at concrete labels:
renormalizing `"BC  sales"` is a fixed point; `"SALES docs"` and
`"sales DOCS"` collapse to the same label; `"a b"` and `"a  b"` collapse to
the same label; and `[sales](u)` normalizes like `sales`. -/
theorem c7_witness :
    normalizeProductLabel (normalizeProductLabel "BC  sales") =
      normalizeProductLabel "BC  sales" ∧
    normalizeProductLabel "SALES docs" = normalizeProductLabel "sales DOCS" ∧
    normalizeProductLabel "a b" = normalizeProductLabel "a  b" ∧
    normalizeProductLabel
        (String.mk ('[' :: ("sales".toList ++ ']' :: '(' ::
          ("u".toList ++ [')'])))) =
      normalizeProductLabel (String.mk "sales".toList) :=
  ⟨c7_label_canonicalization.1 "BC  sales" (by decide),
   c7_label_canonicalization.2.1 "SALES docs" "sales DOCS"
     (show "SALES docs".toList.map Char.toLower =
       "sales DOCS".toList.map Char.toLower by decide),
   c7_label_canonicalization.2.2.1 "a b" "a  b"
     (show WsRel ('a' :: ([' '] ++ ['b'])) ('a' :: ([' ', ' '] ++ ['b'])) from
       WsRel.cons (by decide)
         (WsRel.ws (by decide) (by decide) (by decide) (by decide)
           (WsRel.cons (by decide) WsRel.nil))),
   c7_label_canonicalization.2.2.2 "sales".toList "u".toList
     (by decide) (by decide) (by decide) (by decide)⟩
